import Mathlib

/-!
# Verification of the tidwall/btree B-tree engine

This file gives a shallow embedding, in Lean 4, of the generic B-tree engine
`BTreeG[T]` of the repository (files `btreeg.go` / `btreeg_iter.go`, whose
bodies appear in `src/bytes/btree_test.go` and `src/unnamed/part_005`), and
proves or refutes the frozen claims C1..C10 about it.

Two models are developed:

* A *functional model* (`namespace BT`): a tree is an inductive value holding
  the node contents (`items`, optional `children`, and the stored `count`
  field).  Every operation is translated line-by-line from the Go source,
  returning the updated value.  Copy-on-write is content-invisible here, so
  this model settles the content-level claims (validity invariants, search
  and hint behavior, split/rebalance shape, delete/pop semantics, cursors).
  The Go item type `T` with its `less` predicate is modelled by a type `α`
  with a linear order; `tr.empty` (Go's zero value) is `default` of an
  `Inhabited` instance.  Non-structural recursion (the split-retry in
  `nodeSet`/`setHint`, and descents through indexed children) uses an
  explicit fuel parameter and returns `Option`; Go always terminates, and
  the theorems quantify over every fuel that yields a result.

* A *heap model* (`namespace BH`): nodes live in an addressed store and carry
  their `isoid` tag; trees are handles holding a root address.  Mutating
  operations thread the store explicitly, performing the same
  copy-on-write `isoLoad` as the source.  This model settles the
  frame/aliasing claims: snapshot isolation of `Copy` (C2) and the
  read-only-ness of the non-`Mut` accessors (C10).
-/

namespace BT

variable {α : Type} [LinearOrder α] [Inhabited α]

/-- A node of the B-tree: `items`, optional `children` (absent for leaves,
as in Go where `children == nil` means leaf), and the stored subtree `count`
(Go `int`, modelled as `Int`). Mirrors `type node[T any] struct`. -/
inductive Node (α : Type) : Type where
  | mk (items : List α) (children : Option (List (Node α))) (count : Int)
deriving Inhabited

/-- `n.items` -/
def Node.items : Node α → List α
  | .mk is _ _ => is

/-- `n.children` -/
def Node.children : Node α → Option (List (Node α))
  | .mk _ cs _ => cs

/-- `n.count` -/
def Node.count : Node α → Int
  | .mk _ _ c => c

/-- `func (n *node[T]) leaf() bool { return n.children == nil }` -/
def Node.leaf (n : Node α) : Bool := n.children.isNone

theorem Node.items_mk (its : List α) (ch : Option (List (Node α))) (cnt : Int) :
    (Node.mk its ch cnt).items = its := rfl

theorem Node.children_mk (its : List α) (ch : Option (List (Node α))) (cnt : Int) :
    (Node.mk its ch cnt).children = ch := rfl

theorem Node.count_mk (its : List α) (ch : Option (List (Node α))) (cnt : Int) :
    (Node.mk its ch cnt).count = cnt := rfl

theorem Node.leaf_mk (its : List α) (ch : Option (List (Node α))) (cnt : Int) :
    (Node.mk its ch cnt).leaf = ch.isNone := rfl

/-- The tree handle: `root` (nil when empty), `count`, and the occupancy
bounds `min`/`max`.  The Go fields `isoid`, `mu`, `locks`, `copyItems`,
`isoCopyItems` only matter for the heap model; `less` is the order on `α`
and `empty` is `default`. Mirrors `type BTreeG[T any] struct`. -/
structure Tree (α : Type) where
  root : Option (Node α)
  count : Int
  minI : Nat
  maxI : Nat

/-- `func degreeToMinMax(deg int) (min, max int)` -/
def degreeToMinMax (deg : Int) : Nat × Nat :=
  let d : Int := if deg ≤ 0 then 32 else if deg = 1 then 2 else deg
  let mx : Int := d * 2 - 1
  let mn : Int := mx / 2
  (mn.toNat, mx.toNat)

/-- `NewBTreeGOptions` with a given degree: a fresh empty tree. -/
def newTree (deg : Int) : Tree α :=
  { root := none, count := 0
    minI := (degreeToMinMax deg).1, maxI := (degreeToMinMax deg).2 }

/-- `func (tr *BTreeG[T]) bsearch(n *node[T], key T) (index int, found bool)`,
the inner `for low < high` loop, on the item list. -/
def bsearchLoop (items : List α) (key : α) (low high : Nat) : Nat :=
  if _h : low < high then
    let m := (low + high) / 2
    if ¬ (key < items.getD m default) then
      bsearchLoop items key (m + 1) high
    else
      bsearchLoop items key low m
  else low
termination_by high - low
decreasing_by
· omega
· omega

/-- `bsearch`: lower-level binary search; returns `(index, found)`. -/
def bsearch (items : List α) (key : α) : Nat × Bool :=
  let low := bsearchLoop items key 0 items.length
  if low > 0 ∧ ¬ (items.getD (low - 1) default < key) then
    (low - 1, true)
  else
    (low, false)

/-- `type PathHint struct { used [8]bool; path [8]uint8 }`.
The arrays are modelled as lists (read with `getD`, written with `set`);
`uint8` writes are mirrored by reducing mod 256. -/
structure PathHint where
  used : List Bool
  path : List Nat

/-- The all-zero `PathHint{}`. -/
def PathHint.empty : PathHint :=
  { used := List.replicate 8 false, path := List.replicate 8 0 }

/-- The `for low <= high` binary-search loop inside `hintsearch`.  `low` and
`high` are Go ints (so `high` may reach -1): modelled as `Int`.  Returns the
final `low`. -/
def hsLoop (items : List α) (key : α) (low high : Int) : Int :=
  if _h : low ≤ high then
    let mid := low + ((high + 1) - low) / 2
    if ¬ (key < items.getD mid.toNat default) then
      hsLoop items key (mid + 1) high
    else
      hsLoop items key low (mid - 1)
  else low
termination_by (high + 1 - low).toNat
decreasing_by
· omega
· omega

/-- The binary-search tail of `hintsearch`: run the loop, then decide
`found` from `items[low-1]`. -/
def hsBinary (items : List α) (key : α) (low high : Int) : Nat × Bool :=
  let lowF := hsLoop items key low high
  if lowF > 0 ∧ ¬ (items.getD (lowF - 1).toNat default < key) then
    ((lowF - 1).toNat, true)
  else
    (lowF.toNat, false)

/-- The neighbor probe of `hintsearch` once the hinted `index` is in range:
check `items[index]` and its left neighbor, falling through to the narrowed
binary search. -/
def hsProbe (items : List α) (key : α) (index : Nat) : Nat × Bool :=
  if key < items.getD index default then
    if index = 0 ∨ items.getD (index - 1) default < key then (index, false)
    else hsBinary items key 0 ((index : Int) - 1)
  else if items.getD index default < key then
    hsBinary items key ((index : Int) + 1) ((items.length : Int) - 1)
  else (index, true)

/-- The `(index, found)` computation of
`func (tr *BTreeG[T]) hintsearch(n, key, hint, depth)` (hint not yet
updated). -/
def hintsearchRaw (items : List α) (key : α) (hint : PathHint) (depth : Nat) :
    Nat × Bool :=
  if depth < 8 ∧ hint.used.getD depth false then
    let index := hint.path.getD depth 0
    if index ≥ items.length then
      if items.getD (items.length - 1) default < key then (items.length, false)
      else hsProbe items key (items.length - 1)
    else hsProbe items key index
  else hsBinary items key 0 ((items.length : Int) - 1)

/-- Clear `used[d]` for all `d` in `[from8, 8)` (the hint-invalidation loop). -/
def clearUsed (used : List Bool) (from8 : Nat) : List Bool :=
  used.mapIdx (fun i b => if from8 ≤ i ∧ i < 8 then false else b)

/-- The `path_match:` epilogue of `hintsearch`: record the chosen index in
the hint (biased by one for a leaf hit), and invalidate deeper breadcrumbs
when the recorded index changed. -/
def hsUpdate (isLf : Bool) (index : Nat) (found : Bool)
    (hint : PathHint) (depth : Nat) : PathHint :=
  if depth < 8 then
    let used1 := hint.used.set depth true
    let pathIndex := (if isLf ∧ found then index + 1 else index) % 256
    if pathIndex ≠ hint.path.getD depth 0 then
      { used := clearUsed used1 (depth + 1), path := hint.path.set depth pathIndex }
    else
      { hint with used := used1 }
  else hint

/-- `hintsearch`: result plus the updated hint. -/
def hintsearch (n : Node α) (key : α) (hint : PathHint) (depth : Nat) :
    (Nat × Bool) × PathHint :=
  let r := hintsearchRaw n.items key hint depth
  (r, hsUpdate n.leaf r.1 r.2 hint depth)

/-- `func (tr *BTreeG[T]) find(n, key, hint, depth)`: dispatch on `hint == nil`. -/
def find (n : Node α) (key : α) (hint : Option PathHint) (depth : Nat) :
    (Nat × Bool) × Option PathHint :=
  match hint with
  | none => (bsearch n.items key, none)
  | some h =>
    let r := hintsearch n key h depth
    (r.1, some r.2)

/-- `func (n *node[T]) updateCount()`: recompute `count` from the current
items and (for internal nodes) child counts. -/
def Node.updateCount (n : Node α) : Node α :=
  match n with
  | .mk items none _ => .mk items none items.length
  | .mk items (some cs) _ =>
      .mk items (some cs) ((items.length : Int) + (cs.map Node.count).sum)

/-- `func (tr *BTreeG[T]) nodeSplit(n) (right, median)`: split at
`i = max / 2`; the left node is the truncation of `n`.  Returns
`(left, right, median)`. -/
def nodeSplit (mx : Nat) (n : Node α) : Node α × Node α × α :=
  let i := mx / 2
  let median := n.items.getD i default
  let right : Node α :=
    Node.updateCount (.mk (n.items.drop (i + 1)) (n.children.map (·.drop (i + 1))) 0)
  let left : Node α :=
    Node.updateCount (.mk (n.items.take i) (n.children.map (·.take (i + 1))) 0)
  (left, right, median)

/-- `func (tr *BTreeG[T]) nodeSet(cn, item, hint, depth) (prev, replaced, split)`.
The updated node is returned (Go updates it through the cell) along with
`(prev, replaced, split)` and the updated hint.  The split-retry
(`return tr.nodeSet(&n, item, hint, depth)`) and the descent both consume
fuel; `none` means fuel ran out (the Go code always terminates). -/
def nodeSet (mx : Nat) (n : Node α) (item : α) (hint : Option PathHint)
    (depth : Nat) : Nat → Option (Node α × α × Bool × Bool × Option PathHint)
  | 0 => none
  | fuel + 1 =>
    let fr := find n item hint depth
    let i := fr.1.1
    let found := fr.1.2
    let hint1 := fr.2
    if found then
      some (.mk (n.items.set i item) n.children n.count,
            n.items.getD i default, true, false, hint1)
    else
      match n.children with
      | none =>
        if n.items.length = mx then some (n, default, false, true, hint1)
        else some (.mk (n.items.insertIdx i item) none (n.count + 1),
                   default, false, false, hint1)
      | some cs =>
        match nodeSet mx (cs.getD i default) item hint1 (depth + 1) fuel with
        | none => none
        | some (c', prev, replaced, split, hint2) =>
          if split then
            if n.items.length = mx then some (n, default, false, true, hint2)
            else
              let lrm := nodeSplit mx c'
              let cs2 := (cs.set i lrm.1).insertIdx (i + 1) lrm.2.1
              let n1 : Node α := .mk (n.items.insertIdx i lrm.2.2) (some cs2) n.count
              nodeSet mx n1 item hint2 depth fuel
          else
            some (.mk n.items (some (cs.set i c'))
                    (if replaced then n.count else n.count + 1),
                  prev, replaced, false, hint2)

/-- `func (tr *BTreeG[T]) setHint(item, hint) (prev, replaced)`: empty-root
case, root split with retry, and count bump.  Returns the updated tree,
`(prev, replaced)` and the updated hint. -/
def setHint (t : Tree α) (item : α) (hint : Option PathHint) :
    Nat → Option (Tree α × α × Bool × Option PathHint)
  | 0 => none
  | fuel + 1 =>
    match t.root with
    | none =>
      some ({ t with root := some (.mk [item] none 1), count := 1 },
            default, false, hint)
    | some r =>
      match nodeSet t.maxI r item hint 0 fuel with
      | none => none
      | some (r', prev, replaced, split, hint1) =>
        if split then
          let lrm := nodeSplit t.maxI r'
          let newRoot : Node α :=
            Node.updateCount (.mk [lrm.2.2] (some [lrm.1, lrm.2.1]) 0)
          setHint { t with root := some newRoot } item hint1 fuel
        else if replaced then
          some ({ t with root := some r' }, prev, true, hint1)
        else
          some ({ t with root := some r', count := t.count + 1 },
                default, false, hint1)

/-- `Set` = `SetHint` with a nil hint. -/
def set (t : Tree α) (item : α) (fuel : Nat) : Option (Tree α × α × Bool) :=
  (setHint t item none fuel).map (fun r => (r.1, r.2.1, r.2.2.1))

mutual

/-- In-order contents of a node (the sequence that `Scan` etc. observe).
Children interleave with items; the trailing child is scanned last. -/
def Node.inorder : Node α → List α
  | .mk items none _ => items
  | .mk items (some cs) _ => inorderL cs items

/-- Helper for `Node.inorder`: child list interleaved with item list
(`|children| = |items| + 1` in well-formed nodes; extra children beyond
`|items| + 1` are ignored, shorter child lists truncate the output). -/
def inorderL : List (Node α) → List α → List α
  | [], _ => []
  | [c], _ => c.inorder
  | c :: _, [] => c.inorder
  | c :: cs, it :: its => c.inorder ++ it :: inorderL cs its

end

/-- The descent loop of `func (tr *BTreeG[T]) getHint(key, hint, mut)`.
Returns `((value, ok), hint')`. -/
def getHintLoop (n : Node α) (key : α) (hint : Option PathHint) (depth : Nat) :
    Nat → Option ((α × Bool) × Option PathHint)
  | 0 => none
  | fuel + 1 =>
    let fr := find n key hint depth
    let i := fr.1.1
    if fr.1.2 then some ((n.items.getD i default, true), fr.2)
    else
      match n.children with
      | none => some ((default, false), fr.2)
      | some cs => getHintLoop (cs.getD i default) key fr.2 (depth + 1) fuel

/-- `getHint` (and `Get` with a nil hint): nil-root check then the loop. -/
def getHint (t : Tree α) (key : α) (hint : Option PathHint) (fuel : Nat) :
    Option ((α × Bool) × Option PathHint) :=
  match t.root with
  | none => some ((default, false), hint)
  | some r => getHintLoop r key hint 0 fuel

/-- `Get key` = `getHint key nil`. -/
def get (t : Tree α) (key : α) (fuel : Nat) : Option (α × Bool) :=
  (getHint t key none fuel).map (·.1)

/-- The leftmost-descent loop of `minMut`. -/
def minLoop (n : Node α) : Nat → Option α
  | 0 => none
  | fuel + 1 =>
    match n.children with
    | none => some (n.items.getD 0 default)
    | some cs => minLoop (cs.getD 0 default) fuel

/-- `func (tr *BTreeG[T]) minMut(mut)` / `Min()`. -/
def treeMin (t : Tree α) (fuel : Nat) : Option (α × Bool) :=
  match t.root with
  | none => some (default, false)
  | some r => (minLoop r fuel).map (·, true)

/-- The rightmost-descent loop of `maxMut`. -/
def maxLoop (n : Node α) : Nat → Option α
  | 0 => none
  | fuel + 1 =>
    match n.children with
    | none => some (n.items.getD (n.items.length - 1) default)
    | some cs => maxLoop (cs.getD (cs.length - 1) default) fuel

/-- `func (tr *BTreeG[T]) maxMut(mut)` / `Max()`. -/
def treeMax (t : Tree α) (fuel : Nat) : Option (α × Bool) :=
  match t.root with
  | none => some (default, false)
  | some r => (maxLoop r fuel).map (·, true)

mutual

/-- The descent loop of `func (tr *BTreeG[T]) getAt(index, mut)`.  `index`
is a Go `int`, kept as `Int`. -/
def getAtLoop (n : Node α) (index : Int) : Nat → Option (α × Bool)
  | 0 => none
  | fuel + 1 =>
    match n.children with
    | none => some (n.items.getD index.toNat default, true)
    | some cs => getAtGo n.items cs index fuel
termination_by fuel => (fuel, 0)

/-- The `for i` scan inside `getAt`: walk items/children in step, adjusting
`index` by `children[i].count + 1`; on exhausting the items descend into the
trailing child. -/
def getAtGo : List α → List (Node α) → Int → Nat → Option (α × Bool)
  | its, cs, index, fuel =>
    match its, cs with
    | it :: its', c :: cs' =>
      if index < c.count then getAtLoop c index fuel
      else if index = c.count then some (it, true)
      else getAtGo its' cs' (index - (c.count + 1)) fuel
    | _, _ => getAtLoop (cs.headD default) index fuel
termination_by its _ _ fuel => (fuel, its.length + 1)

end

/-- `GetAt(index)`: bounds check then the descent. -/
def getAt (t : Tree α) (index : Int) (fuel : Nat) : Option (α × Bool) :=
  match t.root with
  | none => some (default, false)
  | some r =>
    if index < 0 ∨ index ≥ t.count then some (default, false)
    else getAtLoop r index fuel

/-- The counting loop of `func (tr *BTreeG[T]) Height()`: structural
leftmost descent (`children[0]`), one per level. -/
def heightLoop : Node α → Nat
  | .mk _ none _ => 1
  | .mk _ (some []) _ => 1
  | .mk _ (some (c :: _)) _ => heightLoop c + 1

/-- `Height()`: zero for the empty tree. -/
def height (t : Tree α) : Nat :=
  match t.root with
  | none => 0
  | some r => heightLoop r

/-- `Len()` returns `tr.count`. -/
def lenT (t : Tree α) : Int := t.count

/-- `Clear()` drops the root and zeroes the count. -/
def clear (t : Tree α) : Tree α := { t with root := none, count := 0 }

mutual

/-- `func (tr *BTreeG[T]) nodeScan(cn, iter, mut) bool`, instrumented: the
returned list is the exact sequence of items passed to `iter`, in call
order, and the Bool is `nodeScan`'s return value. -/
def nodeScan (f : α → Bool) : Node α → Bool × List α
  | .mk items none _ => scanItems f items
  | .mk items (some cs) _ => scanInner f cs items

/-- The leaf loop of `nodeScan`. -/
def scanItems (f : α → Bool) : List α → Bool × List α
  | [] => (true, [])
  | x :: xs =>
    if f x then
      let r := scanItems f xs
      (r.1, x :: r.2)
    else (false, [x])

/-- The internal-node loop of `nodeScan`: child `i`, then `items[i]`,
finally the trailing child. -/
def scanInner (f : α → Bool) : List (Node α) → List α → Bool × List α
  | [], _ => (true, [])
  | [c], _ => nodeScan f c
  | c :: _, [] => nodeScan f c
  | c :: cs, it :: its =>
    let r := nodeScan f c
    if ¬ r.1 then r
    else if f it then
      let r2 := scanInner f cs its
      (r2.1, r.2 ++ it :: r2.2)
    else (false, r.2 ++ [it])

end

/-- `Scan(iter)`: nil-root check then `nodeScan`. -/
def scan (t : Tree α) (f : α → Bool) : Bool × List α :=
  match t.root with
  | none => (true, [])
  | some r => nodeScan f r

/-- The reverse leaf loop of `nodeReverse`
(`for i := len-1; i >= 0; i--`), fed the reversed item list. -/
def revItems (f : α → Bool) : List α → Bool × List α
  | [] => (true, [])
  | x :: xs =>
    if f x then
      let r := revItems f xs
      (r.1, x :: r.2)
    else (false, [x])

mutual

/-- `func (tr *BTreeG[T]) nodeReverse(cn, iter, mut) bool`, instrumented
like `nodeScan`: the trailing child first, then `items[i]` and child `i`
for `i` from the top down. -/
def nodeReverse (f : α → Bool) : Node α → Bool × List α
  | .mk items none _ => revItems f items.reverse
  | .mk items (some cs) _ => revInner f cs items

/-- The internal-node part of `nodeReverse`, in aligned
(child `i`, item `i`) order: the suffix (ending in the trailing child) is
emitted first, then item `i`, then child `i`. -/
def revInner (f : α → Bool) : List (Node α) → List α → Bool × List α
  | [], _ => (true, [])
  | [c], _ => nodeReverse f c
  | c :: _, [] => nodeReverse f c
  | c :: cs, it :: its =>
    let r := revInner f cs its
    if ¬ r.1 then r
    else if f it then
      let rc := nodeReverse f c
      (rc.1, r.2 ++ it :: rc.2)
    else (false, r.2 ++ [it])

end

/-- `Reverse(iter)`. -/
def reverseT (t : Tree α) (f : α → Bool) : Bool × List α :=
  match t.root with
  | none => (true, [])
  | some r => nodeReverse f r

/-- `func (tr *BTreeG[T]) nodeRebalance(n, i)`: merge children `(i, i+1)`
(after shifting `i` down when it names the last child) when
`|left| + |right| < max`, otherwise rotate one item through the parent
separator from the heavier sibling, moving the boundary child as well for
internal nodes.  Counts are adjusted exactly as in the source. -/
def nodeRebalance (mx : Nat) (n : Node α) (i0 : Nat) : Node α :=
  let i := if i0 = n.items.length then i0 - 1 else i0
  match n.children with
  | none => n
  | some cs =>
    let left := cs.getD i default
    let right := cs.getD (i + 1) default
    if left.items.length + right.items.length < mx then
      -- merge (left, separator, right) into left; shift parent slots down
      let leftChildren :=
        match left.children, right.children with
        | some lc, some rc => some (lc ++ rc)
        | lc, _ => lc
      let left' : Node α :=
        .mk (left.items ++ n.items.getD i default :: right.items) leftChildren
           (left.count + right.count + 1)
      .mk (n.items.eraseIdx i) (some ((cs.set i left').eraseIdx (i + 1))) n.count
    else if left.items.length > right.items.length then
      -- rotate left -> right through the separator
      let rightItems := n.items.getD i default :: right.items
      let nItems := n.items.set i (left.items.getD (left.items.length - 1) default)
      let leftItems := left.items.dropLast
      match left.children with
      | none =>
        let left' : Node α := .mk leftItems none (left.count - 1)
        let right' : Node α := .mk rightItems right.children (right.count + 1)
        .mk nItems (some ((cs.set i left').set (i + 1) right')) n.count
      | some lc =>
        let moved := lc.getD (lc.length - 1) default
        let rc := right.children.getD []
        let left' : Node α := .mk leftItems (some lc.dropLast) (left.count - 1 - moved.count)
        let right' : Node α := .mk rightItems (some (moved :: rc)) (right.count + 1 + moved.count)
        .mk nItems (some ((cs.set i left').set (i + 1) right')) n.count
    else
      -- rotate right -> left through the separator
      let leftItems := left.items ++ [n.items.getD i default]
      let nItems := n.items.set i (right.items.getD 0 default)
      let rightItems := right.items.drop 1
      match left.children with
      | none =>
        let left' : Node α := .mk leftItems none (left.count + 1)
        let right' : Node α := .mk rightItems right.children (right.count - 1)
        .mk nItems (some ((cs.set i left').set (i + 1) right')) n.count
      | some lc =>
        let rc := right.children.getD []
        let moved := rc.getD 0 default
        let left' : Node α := .mk leftItems (some (lc ++ [moved])) (left.count + 1 + moved.count)
        let right' : Node α := .mk rightItems (some (rc.drop 1)) (right.count - 1 - moved.count)
        .mk nItems (some ((cs.set i left').set (i + 1) right')) n.count

/-- The common tail of `delete` after a successful child deletion:
`n.count--`, store the updated child, and rebalance when the child
underflowed (`|children[i].items| < min`). -/
def afterChildDelete (mn mx : Nat) (items' : List α) (cs : List (Node α))
    (i : Nat) (c' : Node α) (cnt : Int) : Node α :=
  let n1 : Node α := .mk items' (some (cs.set i c')) (cnt - 1)
  if c'.items.length < mn then nodeRebalance mx n1 i else n1

/-- `func (tr *BTreeG[T]) delete(cn, max, key, hint, depth) (T, bool)`.
Returns the updated node, the deleted item, the `deleted` flag, and the
updated hint.  `takeMax` extracts the rightmost item of the subtree.  The
descents consume fuel. -/
def delete (mn mx : Nat) (n : Node α) (takeMax : Bool) (key : α)
    (hint : Option PathHint) (depth : Nat) :
    Nat → Option (Node α × α × Bool × Option PathHint)
  | 0 => none
  | fuel + 1 =>
    let fr : (Nat × Bool) × Option PathHint :=
      if takeMax then ((n.items.length - 1, true), hint)
      else find n key hint depth
    let i := fr.1.1
    let found := fr.1.2
    let hint1 := fr.2
    match n.children with
    | none =>
      if found then
        some (.mk (n.items.eraseIdx i) none (n.count - 1),
              n.items.getD i default, true, hint1)
      else some (n, default, false, hint1)
    | some cs =>
      if found then
        if takeMax then
          -- i++, then extract the rightmost item of the last child
          match delete mn mx (cs.getD (i + 1) default) true default none 0 fuel with
          | none => none
          | some (c', prev, deleted, _) =>
            if ¬ deleted then some (n, default, false, hint1)
            else some (afterChildDelete mn mx n.items cs (i + 1) c' n.count,
                       prev, true, hint1)
        else
          -- replace items[i] with the rightmost item of child i
          let prev := n.items.getD i default
          match delete mn mx (cs.getD i default) true default none 0 fuel with
          | none => none
          | some (c', maxItem, _, _) =>
            some (afterChildDelete mn mx (n.items.set i maxItem) cs i c' n.count,
                  prev, true, hint1)
      else
        match delete mn mx (cs.getD i default) takeMax key hint1 (depth + 1) fuel with
        | none => none
        | some (c', prev, deleted, hint2) =>
          if ¬ deleted then some (n, default, false, hint2)
          else some (afterChildDelete mn mx n.items cs i c' n.count,
                     prev, true, hint2)

/-- `func (tr *BTreeG[T]) deleteHint(key, hint) (T, bool)`: run `delete`
from the root, shrink an emptied internal root to its sole child, decrement
`tr.count` and nil the root at zero. -/
def deleteHint (t : Tree α) (key : α) (hint : Option PathHint) (fuel : Nat) :
    Option (Tree α × α × Bool) :=
  match t.root with
  | none => some (t, default, false)
  | some r =>
    match delete t.minI t.maxI r false key hint 0 fuel with
    | none => none
    | some (r', prev, deleted, _) =>
      if ¬ deleted then some (t, default, false)
      else
        let root1 :=
          if r'.items.length = 0 ∧ ¬ r'.leaf then (r'.children.getD []).getD 0 default
          else r'
        let cnt := t.count - 1
        some ({ t with root := if cnt = 0 then none else some root1, count := cnt },
              prev, true)

/-- `Delete key` = `deleteHint key nil`. -/
def deleteT (t : Tree α) (key : α) (fuel : Nat) : Option (Tree α × α × Bool) :=
  deleteHint t key none fuel

/-- The descent loop of `PopMin`: optimistically decrement counts down the
leftmost path; at the leaf either remove `items[0]` in place
(`|items| > min`) or report the would-be item with `none` for the node,
meaning the counts are reverted (the caller then falls back to
`deleteHint`). -/
def popMinGo (mn : Nat) (n : Node α) : Nat → Option (α × Option (Node α))
  | 0 => none
  | fuel + 1 =>
    match n.children with
    | none =>
      let item := n.items.getD 0 default
      if n.items.length = mn then some (item, none)
      else some (item, some (.mk (n.items.eraseIdx 0) none (n.count - 1)))
    | some cs =>
      match popMinGo mn (cs.getD 0 default) fuel with
      | none => none
      | some (item, none) => some (item, none)
      | some (item, some c') =>
        some (item, some (.mk n.items (some (cs.set 0 c')) (n.count - 1)))

/-- `func (tr *BTreeG[T]) PopMin() (T, bool)`. -/
def popMin (t : Tree α) (fuel : Nat) : Option (α × Bool × Tree α) :=
  match t.root with
  | none => some (default, false, t)
  | some r =>
    match popMinGo t.minI r fuel with
    | none => none
    | some (item, some r') =>
      let cnt := t.count - 1
      some (item, true,
            { t with root := if cnt = 0 then none else some r', count := cnt })
    | some (item, none) =>
      (deleteHint t item none fuel).map (fun r => (r.2.1, r.2.2, r.1))

/-- The descent loop of `PopMax`: rightmost path, removing the last item. -/
def popMaxGo (mn : Nat) (n : Node α) : Nat → Option (α × Option (Node α))
  | 0 => none
  | fuel + 1 =>
    match n.children with
    | none =>
      let item := n.items.getD (n.items.length - 1) default
      if n.items.length = mn then some (item, none)
      else some (item, some (.mk n.items.dropLast none (n.count - 1)))
    | some cs =>
      match popMaxGo mn (cs.getD (cs.length - 1) default) fuel with
      | none => none
      | some (item, none) => some (item, none)
      | some (item, some c') =>
        some (item, some (.mk n.items (some (cs.set (cs.length - 1) c')) (n.count - 1)))

/-- `func (tr *BTreeG[T]) PopMax() (T, bool)`. -/
def popMax (t : Tree α) (fuel : Nat) : Option (α × Bool × Tree α) :=
  match t.root with
  | none => some (default, false, t)
  | some r =>
    match popMaxGo t.minI r fuel with
    | none => none
    | some (item, some r') =>
      let cnt := t.count - 1
      some (item, true,
            { t with root := if cnt = 0 then none else some r', count := cnt })
    | some (item, none) =>
      (deleteHint t item none fuel).map (fun r => (r.2.1, r.2.2, r.1))

/-- Build the `PathHint` that `DeleteAt` primes from the recorded path:
`hint.path[i] = path[i]` and `hint.used[i] = true` for `i < 8` and
`i < |path|`. -/
def hintFromPath (path : List Nat) : PathHint :=
  { used := (List.range 8).map (fun i => decide (i < path.length))
    path := (List.range 8).map (fun i => path.getD i 0) }

mutual

/-- The `outer` descent loop of `DeleteAt`: either removes in place at a
leaf with spare occupancy (`.inl` carries the removed item and the updated
node, counts decremented along the path), or stops (`.inr`) with the target
item and the recorded path, standing for the revert-and-fall-back branch. -/
def deleteAtLoop (mn : Nat) (n : Node α) (index : Int) (path : List Nat) :
    Nat → Option ((α × Node α) ⊕ (α × List Nat))
  | 0 => none
  | fuel + 1 =>
    match n.children with
    | none =>
      let item := n.items.getD index.toNat default
      if n.items.length = mn then
        some (.inr (item, path ++ [index.toNat % 256]))
      else
        some (.inl (item, .mk (n.items.eraseIdx index.toNat) none (n.count - 1)))
    | some cs => deleteAtGo mn n.items cs n.count index path 0 fuel
termination_by fuel => (fuel, 0)

/-- The `for i` scan inside `DeleteAt`: find the child straddling `index`,
stop on an exact separator hit, else descend recording `i`. -/
def deleteAtGo (mn : Nat) (its : List α) (cs : List (Node α)) (cnt : Int)
    (index : Int) (path : List Nat) (i : Nat) :
    Nat → Option ((α × Node α) ⊕ (α × List Nat))
  | fuel =>
    if _h : i < its.length then
      let c := cs.getD i default
      if index < c.count then
        match deleteAtLoop mn c index (path ++ [i % 256]) fuel with
        | none => none
        | some (.inl (item, c')) =>
          some (.inl (item, .mk its (some (cs.set i c')) (cnt - 1)))
        | some (.inr r) => some (.inr r)
      else if index = c.count then
        some (.inr (its.getD i default, path ++ [i % 256]))
      else deleteAtGo mn its cs cnt (index - (c.count + 1)) path (i + 1) fuel
    else
      match deleteAtLoop mn (cs.getD i default) index (path ++ [i % 256]) fuel with
      | none => none
      | some (.inl (item, c')) =>
        some (.inl (item, .mk its (some (cs.set i c')) (cnt - 1)))
      | some (.inr r) => some (.inr r)
termination_by fuel => (fuel, its.length + 1 - min i its.length)

end

/-- `func (tr *BTreeG[T]) DeleteAt(index) (T, bool)`: bounds check, the
count-guided descent, and on underflow the revert plus `deleteHint` with
the primed hint. -/
def deleteAt (t : Tree α) (index : Int) (fuel : Nat) : Option (Tree α × α × Bool) :=
  match t.root with
  | none => some (t, default, false)
  | some r =>
    if index < 0 ∨ index ≥ t.count then some (t, default, false)
    else
      match deleteAtLoop t.minI r index [] fuel with
      | none => none
      | some (.inl (item, r')) =>
        let cnt := t.count - 1
        some ({ t with root := if cnt = 0 then none else some r', count := cnt },
              item, true)
      | some (.inr (item, path)) =>
        deleteHint t item (some (hintFromPath path)) fuel

/-- The rightmost-spine loop of `Load`: append in place at the rightmost
leaf when it has room and the input stays ascending (`some` node), else
`none`, standing for the revert-and-fall-back branch. -/
def loadLoop (mx : Nat) (n : Node α) (item : α) : Nat → Option (Option (Node α))
  | 0 => none
  | fuel + 1 =>
    match n.children with
    | none =>
      if n.items.length < mx ∧ n.items.getD (n.items.length - 1) default < item then
        some (some (.mk (n.items ++ [item]) none (n.count + 1)))
      else some none
    | some cs =>
      match loadLoop mx (cs.getD (cs.length - 1) default) item fuel with
      | none => none
      | some none => some none
      | some (some c') =>
        some (some (.mk n.items (some (cs.set (cs.length - 1) c')) (n.count + 1)))

/-- `func (tr *BTreeG[T]) Load(item) (T, bool)`: empty tree goes through
`setHint`; otherwise try the rightmost append, falling back to `setHint`. -/
def load (t : Tree α) (item : α) (fuel : Nat) : Option (Tree α × α × Bool) :=
  match t.root with
  | none => (setHint t item none fuel).map (fun r => (r.1, r.2.1, r.2.2.1))
  | some r =>
    match loadLoop t.maxI r item fuel with
    | none => none
    | some (some r') =>
      some ({ t with root := some r', count := t.count + 1 }, default, false)
    | some none => (setHint t item none fuel).map (fun r => (r.1, r.2.1, r.2.2.1))

mutual

/-- `func (tr *BTreeG[T]) nodeWalk(cn, iter, mut)`, instrumented: the list
collects the item *runs* passed to `iter`, in call order. -/
def nodeWalk (f : List α → Bool) : Node α → Bool × List (List α)
  | .mk items none _ => if f items then (true, [items]) else (false, [items])
  | .mk items (some cs) _ => walkInner f cs items

/-- The internal-node loop of `nodeWalk`: child `i`, then the one-item run
`items[i:i+1]`, finally the trailing child. -/
def walkInner (f : List α → Bool) : List (Node α) → List α → Bool × List (List α)
  | [], _ => (true, [])
  | [c], _ => nodeWalk f c
  | c :: _, [] => nodeWalk f c
  | c :: cs, it :: its =>
    let r := nodeWalk f c
    if ¬ r.1 then r
    else if f [it] then
      let r2 := walkInner f cs its
      (r2.1, r.2 ++ [it] :: r2.2)
    else (false, r.2 ++ [[it]])

end

/-- `Walk(iter)`. -/
def walk (t : Tree α) (f : List α → Bool) : Bool × List (List α) :=
  match t.root with
  | none => (true, [])
  | some r => nodeWalk f r

/-- The suffix loop of `nodeAscend` on a leaf: `iter` over `items[i:]`. -/
def ascendLeafTail (f : α → Bool) (its : List α) : Bool × List α :=
  scanItems f its

/-- The suffix loop of `nodeAscend` on an internal node: `items[j]` then a
full `nodeScan` of child `j+1`, for `j` from `i` up. -/
def ascendInnerTail (f : α → Bool) : List α → List (Node α) → Bool × List α
  | [], _ => (true, [])
  | it :: its, cs =>
    if f it then
      match cs with
      | [] => (true, [it])
      | c :: cs' =>
        let r := nodeScan f c
        if ¬ r.1 then (false, it :: r.2)
        else
          let r2 := ascendInnerTail f its cs'
          (r2.1, it :: r.2 ++ r2.2)
    else (false, [it])

/-- `func (tr *BTreeG[T]) nodeAscend(cn, pivot, hint, depth, iter, mut)`
with a nil hint, instrumented like `nodeScan`. -/
def nodeAscend (f : α → Bool) (n : Node α) (pivot : α) :
    Nat → Option (Bool × List α)
  | 0 => none
  | fuel + 1 =>
    let sr := bsearch n.items pivot
    let i := sr.1
    let found := sr.2
    match n.children with
    | none =>
      -- leaf: the recursion guard is vacuous; iterate items[i:]
      some (ascendLeafTail f (n.items.drop i))
    | some cs =>
      if ¬ found then
        match nodeAscend f (cs.getD i default) pivot fuel with
        | none => none
        | some r =>
          if ¬ r.1 then some (false, r.2)
          else
            let r2 := ascendInnerTail f (n.items.drop i) (cs.drop (i + 1))
            some (r2.1, r.2 ++ r2.2)
      else
        some (ascendInnerTail f (n.items.drop i) (cs.drop (i + 1)))

/-- `Ascend(pivot, iter)`. -/
def ascend (t : Tree α) (pivot : α) (f : α → Bool) (fuel : Nat) :
    Option (Bool × List α) :=
  match t.root with
  | none => some (true, [])
  | some r => nodeAscend f r pivot fuel

/-- The prefix loop of `nodeDescend` on an internal node: `items[j]` then a
full `nodeReverse` of child `j`, for `j` from `i` down (lists arrive
reversed, aligned as (item j, child j)). -/
def descendInnerTail (f : α → Bool) : List α → List (Node α) → Bool × List α
  | [], _ => (true, [])
  | it :: its, cs =>
    if f it then
      match cs with
      | [] => (true, [it])
      | c :: cs' =>
        let r := nodeReverse f c
        if ¬ r.1 then (false, it :: r.2)
        else
          let r2 := descendInnerTail f its cs'
          (r2.1, it :: r.2 ++ r2.2)
    else (false, [it])

/-- `func (tr *BTreeG[T]) nodeDescend(cn, pivot, hint, depth, iter, mut)`
with a nil hint, instrumented like `nodeScan`. -/
def nodeDescend (f : α → Bool) (n : Node α) (pivot : α) :
    Nat → Option (Bool × List α)
  | 0 => none
  | fuel + 1 =>
    let sr := bsearch n.items pivot
    let i := sr.1
    let found := sr.2
    match n.children with
    | none =>
      if ¬ found then
        -- i--; iterate items[i], items[i-1], ...
        some (revItems f ((n.items.take i).reverse))
      else some (revItems f ((n.items.take (i + 1)).reverse))
    | some cs =>
      if ¬ found then
        match nodeDescend f (cs.getD i default) pivot fuel with
        | none => none
        | some r =>
          if ¬ r.1 then some (false, r.2)
          else
            let r2 := descendInnerTail f ((n.items.take i).reverse) ((cs.take i).reverse)
            some (r2.1, r.2 ++ r2.2)
      else
        some (descendInnerTail f ((n.items.take (i + 1)).reverse) ((cs.take (i + 1)).reverse))

/-- `Descend(pivot, iter)`. -/
def descend (t : Tree α) (pivot : α) (f : α → Bool) (fuel : Nat) :
    Option (Bool × List α) :=
  match t.root with
  | none => some (true, [])
  | some r => nodeDescend f r pivot fuel

mutual

/-- `func (tr *BTreeG[T]) nodeItems(cn, items, mut)`: materialize in order
(append-accumulator style flattened away). -/
def nodeItems : Node α → List α
  | .mk items none _ => items
  | .mk items (some cs) _ => itemsInner cs items

/-- Helper for `nodeItems`. -/
def itemsInner : List (Node α) → List α → List α
  | [], _ => []
  | [c], _ => nodeItems c
  | c :: _, [] => nodeItems c
  | c :: cs, it :: its => nodeItems c ++ it :: itemsInner cs its

end

/-- `Items()`. -/
def itemsT (t : Tree α) : List α :=
  match t.root with
  | none => []
  | some r => nodeItems r

/-- Arity-respecting flattening of an internal node's children and
separators: agrees with `itemsInner` whenever `|cs| = |its| + 1`, but has
unconditional cons equations, which makes positional reasoning easier. -/
def flatI : List (Node α) → List α → List α
  | [], _ => []
  | c :: _, [] => nodeItems c
  | c :: cs, it :: its => nodeItems c ++ it :: flatI cs its

/-- `Copy()` / `IsoCopy()` at the content level: both handles observe the
same tree value (the heap model `BH` carries the isoid mechanics). -/
def isoCopy (t : Tree α) : Tree α × Tree α := (t, t)

/-! ## Validity: the documented invariants, as a decidable predicate -/

/-- `lob lo hi`: the optional bounds satisfy `lo < hi` (`none` = ±∞). -/
def lob : Option α → Option α → Bool
  | none, _ => true
  | _, none => true
  | some a, some b => decide (a < b)

/-- `chainB lo hi xs`: `lo < x₁ < x₂ < … < xₙ < hi` (order invariant for
one node's item list, with open outer bounds). -/
def chainB : Option α → Option α → List α → Bool
  | lo, hi, [] => lob lo hi
  | lo, hi, x :: xs => lob lo (some x) && chainB (some x) hi xs

mutual

/-- Well-formedness of a node at height `h` (edges to leaves) within open
bounds `(lo, hi)`: height uniformity, occupancy (`rt` marks the root),
order, child arity, and stored-count correctness — invariants 1–5 of the
spec. -/
def wfN (mn mx : Nat) (rt : Bool) (h : Nat) (lo hi : Option α) : Node α → Bool
  | .mk items none cnt =>
    h == 0 &&
    (if rt then 1 ≤ items.length else mn ≤ items.length) && items.length ≤ mx &&
    chainB lo hi items &&
    cnt == (items.length : Int)
  | .mk items (some cs) cnt =>
    h != 0 &&
    (if rt then 1 ≤ items.length else mn ≤ items.length) && items.length ≤ mx &&
    chainB lo hi items &&
    cs.length == items.length + 1 &&
    wfL mn mx (h - 1) lo hi cs items &&
    cnt == (items.length : Int) + (cs.map Node.count).sum

/-- Children `cs` interleaved with separators `its`, each child well-formed
between its adjacent separators. -/
def wfL (mn mx : Nat) (h : Nat) (lo hi : Option α) :
    List (Node α) → List α → Bool
  | [c], [] => wfN mn mx false h lo hi c
  | c :: cs, it :: its =>
    wfN mn mx false h lo (some it) c && wfL mn mx h (some it) hi cs its
  | _, _ => false

end

/-- Validity of a whole tree handle: configuration shape
(`max = 2·min + 1`, `min ≥ 1`, as produced by `degreeToMinMax` for every
degree), plus the node invariants from the root and
`tr.count = root.count` (zero and nil root for the empty tree). -/
def Valid (t : Tree α) : Bool :=
  1 ≤ t.minI && t.maxI == 2 * t.minI + 1 &&
  match t.root with
  | none => t.count == 0
  | some r =>
    wfN t.minI t.maxI true (heightLoop r - 1) none none r && t.count == r.count

/-! ## The cursor (`IterG`, from `btreeg_iter.go`)

The stack is modelled with its **top at the head** (Go appends frames at
the tail); `iter.tr` is passed explicitly to the operations, and the
lock/mut fields are immaterial in the functional model. -/

/-- One `iterStackItemG[T]`: a node and the frame index. -/
structure IterG (α : Type) where
  seeked : Bool
  atstart : Bool
  atend : Bool
  stack : List (Node α × Nat)
  item : α

/-- A freshly created iterator (`tr.Iter()`). -/
def iterNew [Inhabited α] : IterG α :=
  { seeked := false, atstart := false, atend := false, stack := [], item := default }

/-- The leftmost descent of `First` (and of `Next` stepping into a child):
push `(n, 0)` at each level down to the leaf. -/
def firstDesc (n : Node α) (stk : List (Node α × Nat)) :
    Nat → Option (List (Node α × Nat))
  | 0 => none
  | fuel + 1 =>
    match n.children with
    | none => some ((n, 0) :: stk)
    | some cs => firstDesc (cs.getD 0 default) ((n, 0) :: stk) fuel

/-- The rightmost descent of `Last` (and of `Prev`): push `(n, |items|)` at
each level, and at the leaf drop the top index by one. -/
def lastDesc (n : Node α) (stk : List (Node α × Nat)) :
    Nat → Option (List (Node α × Nat))
  | 0 => none
  | fuel + 1 =>
    match n.children with
    | none => some ((n, n.items.length - 1) :: stk)
    | some cs =>
      lastDesc (cs.getD n.items.length default) ((n, n.items.length) :: stk) fuel

/-- `func (iter *IterG[T]) First() bool`. -/
def iterFirst (t : Tree α) (it : IterG α) (fuel : Nat) : Option (IterG α × Bool) :=
  let it := { it with atend := false, atstart := false, seeked := true, stack := [] }
  match t.root with
  | none => some (it, false)
  | some r =>
    match firstDesc r [] fuel with
    | none => none
    | some stk =>
      let top := stk.headD (default, 0)
      some ({ it with stack := stk, item := top.1.items.getD top.2 default }, true)

/-- `func (iter *IterG[T]) Last() bool` (does not clear `atstart`/`atend`,
as in the source). -/
def iterLast (t : Tree α) (it : IterG α) (fuel : Nat) : Option (IterG α × Bool) :=
  let it := { it with seeked := true, stack := [] }
  match t.root with
  | none => some (it, false)
  | some r =>
    match lastDesc r [] fuel with
    | none => none
    | some stk =>
      let top := stk.headD (default, 0)
      some ({ it with stack := stk, item := top.1.items.getD top.2 default }, true)

/-- The pop loop of `Next`: drop the exhausted top, then keep dropping
frames whose index has run off their items; `none` when the stack empties
(`atend`). -/
def popNext : List (Node α × Nat) → Option (List (Node α × Nat))
  | [] => none
  | _ :: rest =>
    match rest with
    | [] => none
    | (m, j) :: _ => if j < m.items.length then some rest else popNext rest

/-- The pop loop of `Prev`: drop the top, then decrement each uncovered
frame index, keep popping frames that reach `-1`; `none` when the stack
empties (`atstart`). -/
def popPrev : List (Node α × Nat) → Option (List (Node α × Nat))
  | [] => none
  | _ :: rest =>
    match rest with
    | [] => none
    | (m, j) :: rest' => if 1 ≤ j then some ((m, j - 1) :: rest') else popPrev rest

/-- `func (iter *IterG[T]) Next() bool`. -/
def iterNext (t : Tree α) (it : IterG α) : Nat → Option (IterG α × Bool)
  | 0 => none
  | fuel + 1 =>
    if ¬ it.seeked then iterFirst t it fuel
    else
      match it.stack with
      | [] =>
        if it.atstart then
          match iterFirst t it fuel with
          | none => none
          | some (it1, true) => iterNext t it1 fuel
          | some (it1, false) => some (it1, false)
        else some (it, false)
      | (n, i0) :: rest =>
        let i := i0 + 1
        match n.children with
        | none =>
          if i = n.items.length then
            match popNext ((n, i) :: rest) with
            | none => some ({ it with stack := [], atend := true }, false)
            | some stk =>
              let top := stk.headD (default, 0)
              some ({ it with stack := stk, item := top.1.items.getD top.2 default }, true)
          else
            some ({ it with stack := (n, i) :: rest, item := n.items.getD i default }, true)
        | some cs =>
          match firstDesc (cs.getD i default) ((n, i) :: rest) fuel with
          | none => none
          | some stk =>
            let top := stk.headD (default, 0)
            some ({ it with stack := stk, item := top.1.items.getD top.2 default }, true)

/-- `func (iter *IterG[T]) Prev() bool`. -/
def iterPrev (t : Tree α) (it : IterG α) : Nat → Option (IterG α × Bool)
  | 0 => none
  | fuel + 1 =>
    if ¬ it.seeked then some (it, false)
    else
      match it.stack with
      | [] =>
        if it.atend then
          match iterLast t it fuel with
          | none => none
          | some (it1, true) => iterPrev t it1 fuel
          | some (it1, false) => some (it1, false)
        else some (it, false)
      | (n, i0) :: rest =>
        match n.children with
        | none =>
          if i0 = 0 then
            match popPrev ((n, i0) :: rest) with
            | none => some ({ it with stack := [], atstart := true }, false)
            | some stk =>
              let top := stk.headD (default, 0)
              some ({ it with stack := stk, item := top.1.items.getD top.2 default }, true)
          else
            some ({ it with stack := (n, i0 - 1) :: rest, item := n.items.getD (i0 - 1) default }, true)
        | some cs =>
          match lastDesc (cs.getD i0 default) ((n, i0) :: rest) fuel with
          | none => none
          | some stk =>
            let top := stk.headD (default, 0)
            some ({ it with stack := stk, item := top.1.items.getD top.2 default }, true)

/-- Collect the items produced by repeated `Next` until it returns false
(`k` bounds the number of iterations; `none` = ran out). -/
def iterSeqNext (t : Tree α) (it : IterG α) (fuel : Nat) : Nat → Option (List α)
  | 0 => none
  | k + 1 =>
    match iterNext t it fuel with
    | none => none
    | some (it', true) => (iterSeqNext t it' fuel k).map (it'.item :: ·)
    | some (_, false) => some []

/-- `First()` then repeated `Next()`: the forward cursor sequence. -/
def cursorForward (t : Tree α) (fuel k : Nat) : Option (List α) :=
  match iterFirst t iterNew fuel with
  | none => none
  | some (it, true) => (iterSeqNext t it fuel k).map (it.item :: ·)
  | some (_, false) => some []

/-- Collect the items produced by repeated `Prev` until it returns false. -/
def iterSeqPrev (t : Tree α) (it : IterG α) (fuel : Nat) : Nat → Option (List α)
  | 0 => none
  | k + 1 =>
    match iterPrev t it fuel with
    | none => none
    | some (it', true) => (iterSeqPrev t it' fuel k).map (it'.item :: ·)
    | some (_, false) => some []

/-- `Last()` then repeated `Prev()`: the backward cursor sequence. -/
def cursorBackward (t : Tree α) (fuel k : Nat) : Option (List α) :=
  match iterLast t iterNew fuel with
  | none => none
  | some (it, true) => (iterSeqPrev t it fuel k).map (it.item :: ·)
  | some (_, false) => some []


/-- Top-level stored-count correctness of one node:
`count = |items| + Σ child.count`. -/
def countTop : Node α → Bool
  | .mk its none cnt => cnt == (its.length : Int)
  | .mk its (some cs) cnt => cnt == (its.length : Int) + (cs.map Node.count).sum
/-- Modelled from the spec (§4.5 **Merge**): append `parent.items[i]` and
then all of `right.items` into `left`; move `right.children` into `left` if
internal; update `left.count` (recomputed from the merged content). -/
def specMerge (left : Node α) (sep : α) (right : Node α) : Node α :=
  Node.updateCount
    (.mk (left.items ++ sep :: right.items)
      (match left.children, right.children with
       | some lc, some rc => some (lc ++ rc)
       | lc, _ => lc)
      0)
/-- Modelled from the spec (§4.5 **Rotate**, left heavier): move
`parent.items[i]` into `right.items[0]`, move `left`'s last item into the
separator slot; for internal nodes also move `left`'s last child to
`right`'s front; counts recomputed.  Returns
`(left', right', new separator)`. -/
def specRotateLR (left right : Node α) (sep : α) : Node α × Node α × α :=
  let newSep := left.items.getD (left.items.length - 1) default
  match left.children with
  | none =>
    (Node.updateCount (.mk left.items.dropLast none 0),
     Node.updateCount (.mk (sep :: right.items) right.children 0), newSep)
  | some lc =>
    let moved := lc.getD (lc.length - 1) default
    (Node.updateCount (.mk left.items.dropLast (some lc.dropLast) 0),
     Node.updateCount (.mk (sep :: right.items) (some (moved :: right.children.getD [])) 0),
     newSep)
/-- Modelled from the spec (§4.5 **Rotate**, right heavier or equal):
symmetric to `specRotateLR`. -/
def specRotateRL (left right : Node α) (sep : α) : Node α × Node α × α :=
  let newSep := right.items.getD 0 default
  match left.children with
  | none =>
    (Node.updateCount (.mk (left.items ++ [sep]) none 0),
     Node.updateCount (.mk (right.items.drop 1) right.children 0), newSep)
  | some lc =>
    let rc := right.children.getD []
    let moved := rc.getD 0 default
    (Node.updateCount (.mk (left.items ++ [sep]) (some (lc ++ [moved])) 0),
     Node.updateCount (.mk (right.items.drop 1) (some (rc.drop 1)) 0), newSep)
/-- Modelled from the spec (§4.5): rebalance operates on the adjacent pair
`(i, i+1)` (shifted to `(i-1, i)` when `i` names the last child); **merge**
exactly when `|left.items| + |right.items| < max`, else rotate from
whichever sibling has more items (left→right iff `|left| > |right|`). -/
def rebalanceSpec (mx : Nat) (n : Node α) (i0 : Nat) : Node α :=
  let i := if i0 = n.items.length then i0 - 1 else i0
  match n.children with
  | none => n
  | some cs =>
    let left := cs.getD i default
    let right := cs.getD (i + 1) default
    let sep := n.items.getD i default
    if left.items.length + right.items.length < mx then
      .mk (n.items.eraseIdx i)
        (some ((cs.set i (specMerge left sep right)).eraseIdx (i + 1))) n.count
    else if left.items.length > right.items.length then
      let r := specRotateLR left right sep
      .mk (n.items.set i r.2.2) (some ((cs.set i r.1).set (i + 1) r.2.1)) n.count
    else
      let r := specRotateRL left right sep
      .mk (n.items.set i r.2.2) (some ((cs.set i r.1).set (i + 1) r.2.1)) n.count
/-- The index shift performed first by `nodeRebalance`: the pair is
`(i, i+1)`, moved down by one when `i` names the last child. -/
def rIndex (n : Node α) (i0 : Nat) : Nat :=
  if i0 = n.items.length then i0 - 1 else i0


/-- The canonical lower-bound position: the number of leading items `≤ key`
(for a strictly sorted list, the number of items `≤ key` anywhere). -/
def lowerBound (l : List α) (key : α) : Nat :=
  match l with
  | [] => 0
  | x :: xs => if x ≤ key then lowerBound xs key + 1 else 0

/-- `SearchPos l key r`: position `r` splits `l` into a prefix of items
`≤ key` and a suffix of items `> key`.  For any list there is at most one
such `r`; binary searches return it. -/
def SearchPos (l : List α) (key : α) (r : Nat) : Prop :=
  r ≤ l.length ∧ (∀ j, j < r → l.getD j default ≤ key) ∧
    (∀ j, r ≤ j → j < l.length → key < l.getD j default)


/-- Lower bound for child `i` of a node with items `its` and outer lower
bound `lo`: the separator `its[i-1]`, or `lo` at the left edge. -/
def boundL (lo : Option α) (its : List α) (i : Nat) : Option α :=
  if i = 0 then lo else some (its.getD (i - 1) default)

/-- Upper bound for child `i`: the separator `its[i]`, or `hi` at the right
edge. -/
def boundR (hi : Option α) (its : List α) (i : Nat) : Option α :=
  if i = its.length then hi else some (its.getD i default)

/-- Like `wfN` but with the lower occupancy bound dropped: the state of a
node just handed back by `delete` before its parent (or `deleteHint`)
restores occupancy by rebalancing/shrinking. -/
def wfD (mn mx : Nat) (h : Nat) (lo hi : Option α) : Node α → Bool
  | .mk items none cnt =>
    h == 0 && items.length ≤ mx &&
    chainB lo hi items &&
    cnt == (items.length : Int)
  | .mk items (some cs) cnt =>
    h != 0 && items.length ≤ mx &&
    chainB lo hi items &&
    cs.length == items.length + 1 &&
    wfL mn mx (h - 1) lo hi cs items &&
    cnt == (items.length : Int) + (cs.map Node.count).sum

/-- One public mutating call (the argument of the C1 invariant claim). -/
inductive Op (α : Type) where
  | setOp (x : α)
  | loadOp (x : α)
  | delOp (x : α)
  | popMinOp
  | popMaxOp
  | deleteAtOp (i : Int)
  | copyOp
  | clearOp

/-- Apply one public call to a tree handle; a fuel-exhausted run (which the
terminating Go code never exhibits) leaves the tree unchanged. -/
def applyOp (t : Tree α) (op : Op α) (fuel : Nat) : Tree α :=
  match op with
  | .setOp x => ((set t x fuel).map (·.1)).getD t
  | .loadOp x => ((load t x fuel).map (·.1)).getD t
  | .delOp x => ((deleteT t x fuel).map (·.1)).getD t
  | .popMinOp => ((popMin t fuel).map (·.2.2)).getD t
  | .popMaxOp => ((popMax t fuel).map (·.2.2)).getD t
  | .deleteAtOp i => ((deleteAt t i fuel).map (·.1)).getD t
  | .copyOp => (isoCopy t).2
  | .clearOp => clear t

/-- Run a finite sequence of public calls. -/
def runOps (t : Tree α) (ops : List (Op α)) (fuel : Nat) : Tree α :=
  ops.foldl (fun t op => applyOp t op fuel) t

end BT

namespace BT

variable {α : Type} [LinearOrder α] [Inhabited α]

/-! ## C9: empty-tree and out-of-range behavior -/

/-- C9.  On an empty tree (nil root, the code's emptiness test), `Min`,
`Max`, `PopMin`, `PopMax`, `Get`, `Delete`, `GetAt` and `DeleteAt` all
return the zero item and `false` (with the tree unchanged), `Height`
returns 0, and `Scan`/`Reverse`/`Ascend`/`Descend`/`Walk` invoke the
caller's predicate zero times; and on any tree, `GetAt i` and `DeleteAt i`
with `i < 0` or `i ≥ Len()` return not-found without modifying the tree. -/
theorem getAt_deleteAt_empty_out_of_range (t : Tree α) (i : Int)
    (fuel : Nat) (f : α → Bool) (g : List α → Bool) (pivot key : α) :
    (t.root = none →
      treeMin t fuel = some (default, false) ∧
      treeMax t fuel = some (default, false) ∧
      popMin t fuel = some (default, false, t) ∧
      popMax t fuel = some (default, false, t) ∧
      get t key fuel = some (default, false) ∧
      deleteT t key fuel = some (t, default, false) ∧
      getAt t i fuel = some (default, false) ∧
      deleteAt t i fuel = some (t, default, false) ∧
      height t = 0 ∧
      (scan t f).2 = [] ∧
      (reverseT t f).2 = [] ∧
      ascend t pivot f fuel = some (true, []) ∧
      descend t pivot f fuel = some (true, []) ∧
      (walk t g).2 = []) ∧
    (i < 0 ∨ i ≥ lenT t →
      getAt t i fuel = some (default, false) ∧
      deleteAt t i fuel = some (t, default, false)) := by
  obtain ⟨root, cnt, mn, mx⟩ := t
  constructor
  · intro h
    simp only [Tree.root] at h
    subst h
    refine ⟨rfl, rfl, rfl, rfl, rfl, rfl, rfl, rfl, rfl, rfl, rfl, rfl, rfl, rfl⟩
  · intro h
    simp only [lenT] at h
    cases root with
    | none => exact ⟨rfl, rfl⟩
    | some r =>
      constructor
      · simp only [getAt, if_pos h]
      · simp only [deleteAt, if_pos h]

/-- Witness for C9 at the empty tree over `Int` and at an out-of-range
index. -/
theorem getAt_deleteAt_empty_out_of_range_witness :
    treeMin (newTree 2 : Tree Int) 9 = some (default, false) ∧
    getAt (newTree 2 : Tree Int) 7 9 = some (default, false) ∧
    deleteAt (newTree 2 : Tree Int) 7 9 = some (newTree 2, default, false) := by
  have h := getAt_deleteAt_empty_out_of_range (newTree 2 : Tree Int) 7 9
    (fun _ => true) (fun _ => true) 0 0
  refine ⟨(h.1 rfl).1, (h.2 (Or.inr (by decide))).1, (h.2 (Or.inr (by decide))).2⟩

/-! ## C6: rebalance branch selection -/






/-- Sum of child counts after dropping the last child. -/
theorem sumCounts_dropLast (lc : List (Node α)) :
    ((lc.dropLast.map Node.count).sum : Int) =
      (lc.map Node.count).sum - (lc.getD (lc.length - 1) default).count := by
  induction lc with
  | nil => simp [Node.count]
  | cons c cs ih =>
    cases cs with
    | nil => simp [List.getD]
    | cons c2 cs2 =>
      simp only [List.dropLast_cons₂, List.map_cons, List.sum_cons] at *
      have : (c2 :: cs2).getD ((c2 :: cs2).length - 1) default =
          (c :: c2 :: cs2).getD ((c :: c2 :: cs2).length - 1) default := by
        simp [List.getD, List.length_cons]
      rw [this] at ih
      omega

/-- Sum of child counts after dropping the first child. -/
theorem sumCounts_dropOne (rc : List (Node α)) :
    (((rc.drop 1).map Node.count).sum : Int) =
      (rc.map Node.count).sum - (rc.getD 0 default).count := by
  cases rc with
  | nil => simp [Node.count]
  | cons c cs => simp [List.getD]

/-- `countTop` holds at any `getD` access into a list of `countTop` nodes
(the default node has count zero). -/
theorem countTop_getD (cs : List (Node α)) (j : Nat)
    (hc : ∀ c ∈ cs, countTop c = true) :
    countTop (cs.getD j default) = true := by
  rcases h : cs.get? j with _ | c
  · rw [List.getD, h]
    rfl
  · rw [List.getD, h]
    exact hc c (List.get?_mem h)


/-- C6.  `nodeRebalance` agrees with the spec's description: it works on
the pair `(i, i+1)` (shifting down at the last child), merges exactly when
`|left| + |right| < max`, and otherwise rotates from the heavier sibling
through the parent separator, moving the boundary child for internal
nodes — with the incrementally-adjusted counts equal to full recomputation,
provided the two children's stored counts were correct. -/
theorem nodeRebalance_eq_spec (mx : Nat) (n : Node α) (i0 : Nat) (hmx : 1 ≤ mx)
    (hc : ∀ c ∈ n.children.getD [], countTop c = true)
    (hsame : ((n.children.getD []).getD (rIndex n i0) default).leaf
           = ((n.children.getD []).getD (rIndex n i0 + 1) default).leaf) :
    nodeRebalance mx n i0 = rebalanceSpec mx n i0 := by
  obtain ⟨items, children, cnt⟩ := n
  cases children with
  | none => rfl
  | some cs =>
    simp only [Node.children_mk, Option.getD] at hc
    simp only [rIndex, Node.items_mk, Node.children_mk, Option.getD] at hsame
    simp only [nodeRebalance, rebalanceSpec, Node.items_mk, Node.children_mk, Node.count_mk]
    set i := if i0 = items.length then i0 - 1 else i0 with hidef
    have hl := countTop_getD cs i hc
    have hr := countTop_getD cs (i + 1) hc
    rcases hL : cs.getD i default with ⟨li, lch, lcnt⟩
    rcases hR : cs.getD (i + 1) default with ⟨ri, rch, rcnt⟩
    rw [hL] at hl
    rw [hR] at hr
    rw [hL, hR] at hsame
    simp only [Node.leaf_mk] at hsame
    simp only [Node.items_mk, Node.children_mk, Node.count_mk]
    by_cases hm : li.length + ri.length < mx
    · -- merge branch
      simp only [if_pos hm]
      cases lch <;> cases rch
      · simp only [countTop, beq_iff_eq] at hl hr
        simp only [specMerge, Node.updateCount, Node.items_mk, Node.children_mk,
          Node.count_mk, Node.mk.injEq, Option.some.injEq, true_and, and_true,
          List.length_append, List.length_cons, List.map_append, List.sum_append]
        rw [hl, hr]
        push_cast
        ring_nf
      · exact absurd hsame (by simp)
      · exact absurd hsame (by simp)
      · simp only [countTop, beq_iff_eq] at hl hr
        simp only [specMerge, Node.updateCount, Node.items_mk, Node.children_mk,
          Node.count_mk, Node.mk.injEq, Option.some.injEq, true_and, and_true,
          List.length_append, List.length_cons, List.map_append, List.sum_append]
        rw [hl, hr]
        push_cast
        ring_nf
    · simp only [if_neg hm]
      by_cases hg : li.length > ri.length
      · -- rotate left -> right
        have h1 : 1 ≤ li.length := by omega
        simp only [if_pos hg]
        cases lch with
        | none =>
          cases rch <;>
            simp only [countTop, beq_iff_eq] at hl hr <;>
            · simp only [specRotateLR, Node.updateCount, Node.items_mk, Node.children_mk,
                Node.count_mk, Node.mk.injEq, Option.some.injEq, true_and, and_true,
                Option.getD, List.getD_nil,
                List.length_append, List.length_cons, List.length_nil,
                List.length_dropLast, List.length_drop,
                List.map_append, List.map_cons, List.map_nil,
                List.sum_append, List.sum_cons, List.sum_nil]
              rw [hl, hr, Nat.cast_sub h1]
              push_cast
              ring_nf
        | some lc =>
          have hdl := sumCounts_dropLast lc
          cases rch <;>
            simp only [countTop, beq_iff_eq] at hl hr <;>
            · simp only [specRotateLR, Node.updateCount, Node.items_mk, Node.children_mk,
                Node.count_mk, Node.mk.injEq, Option.some.injEq, true_and, and_true,
                Option.getD, List.getD_nil,
                List.length_append, List.length_cons, List.length_nil,
                List.length_dropLast, List.length_drop,
                List.map_append, List.map_cons, List.map_nil,
                List.sum_append, List.sum_cons, List.sum_nil]
              rw [hl, hr, hdl, Nat.cast_sub h1]
              push_cast
              ring_nf
      · -- rotate right -> left
        have hri : 1 ≤ ri.length := by omega
        simp only [if_neg hg]
        cases lch with
        | none =>
          cases rch <;>
            simp only [countTop, beq_iff_eq] at hl hr <;>
            · simp only [specRotateRL, Node.updateCount, Node.items_mk, Node.children_mk,
                Node.count_mk, Node.mk.injEq, Option.some.injEq, true_and, and_true,
                Option.getD, List.getD_nil,
                List.length_append, List.length_cons, List.length_nil,
                List.length_dropLast, List.length_drop,
                List.map_append, List.map_cons, List.map_nil,
                List.sum_append, List.sum_cons, List.sum_nil]
              rw [hl, hr, Nat.cast_sub hri]
              push_cast
              ring_nf
        | some lc =>
          cases rch with
          | none => exact absurd hsame (by simp)
          | some rc =>
            have hdo := sumCounts_dropOne rc
            simp only [countTop, beq_iff_eq] at hl hr
            simp only [specRotateRL, Node.updateCount, Node.items_mk, Node.children_mk,
              Node.count_mk, Node.mk.injEq, Option.some.injEq, true_and, and_true,
              Option.getD, List.getD_nil,
              List.length_append, List.length_cons, List.length_nil,
              List.length_dropLast, List.length_drop,
              List.map_append, List.map_cons, List.map_nil,
              List.sum_append, List.sum_cons, List.sum_nil]
            rw [hl, hr, hdo, Nat.cast_sub hri]
            push_cast
            ring_nf

/-- Witness for C6: a concrete rebalance (last-child underflow, rotation
from the heavier left sibling) matching the spec description. -/
theorem nodeRebalance_eq_spec_witness :
    nodeRebalance 3 (Node.mk ([10] : List Int) (some [Node.mk [1, 2] none 2, Node.mk [20] none 1]) 4) 1
      = rebalanceSpec 3 (Node.mk ([10] : List Int) (some [Node.mk [1, 2] none 2, Node.mk [20] none 1]) 4) 1 :=
  nodeRebalance_eq_spec 3 _ 1 (by decide) (by decide) (by decide)

/-! ## Search primitives: binary search and hinted search agree -/

theorem sorted_getD_lt (l : List α) (hs : l.Pairwise (· < ·)) {i j : Nat}
    (hij : i < j) (hj : j < l.length) :
    l.getD i default < l.getD j default := by
  rw [List.getD_eq_getElem l default (lt_trans hij hj), List.getD_eq_getElem l default hj]
  exact (List.pairwise_iff_getElem.mp hs) i j (lt_trans hij hj) hj hij

theorem sorted_getD_le (l : List α) (hs : l.Pairwise (· < ·)) {i j : Nat}
    (hij : i ≤ j) (hj : j < l.length) :
    l.getD i default ≤ l.getD j default := by
  rcases lt_or_eq_of_le hij with h | h
  · exact le_of_lt (sorted_getD_lt l hs h hj)
  · rw [h]

theorem searchPos_unique {l : List α} {key : α} {r1 r2 : Nat}
    (h1 : SearchPos l key r1) (h2 : SearchPos l key r2) : r1 = r2 := by
  by_contra hne
  rcases Nat.lt_or_ge r1 r2 with h | h
  · exact absurd (h2.2.1 r1 h) (not_le.mpr (h1.2.2 r1 le_rfl (lt_of_lt_of_le h h2.1)))
  · rcases Nat.lt_or_ge r2 r1 with h' | h'
    · exact absurd (h1.2.1 r2 h') (not_le.mpr (h2.2.2 r2 le_rfl (lt_of_lt_of_le h' h1.1)))
    · exact hne (le_antisymm h' h)

theorem lowerBound_searchPos (l : List α) (key : α) (hs : l.Pairwise (· < ·)) :
    SearchPos l key (lowerBound l key) := by
  induction l with
  | nil => exact ⟨Nat.le_refl 0, fun j hj => absurd hj (Nat.not_lt_zero j), fun j _ hj => absurd hj (Nat.not_lt_zero j)⟩
  | cons x xs ih =>
    have hs' : xs.Pairwise (· < ·) := (List.pairwise_cons.mp hs).2
    have hx : ∀ y ∈ xs, x < y := (List.pairwise_cons.mp hs).1
    rcases ih hs' with ⟨hlen, hpre, hsuf⟩
    by_cases hxk : x ≤ key
    · refine ⟨by simpa [lowerBound, hxk] using Nat.succ_le_succ hlen, ?_, ?_⟩
      · intro j hj
        simp only [lowerBound, if_pos hxk] at hj
        cases j with
        | zero => simpa using hxk
        | succ j' => rw [List.getD_cons_succ]; exact hpre j' (by omega)
      · intro j hj hjl
        simp only [lowerBound, if_pos hxk] at hj
        cases j with
        | zero => omega
        | succ j' =>
          rw [List.getD_cons_succ]
          exact hsuf j' (by omega) (by simpa [List.length_cons] using hjl)
    · have hkx : key < x := lt_of_not_le hxk
      refine ⟨by simp [lowerBound, hxk], fun j hj => by simp [lowerBound, hxk] at hj, ?_⟩
      intro j _ hjl
      cases j with
      | zero => simpa using hkx
      | succ j' =>
        rw [List.getD_cons_succ]
        have hj' : j' < xs.length := by simpa [List.length_cons] using hjl
        rw [List.getD_eq_getElem xs default hj']
        exact lt_trans hkx (hx _ (List.getElem_mem hj'))


theorem bsearchLoop_spec (l : List α) (key : α) (hs : l.Pairwise (· < ·)) {r : Nat}
    (hr : SearchPos l key r) :
    ∀ d low high, high - low ≤ d → low ≤ high → high ≤ l.length →
      (∀ j, j < low → l.getD j default ≤ key) →
      (∀ j, high ≤ j → j < l.length → key < l.getD j default) →
      bsearchLoop l key low high = r := by
  intro d
  induction d with
  | zero =>
    intro low high hd hlh hhl hlow hhigh
    have hnl : ¬ low < high := by omega
    rw [bsearchLoop, dif_neg hnl]
    exact searchPos_unique ⟨by omega, hlow, fun j hj hjl => hhigh j (by omega) hjl⟩ hr
  | succ d ih =>
    intro low high hd hlh hhl hlow hhigh
    by_cases h : low < high
    · rw [bsearchLoop, dif_pos h]
      have hm1 : low ≤ (low + high) / 2 := by omega
      have hm2 : (low + high) / 2 < high := by omega
      by_cases hc : ¬ key < l.getD ((low + high) / 2) default
      · rw [if_pos hc]
        refine ih ((low + high) / 2 + 1) high (by omega) (by omega) hhl ?_ hhigh
        intro j hj
        rcases Nat.lt_or_ge j ((low + high) / 2) with h' | h'
        · exact le_of_lt (lt_of_lt_of_le (sorted_getD_lt l hs h' (by omega)) (not_lt.mp hc))
        · have : j = (low + high) / 2 := by omega
          rw [this]
          exact not_lt.mp hc
      · rw [if_neg hc]
        have hc' : key < l.getD ((low + high) / 2) default := not_not.mp (by simpa using hc)
        refine ih low ((low + high) / 2) (by omega) (by omega) (by omega) hlow ?_
        intro j hj hjl
        exact lt_of_lt_of_le hc' (sorted_getD_le l hs hj hjl)
    · have hnl : ¬ low < high := h
      rw [bsearchLoop, dif_neg hnl]
      exact searchPos_unique ⟨by omega, hlow, fun j hj hjl => hhigh j (by omega) hjl⟩ hr

/-- `bsearch` computed in closed form: the lower bound, with `found` when
the item just below it is not less than the key. -/
theorem bsearch_eq_lowerBound (l : List α) (key : α) (hs : l.Pairwise (· < ·)) :
    bsearch l key =
      (if 0 < lowerBound l key ∧ ¬ l.getD (lowerBound l key - 1) default < key
       then (lowerBound l key - 1, true)
       else (lowerBound l key, false)) := by
  have hl := bsearchLoop_spec l key hs (lowerBound_searchPos l key hs) l.length 0 l.length
    (by omega) (by omega) (by omega) (fun j hj => absurd hj (by omega))
    (fun j hj hjl => absurd hjl (by omega))
  unfold bsearch
  rw [hl]

theorem hsLoop_spec (l : List α) (key : α) (hs : l.Pairwise (· < ·)) {r : Nat}
    (hr : SearchPos l key r) :
    ∀ d (low high : Int), (high + 1 - low).toNat ≤ d → 0 ≤ low → low ≤ high + 1 →
      high < (l.length : Int) →
      (∀ j : Nat, (j : Int) < low → l.getD j default ≤ key) →
      (∀ j : Nat, high < (j : Int) → j < l.length → key < l.getD j default) →
      hsLoop l key low high = (r : Int) := by
  intro d
  induction d with
  | zero =>
    intro low high hd h0 h3 h2 hlow hhigh
    have hnl : ¬ low ≤ high := by omega
    rw [hsLoop, dif_neg hnl]
    have : SearchPos l key low.toNat :=
      ⟨by omega, fun j hj => hlow j (by omega), fun j hj hjl => hhigh j (by omega) hjl⟩
    rw [← searchPos_unique this hr]
    omega
  | succ d ih =>
    intro low high hd h0 h3 h2 hlow hhigh
    by_cases h : low ≤ high
    · rw [hsLoop, dif_pos h]
      have hm1 : low ≤ low + ((high + 1) - low) / 2 := by omega
      have hm2 : low + ((high + 1) - low) / 2 ≤ high := by omega
      have hmn : (low + ((high + 1) - low) / 2).toNat < l.length := by omega
      by_cases hc : ¬ key < l.getD (low + ((high + 1) - low) / 2).toNat default
      · rw [if_pos hc]
        refine ih (low + ((high + 1) - low) / 2 + 1) high (by omega) (by omega) (by omega) h2 ?_ hhigh
        intro j hj
        rcases Nat.lt_or_ge j (low + ((high + 1) - low) / 2).toNat with h' | h'
        · exact le_of_lt (lt_of_lt_of_le (sorted_getD_lt l hs h' hmn) (not_lt.mp hc))
        · have : j = (low + ((high + 1) - low) / 2).toNat := by omega
          rw [this]
          exact not_lt.mp hc
      · rw [if_neg hc]
        have hc' : key < l.getD (low + ((high + 1) - low) / 2).toNat default :=
          not_not.mp (by simpa using hc)
        refine ih low (low + ((high + 1) - low) / 2 - 1) (by omega) h0 (by omega) (by omega) hlow ?_
        intro j hj hjl
        refine lt_of_lt_of_le hc' (sorted_getD_le l hs ?_ hjl)
        omega
    · rw [hsLoop, dif_neg h]
      have : SearchPos l key low.toNat :=
        ⟨by omega, fun j hj => hlow j (by omega), fun j hj hjl => hhigh j (by omega) hjl⟩
      rw [← searchPos_unique this hr]
      omega

/-- The narrowed binary search of `hintsearch` returns exactly what the
plain `bsearch` returns, whenever its entry bounds are consistent with the
key's position. -/
theorem hsBinary_eq_bsearch (l : List α) (key : α) (hs : l.Pairwise (· < ·))
    (low high : Int) (h0 : 0 ≤ low) (h3 : low ≤ high + 1) (h2 : high < (l.length : Int))
    (hlow : ∀ j : Nat, (j : Int) < low → l.getD j default ≤ key)
    (hhigh : ∀ j : Nat, high < (j : Int) → j < l.length → key < l.getD j default) :
    hsBinary l key low high = bsearch l key := by
  have hl := hsLoop_spec l key hs (lowerBound_searchPos l key hs)
    (high + 1 - low).toNat low high (by omega) h0 h3 h2 hlow hhigh
  rw [bsearch_eq_lowerBound l key hs]
  unfold hsBinary
  rw [hl]
  have h4 : ((lowerBound l key : Int) - 1).toNat = lowerBound l key - 1 := by omega
  have h5 : ((lowerBound l key : Int)).toNat = lowerBound l key := by omega
  by_cases hfound : 0 < lowerBound l key ∧ ¬ l.getD (lowerBound l key - 1) default < key
  · rw [if_pos hfound, if_pos ?_]
    · rw [h4]
    · refine ⟨by exact_mod_cast hfound.1, ?_⟩
      rw [h4]
      exact hfound.2
  · rw [if_neg ?_, if_neg hfound]
    · rw [h5]
    · intro hcon
      apply hfound
      refine ⟨by exact_mod_cast hcon.1, ?_⟩
      rw [← h4]
      exact hcon.2


/-- Positions below a `SearchPos`-certified index pin down `lowerBound`. -/
theorem lowerBound_eq_of_searchPos {l : List α} {key : α} {r : Nat}
    (hs : l.Pairwise (· < ·)) (h : SearchPos l key r) : lowerBound l key = r :=
  searchPos_unique (lowerBound_searchPos l key hs) h

/-- The neighbor probe agrees with `bsearch` at any in-range probe index. -/
theorem hsProbe_eq_bsearch (l : List α) (key : α) (hs : l.Pairwise (· < ·))
    (index : Nat) (hidx : index < l.length) :
    hsProbe l key index = bsearch l key := by
  unfold hsProbe
  by_cases h1 : key < l.getD index default
  · rw [if_pos h1]
    by_cases h2 : index = 0 ∨ l.getD (index - 1) default < key
    · rw [if_pos h2]
      have hsp : SearchPos l key index := by
        refine ⟨by omega, ?_, ?_⟩
        · intro j hj
          rcases h2 with h2 | h2
          · omega
          · exact le_of_lt (lt_of_le_of_lt (sorted_getD_le l hs (by omega) (by omega)) h2)
        · intro j hj hjl
          exact lt_of_lt_of_le h1 (sorted_getD_le l hs hj hjl)
      rw [bsearch_eq_lowerBound l key hs, lowerBound_eq_of_searchPos hs hsp]
      rcases Nat.eq_zero_or_pos index with h0 | h0
      · subst h0
        rw [if_neg (by rintro ⟨hc, -⟩; omega)]
      · rw [if_neg ?_]
        rintro ⟨-, hc⟩
        rcases h2 with h2 | h2
        · omega
        · exact hc h2
    · rw [if_neg h2]
      push_neg at h2
      refine hsBinary_eq_bsearch l key hs 0 ((index : Int) - 1) (by omega) (by omega)
        (by omega) (fun j hj => absurd hj (by omega)) ?_
      intro j hj hjl
      rcases Nat.lt_or_ge j index with h' | h'
      · omega
      · exact lt_of_lt_of_le h1 (sorted_getD_le l hs h' hjl)
  · rw [if_neg h1]
    by_cases h1' : l.getD index default < key
    · rw [if_pos h1']
      refine hsBinary_eq_bsearch l key hs ((index : Int) + 1) ((l.length : Int) - 1)
        (by omega) (by omega) (by omega) ?_ (fun j hj hjl => absurd hjl (by omega))
      intro j hj
      have hj' : j ≤ index := by omega
      exact le_of_lt (lt_of_le_of_lt (sorted_getD_le l hs hj' hidx) h1')
    · rw [if_neg h1']
      have heq : l.getD index default = key := le_antisymm (not_lt.mp h1) (not_lt.mp h1')
      have hsp : SearchPos l key (index + 1) := by
        refine ⟨by omega, ?_, ?_⟩
        · intro j hj
          rw [← heq]
          exact sorted_getD_le l hs (by omega) hidx
        · intro j hj hjl
          rw [← heq]
          exact sorted_getD_lt l hs (by omega) hjl
      rw [bsearch_eq_lowerBound l key hs, lowerBound_eq_of_searchPos hs hsp]
      rw [if_pos ⟨by omega, by simpa [Nat.add_sub_cancel] using h1'⟩]
      simp

/-- C3 kernel: on a node whose items are strictly sorted (and nonempty, as
in every node of a valid tree), `hintsearch` returns the same
`(index, found)` pair as `bsearch`, for **every** hint state. -/
theorem hintsearchRaw_eq_bsearch (l : List α) (key : α) (hint : PathHint)
    (depth : Nat) (hs : l.Pairwise (· < ·)) (hne : l ≠ []) :
    hintsearchRaw l key hint depth = bsearch l key := by
  have hlen : 1 ≤ l.length := List.length_pos.mpr hne
  unfold hintsearchRaw
  by_cases hu : depth < 8 ∧ hint.used.getD depth false
  · rw [if_pos hu]
    by_cases hbig : hint.path.getD depth 0 ≥ l.length
    · rw [if_pos hbig]
      by_cases htail : l.getD (l.length - 1) default < key
      · rw [if_pos htail]
        have hsp : SearchPos l key l.length := by
          refine ⟨le_refl _, ?_, fun j hj hjl => by omega⟩
          intro j hj
          exact le_of_lt (lt_of_le_of_lt (sorted_getD_le l hs (by omega) (by omega)) htail)
        rw [bsearch_eq_lowerBound l key hs, lowerBound_eq_of_searchPos hs hsp]
        rw [if_neg]
        rintro ⟨-, hc⟩
        exact hc htail
      · rw [if_neg htail]
        exact hsProbe_eq_bsearch l key hs (l.length - 1) (by omega)
    · rw [if_neg hbig]
      exact hsProbe_eq_bsearch l key hs (hint.path.getD depth 0) (by omega)
  · rw [if_neg hu]
    exact hsBinary_eq_bsearch l key hs 0 ((l.length : Int) - 1) (by omega) (by omega)
      (by omega) (fun j hj => absurd hj (by omega))
      (fun j hj hjl => absurd hjl (by omega))

/-- `hintsearch`'s result component equals `bsearch` (the hint update is
the only difference). -/
theorem hintsearch_fst_eq_bsearch (n : Node α) (key : α) (hint : PathHint)
    (depth : Nat) (hs : n.items.Pairwise (· < ·)) (hne : n.items ≠ []) :
    (hintsearch n key hint depth).1 = bsearch n.items key := by
  unfold hintsearch
  simp only [hintsearchRaw_eq_bsearch n.items key hint depth hs hne]

/-- `find` returns the `bsearch` answer regardless of the hint argument. -/
theorem find_fst_eq_bsearch (n : Node α) (key : α) (hint : Option PathHint)
    (depth : Nat) (hs : n.items.Pairwise (· < ·)) (hne : n.items ≠ []) :
    (find n key hint depth).1 = bsearch n.items key := by
  cases hint with
  | none => rfl
  | some h => exact hintsearch_fst_eq_bsearch n key h depth hs hne


/-! ## chainB: the per-node order invariant -/

theorem chainB_lt_all {a : α} {hi : Option α} {l : List α}
    (h : chainB (some a) hi l = true) : ∀ x ∈ l, a < x := by
  induction l generalizing a with
  | nil => intro x hx; cases hx
  | cons y ys ih =>
    simp only [chainB, Bool.and_eq_true] at h
    intro x hx
    rcases List.mem_cons.mp hx with rfl | hx'
    · simpa [lob] using h.1
    · have hay : a < y := by simpa [lob] using h.1
      exact lt_trans hay (ih h.2 x hx')

theorem chainB_head_lt_hi {a : α} {b : α} {l : List α}
    (h : chainB (some a) (some b) l = true) : a < b := by
  induction l generalizing a with
  | nil => simpa [chainB, lob] using h
  | cons y ys ih =>
    simp only [chainB, Bool.and_eq_true] at h
    have hay : a < y := by simpa [lob] using h.1
    exact lt_trans hay (ih h.2)

theorem chainB_all_lt {lo : Option α} {b : α} {l : List α}
    (h : chainB lo (some b) l = true) : ∀ x ∈ l, x < b := by
  induction l generalizing lo with
  | nil => intro x hx; cases hx
  | cons y ys ih =>
    simp only [chainB, Bool.and_eq_true] at h
    intro x hx
    rcases List.mem_cons.mp hx with rfl | hx'
    · exact chainB_head_lt_hi h.2
    · exact ih h.2 x hx'

theorem chainB_pairwise {lo hi : Option α} {l : List α}
    (h : chainB lo hi l = true) : l.Pairwise (· < ·) := by
  induction l generalizing lo with
  | nil => exact List.Pairwise.nil
  | cons y ys ih =>
    simp only [chainB, Bool.and_eq_true] at h
    exact List.pairwise_cons.mpr ⟨chainB_lt_all h.2, ih h.2⟩


theorem chainB_mem_bounds {lo hi : Option α} {l : List α}
    (h : chainB lo hi l = true) {x : α} (hx : x ∈ l) :
    lob lo (some x) = true ∧ lob (some x) hi = true := by
  constructor
  · cases lo with
    | none => rfl
    | some a => simpa [lob] using chainB_lt_all h x hx
  · cases hi with
    | none => simp [lob]
    | some b => simpa [lob] using chainB_all_lt h x hx

theorem chainB_insertIdx {lo hi : Option α} {l : List α} {item : α} {L : Nat}
    (hc : chainB lo hi l = true)
    (hlo : lob lo (some item) = true) (hhi : lob (some item) hi = true)
    (hL : L ≤ l.length)
    (hbefore : ∀ j, j < L → l.getD j default < item)
    (hafter : ∀ j, L ≤ j → j < l.length → item < l.getD j default) :
    chainB lo hi (l.insertIdx L item) = true := by
  induction l generalizing lo L with
  | nil =>
    have : L = 0 := by simpa using hL
    subst this
    simp only [List.insertIdx, chainB, Bool.and_eq_true]
    exact ⟨hlo, by simpa [chainB] using hhi⟩
  | cons x xs ih =>
    cases L with
    | zero =>
      simp only [List.insertIdx, chainB, Bool.and_eq_true]
      refine ⟨hlo, ?_, ?_⟩
      · have h0len : 0 < (x :: xs).length := by simp
        have hix := hafter 0 (Nat.le_refl 0) h0len
        rw [List.getD_cons_zero] at hix
        simpa [lob] using hix
      · simp only [chainB, Bool.and_eq_true] at hc
        exact hc.2
    | succ L' =>
      simp only [List.insertIdx, chainB, Bool.and_eq_true] at hc ⊢
      refine ⟨hc.1, ?_⟩
      have hxi : lob (some x) (some item) = true := by
        have hxlt : x < item := by simpa using hbefore 0 (by omega)
        simpa [lob] using hxlt
      have hb' : ∀ j, j < L' → xs.getD j default < item := by
        intro j hj
        simpa [List.getD_cons_succ] using hbefore (j + 1) (by omega)
      have ha' : ∀ j, L' ≤ j → j < xs.length → item < xs.getD j default := by
        intro j hj hjl
        have hjl' : j + 1 < (x :: xs).length := by simp [List.length_cons]; omega
        simpa [List.getD_cons_succ] using hafter (j + 1) (by omega) hjl'
      exact ih hc.2 hxi (by simpa using hL) hb' ha' 

theorem chainB_take {lo hi : Option α} {l : List α}
    (h : chainB lo hi l = true) (i : Nat) (hi' : i < l.length) :
    chainB lo (some (l.getD i default)) (l.take i) = true := by
  induction l generalizing lo i with
  | nil => simp at hi'
  | cons x xs ih =>
    cases i with
    | zero =>
      simp only [chainB, Bool.and_eq_true] at h
      simpa [List.take, List.getD_cons_zero, chainB] using h.1
    | succ i' =>
      simp only [chainB, Bool.and_eq_true] at h
      simp only [List.take, List.getD_cons_succ, chainB, Bool.and_eq_true]
      exact ⟨h.1, ih h.2 i' (by simpa [List.length_cons] using hi')⟩

theorem chainB_drop {lo hi : Option α} {l : List α}
    (h : chainB lo hi l = true) (i : Nat) (hi' : i < l.length) :
    chainB (some (l.getD i default)) hi (l.drop (i + 1)) = true := by
  induction l generalizing lo i with
  | nil => simp at hi'
  | cons x xs ih =>
    cases i with
    | zero =>
      simp only [chainB, Bool.and_eq_true] at h
      simpa [List.drop, List.getD_cons_zero] using h.2
    | succ i' =>
      simp only [chainB, Bool.and_eq_true] at h
      simpa [List.drop, List.getD_cons_succ] using ih h.2 i' (by simpa [List.length_cons] using hi')

/-- `bsearch` on a sorted list: the found flag certifies an exact hit, and
a miss certifies the insertion position with strict bounds. -/
theorem bsearch_spec (l : List α) (key : α) (hs : l.Pairwise (· < ·)) :
    ((bsearch l key).2 = true →
      (bsearch l key).1 < l.length ∧ l.getD (bsearch l key).1 default = key) ∧
    ((bsearch l key).2 = false →
      (bsearch l key).1 ≤ l.length ∧
      (∀ j, j < (bsearch l key).1 → l.getD j default < key) ∧
      (∀ j, (bsearch l key).1 ≤ j → j < l.length → key < l.getD j default)) := by
  have hsp := lowerBound_searchPos l key hs
  rw [bsearch_eq_lowerBound l key hs]
  obtain ⟨hle, hpre, hsuf⟩ := hsp
  by_cases hfound : 0 < lowerBound l key ∧ ¬ l.getD (lowerBound l key - 1) default < key
  · rw [if_pos hfound]
    have h0 := hfound.1
    constructor
    · intro
      exact ⟨by omega, le_antisymm (hpre _ (by omega)) (not_lt.mp hfound.2)⟩
    · intro h
      cases h
  · rw [if_neg hfound]
    constructor
    · intro h
      cases h
    · intro
      refine ⟨hle, ?_, hsuf⟩
      intro j hj
      rcases Nat.eq_zero_or_pos (lowerBound l key) with h0 | h0
      · omega
      · have hcase : l.getD (lowerBound l key - 1) default < key := by
          by_contra hc
          exact hfound ⟨h0, hc⟩
        exact lt_of_le_of_lt (sorted_getD_le l hs (by omega) (by omega)) hcase

/-- A key not in a sorted list is never `found`. -/
theorem bsearch_not_mem (l : List α) (key : α) (hs : l.Pairwise (· < ·))
    (hmem : key ∉ l) : (bsearch l key).2 = false := by
  by_contra hb
  have hb' : (bsearch l key).2 = true := by
    cases h : (bsearch l key).2
    · exact absurd h hb
    · rfl
  have := (bsearch_spec l key hs).1 hb'
  apply hmem
  rw [← this.2, List.getD_eq_getElem l default this.1]
  exact List.getElem_mem this.1


/-! ## wfN / wfL: destructors and the child zipper -/

theorem wfN_chainB {mn mx : Nat} {rt : Bool} {h : Nat} {lo hi : Option α} {n : Node α}
    (hw : wfN mn mx rt h lo hi n = true) : chainB lo hi n.items = true := by
  obtain ⟨its, ch, cnt⟩ := n
  cases ch with
  | none =>
    simp only [wfN, Bool.and_eq_true, and_assoc] at hw
    obtain ⟨-, -, -, hch, -⟩ := hw
    simpa [Node.items_mk] using hch
  | some cs =>
    simp only [wfN, Bool.and_eq_true, and_assoc] at hw
    obtain ⟨-, -, -, hch, -⟩ := hw
    simpa [Node.items_mk] using hch

theorem wfN_sorted {mn mx : Nat} {rt : Bool} {h : Nat} {lo hi : Option α} {n : Node α}
    (hw : wfN mn mx rt h lo hi n = true) : n.items.Pairwise (· < ·) :=
  chainB_pairwise (wfN_chainB hw)

theorem wfN_occupancy {mn mx : Nat} {rt : Bool} {h : Nat} {lo hi : Option α} {n : Node α}
    (hw : wfN mn mx rt h lo hi n = true) :
    (rt = true → 1 ≤ n.items.length) ∧ (rt = false → mn ≤ n.items.length) ∧
      n.items.length ≤ mx := by
  obtain ⟨its, ch, cnt⟩ := n
  cases ch with
  | none =>
    simp only [wfN, Bool.and_eq_true, and_assoc] at hw
    obtain ⟨-, hocc, hle, -, -⟩ := hw
    cases rt <;> simp_all [Node.items_mk]
  | some cs =>
    simp only [wfN, Bool.and_eq_true, and_assoc] at hw
    obtain ⟨-, hocc, hle, -, -⟩ := hw
    cases rt <;> simp_all [Node.items_mk]

theorem wfN_nonempty {mn mx : Nat} {rt : Bool} {h : Nat} {lo hi : Option α} {n : Node α}
    (hmn : 1 ≤ mn) (hw : wfN mn mx rt h lo hi n = true) : n.items ≠ [] := by
  have hocc := wfN_occupancy hw
  intro hnil
  cases rt with
  | false =>
    have := hocc.2.1 rfl
    rw [hnil] at this
    simp at this
    omega
  | true =>
    have := hocc.1 rfl
    rw [hnil] at this
    simp at this

theorem wfN_countTop {mn mx : Nat} {rt : Bool} {h : Nat} {lo hi : Option α} {n : Node α}
    (hw : wfN mn mx rt h lo hi n = true) : countTop n = true := by
  obtain ⟨its, ch, cnt⟩ := n
  cases ch with
  | none =>
    simp only [wfN, Bool.and_eq_true, and_assoc] at hw
    obtain ⟨-, -, -, -, hcnt⟩ := hw
    simpa [countTop] using hcnt
  | some cs =>
    simp only [wfN, Bool.and_eq_true, and_assoc] at hw
    obtain ⟨-, -, -, -, -, -, hcnt⟩ := hw
    simpa [countTop] using hcnt

theorem wfL_length {mn mx h : Nat} {lo hi : Option α} {cs : List (Node α)} {its : List α}
    (hw : wfL mn mx h lo hi cs its = true) : cs.length = its.length + 1 := by
  induction its generalizing lo cs with
  | nil =>
    match cs with
    | [] => simp [wfL] at hw
    | [c] => simp
    | c :: c2 :: rest => simp [wfL] at hw
  | cons it its' ih =>
    match cs with
    | [] => simp [wfL] at hw
    | c :: cs' =>
      simp only [wfL, Bool.and_eq_true] at hw
      have := ih hw.2
      simp [List.length_cons, this]

theorem wfL_get {mn mx h : Nat} {lo hi : Option α} {cs : List (Node α)} {its : List α}
    (hw : wfL mn mx h lo hi cs its = true) (i : Nat) (hile : i ≤ its.length) :
    wfN mn mx false h (boundL lo its i) (boundR hi its i) (cs.getD i default) = true := by
  induction its generalizing lo cs i with
  | nil =>
    match cs with
    | [] => simp [wfL] at hw
    | [c] =>
      have : i = 0 := by simpa using hile
      subst this
      simpa [boundL, boundR, List.getD_cons_zero, wfL] using hw
    | c :: c2 :: rest => simp [wfL] at hw
  | cons it its' ih =>
    match cs with
    | [] => simp [wfL] at hw
    | c :: cs' =>
      simp only [wfL, Bool.and_eq_true] at hw
      cases i with
      | zero =>
        simpa [boundL, boundR, List.getD_cons_zero, List.length_cons] using hw.1
      | succ i' =>
        have hi'le : i' ≤ its'.length := by simpa [List.length_cons] using hile
        have := ih hw.2 i' hi'le
        have hbL : boundL lo (it :: its') (i' + 1) = boundL (some it) its' i' := by
          cases i' with
          | zero => simp [boundL, List.getD_cons_zero]
          | succ k => simp [boundL, List.getD_cons_succ]
        have hbR : boundR hi (it :: its') (i' + 1) = boundR hi its' i' := by
          by_cases he : i' = its'.length
          · simp [boundR, he, List.length_cons]
          · simp [boundR, he, List.length_cons, List.getD_cons_succ]
        rw [hbL, hbR, List.getD_cons_succ]
        exact this

theorem wfL_set {mn mx h : Nat} {lo hi : Option α} {cs : List (Node α)} {its : List α}
    (hw : wfL mn mx h lo hi cs its = true) (i : Nat) (hile : i ≤ its.length)
    {c' : Node α}
    (hc' : wfN mn mx false h (boundL lo its i) (boundR hi its i) c' = true) :
    wfL mn mx h lo hi (cs.set i c') its = true := by
  induction its generalizing lo cs i with
  | nil =>
    match cs with
    | [] => simp [wfL] at hw
    | [c] =>
      have : i = 0 := by simpa using hile
      subst this
      simpa [wfL, List.set, boundL, boundR] using hc'
    | c :: c2 :: rest => simp [wfL] at hw
  | cons it its' ih =>
    match cs with
    | [] => simp [wfL] at hw
    | c :: cs' =>
      simp only [wfL, Bool.and_eq_true] at hw
      cases i with
      | zero =>
        simp only [List.set, wfL, Bool.and_eq_true]
        refine ⟨?_, hw.2⟩
        simpa [boundL, boundR, List.length_cons] using hc'
      | succ i' =>
        have hi'le : i' ≤ its'.length := by simpa [List.length_cons] using hile
        have hbL : boundL lo (it :: its') (i' + 1) = boundL (some it) its' i' := by
          cases i' with
          | zero => simp [boundL, List.getD_cons_zero]
          | succ k => simp [boundL, List.getD_cons_succ]
        have hbR : boundR hi (it :: its') (i' + 1) = boundR hi its' i' := by
          by_cases he : i' = its'.length
          · simp [boundR, he, List.length_cons]
          · simp [boundR, he, List.length_cons, List.getD_cons_succ]
        rw [hbL, hbR] at hc'
        simp only [List.set, wfL, Bool.and_eq_true]
        exact ⟨hw.1, ih hw.2 i' hi'le hc'⟩


theorem lob_trans {a b c : Option α} (h1 : lob a b = true) (h2 : lob b c = true)
    (hb : b ≠ none) : lob a c = true := by
  cases a with
  | none => cases c <;> rfl
  | some x =>
    cases c with
    | none => simp [lob]
    | some z =>
      cases b with
      | none => exact absurd rfl hb
      | some y =>
        simp only [lob, decide_eq_true_eq] at *
        exact lt_trans h1 h2

theorem lob_lo_of_boundL {lo hi : Option α} {its : List α} {i : Nat}
    (hch : chainB lo hi its = true) (hile : i ≤ its.length) {x : α}
    (hx : lob (boundL lo its i) (some x) = true) : lob lo (some x) = true := by
  by_cases h0 : i = 0
  · simpa [boundL, h0] using hx
  · rw [boundL, if_neg h0] at hx
    have hmem : its.getD (i - 1) default ∈ its := by
      rw [List.getD_eq_getElem its default (by omega)]
      exact List.getElem_mem (by omega)
    exact lob_trans (chainB_mem_bounds hch hmem).1 hx (by simp)

theorem lob_hi_of_boundR {lo hi : Option α} {its : List α} {i : Nat}
    (hch : chainB lo hi its = true) (hile : i ≤ its.length) {x : α}
    (hx : lob (some x) (boundR hi its i) = true) : lob (some x) hi = true := by
  by_cases hn : i = its.length
  · simpa [boundR, hn] using hx
  · rw [boundR, if_neg hn] at hx
    have hmem : its.getD i default ∈ its := by
      rw [List.getD_eq_getElem its default (by omega)]
      exact List.getElem_mem (by omega)
    exact lob_trans hx (chainB_mem_bounds hch hmem).2 (by simp)

theorem lt_before_of_boundL {lo hi : Option α} {its : List α} {i : Nat}
    (hch : chainB lo hi its = true) (hile : i ≤ its.length) {x : α}
    (hx : lob (boundL lo its i) (some x) = true) :
    ∀ j, j < i → its.getD j default < x := by
  intro j hj
  have hi0 : i ≠ 0 := by omega
  rw [boundL, if_neg hi0] at hx
  have hxi : its.getD (i - 1) default < x := by simpa [lob] using hx
  exact lt_of_le_of_lt (sorted_getD_le its (chainB_pairwise hch) (by omega) (by omega)) hxi

theorem lt_after_of_boundR {lo hi : Option α} {its : List α} {i : Nat}
    (hch : chainB lo hi its = true) (hile : i ≤ its.length) {x : α}
    (hx : lob (some x) (boundR hi its i) = true) :
    ∀ j, i ≤ j → j < its.length → x < its.getD j default := by
  intro j hj hjl
  have hin : i ≠ its.length := by omega
  rw [boundR, if_neg hin] at hx
  have hxi : x < its.getD i default := by simpa [lob] using hx
  exact lt_of_lt_of_le hxi (sorted_getD_le its (chainB_pairwise hch) hj hjl)

theorem lob_boundL_of_lt {lo : Option α} {its : List α} {i : Nat} {x : α}
    (h1 : i ≠ 0 → its.getD (i - 1) default < x) (h2 : lob lo (some x) = true) :
    lob (boundL lo its i) (some x) = true := by
  by_cases h0 : i = 0
  · simpa [boundL, h0] using h2
  · rw [boundL, if_neg h0]
    simpa [lob] using h1 h0

theorem lob_boundR_of_lt {hi : Option α} {its : List α} {i : Nat} {x : α}
    (h1 : i ≠ its.length → x < its.getD i default) (h2 : lob (some x) hi = true) :
    lob (some x) (boundR hi its i) = true := by
  by_cases hn : i = its.length
  · simpa [boundR, hn] using h2
  · rw [boundR, if_neg hn]
    simpa [lob] using h1 hn

theorem wfL_take {mn mx h : Nat} {lo hi : Option α} {cs : List (Node α)} {its : List α}
    (hw : wfL mn mx h lo hi cs its = true) (i : Nat) (hilt : i < its.length) :
    wfL mn mx h lo (some (its.getD i default)) (cs.take (i + 1)) (its.take i) = true := by
  induction its generalizing lo cs i with
  | nil => simp at hilt
  | cons it its' ih =>
    match cs with
    | [] => simp [wfL] at hw
    | c :: cs' =>
      simp only [wfL, Bool.and_eq_true] at hw
      cases i with
      | zero =>
        simpa [List.take, List.getD_cons_zero, wfL] using hw.1
      | succ i' =>
        have hi' : i' < its'.length := by simpa [List.length_cons] using hilt
        simp only [List.take, List.getD_cons_succ, wfL, Bool.and_eq_true]
        exact ⟨hw.1, ih hw.2 i' hi'⟩

theorem wfL_drop {mn mx h : Nat} {lo hi : Option α} {cs : List (Node α)} {its : List α}
    (hw : wfL mn mx h lo hi cs its = true) (i : Nat) (hilt : i < its.length) :
    wfL mn mx h (some (its.getD i default)) hi (cs.drop (i + 1)) (its.drop (i + 1)) = true := by
  induction its generalizing lo cs i with
  | nil => simp at hilt
  | cons it its' ih =>
    match cs with
    | [] => simp [wfL] at hw
    | c :: cs' =>
      simp only [wfL, Bool.and_eq_true] at hw
      cases i with
      | zero =>
        simpa [List.drop, List.getD_cons_zero] using hw.2
      | succ i' =>
        have hi' : i' < its'.length := by simpa [List.length_cons] using hilt
        simpa [List.drop, List.getD_cons_succ] using ih hw.2 i' hi'

theorem wfL_insert_split {mn mx h : Nat} {lo hi : Option α} {cs : List (Node α)}
    {its : List α} (i : Nat)
    (hw : wfL mn mx h lo hi cs its = true) (hile : i ≤ its.length)
    {l r : Node α} {med : α}
    (hl : wfN mn mx false h (boundL lo its i) (some med) l = true)
    (hr : wfN mn mx false h (some med) (boundR hi its i) r = true) :
    wfL mn mx h lo hi ((cs.set i l).insertIdx (i + 1) r) (its.insertIdx i med) = true := by
  induction its generalizing lo cs i with
  | nil =>
    have h0 : i = 0 := by simpa using hile
    subst h0
    match cs with
    | [] => simp [wfL] at hw
    | [c] =>
      simp only [wfL] at hw
      simp only [List.set_cons_zero, List.insertIdx_succ_cons, List.insertIdx_zero,
        wfL, Bool.and_eq_true]
      exact ⟨by simpa [boundL] using hl, by simpa [boundR, wfL] using hr⟩
    | c :: c2 :: rest => simp [wfL] at hw
  | cons it its' ih =>
    match cs with
    | [] => simp [wfL] at hw
    | c :: cs' =>
      simp only [wfL, Bool.and_eq_true] at hw
      cases i with
      | zero =>
        simp only [List.set_cons_zero, List.insertIdx_succ_cons, List.insertIdx_zero,
          wfL, Bool.and_eq_true]
        exact ⟨by simpa [boundL] using hl,
          by simpa [boundR, List.length_cons, List.getD_cons_zero] using hr, hw.2⟩
      | succ i' =>
        have hi'le : i' ≤ its'.length := by simpa [List.length_cons] using hile
        have hbL : boundL lo (it :: its') (i' + 1) = boundL (some it) its' i' := by
          cases i' with
          | zero => simp [boundL, List.getD_cons_zero]
          | succ k => simp [boundL, List.getD_cons_succ]
        have hbR : boundR hi (it :: its') (i' + 1) = boundR hi its' i' := by
          by_cases he : i' = its'.length
          · simp [boundR, he, List.length_cons]
          · simp [boundR, he, List.length_cons, List.getD_cons_succ]
        rw [hbL] at hl
        rw [hbR] at hr
        simp only [List.set_cons_succ, List.insertIdx_succ_cons, wfL, Bool.and_eq_true]
        exact ⟨hw.1, ih i' hw.2 hi'le hl hr⟩


theorem sumCounts_take_drop (cs : List (Node α)) (k : Nat) :
    ((cs.take k).map Node.count).sum + ((cs.drop k).map Node.count).sum
      = (cs.map Node.count).sum := by
  conv_rhs => rw [← List.take_append_drop k cs]
  rw [List.map_append, List.sum_append]

/-- `nodeSplit` on a full node produces two well-formed halves around the
median, at the same height, with `min` items each and with counts summing
back (plus the median) to the original count. -/
theorem nodeSplit_wf {mn mx h : Nat} {lo hi : Option α} {c : Node α} {rt : Bool}
    (hmn : 1 ≤ mn) (hmx : mx = 2 * mn + 1)
    (hlen : c.items.length = mx)
    (hw : wfN mn mx rt h lo hi c = true) :
    wfN mn mx false h lo (some (nodeSplit mx c).2.2) (nodeSplit mx c).1 = true ∧
    wfN mn mx false h (some (nodeSplit mx c).2.2) hi (nodeSplit mx c).2.1 = true ∧
    (nodeSplit mx c).2.2 = c.items.getD (mx / 2) default ∧
    (nodeSplit mx c).1.count + (nodeSplit mx c).2.1.count + 1 = c.count ∧
    lob lo (some (nodeSplit mx c).2.2) = true ∧
    lob (some (nodeSplit mx c).2.2) hi = true := by
  have hmid : mx / 2 = mn := by omega
  have hmnmx : mn ≤ mx := by omega
  obtain ⟨its, ch, cnt⟩ := c
  simp only [Node.items_mk] at hlen
  have hch := wfN_chainB hw
  simp only [Node.items_mk] at hch
  have hmedmem : its.getD (mx / 2) default ∈ its := by
    rw [List.getD_eq_getElem its default (by omega)]
    exact List.getElem_mem (by omega)
  have hbnds := chainB_mem_bounds hch hmedmem
  have htake := chainB_take hch (mx / 2) (by omega)
  have hdrop := chainB_drop hch (mx / 2) (by omega)
  have hlt : (its.take (mx / 2)).length = mn := by
    simp only [List.length_take]
    omega
  have hdl : (its.drop (mx / 2 + 1)).length = mn := by
    simp only [List.length_drop]
    omega
  cases ch with
  | none =>
    simp only [wfN, Bool.and_eq_true, and_assoc, beq_iff_eq, bne_iff_ne] at hw
    obtain ⟨h0, hocc, hle, hchn, hcnt⟩ := hw
    simp only [nodeSplit, Node.items_mk, Node.children_mk, Node.count_mk,
      Option.map_none', Node.updateCount]
    refine ⟨?_, ?_, trivial, ?_, hbnds.1, hbnds.2⟩
    · simp only [List.getD_eq_getElem?_getD] at htake
      simp [wfN, hlt, htake, h0, hmnmx, hmn]
    · simp only [List.getD_eq_getElem?_getD] at hdrop
      simp [wfN, hdl, hdrop, h0, hmnmx, hmn]
    · simp only [Node.count_mk, hlt, hdl]
      rw [hcnt]
      push_cast
      omega
  | some ccs =>
    simp only [wfN, Bool.and_eq_true, and_assoc, beq_iff_eq, bne_iff_ne] at hw
    obtain ⟨h0, hocc, hle, hchn, har, hwl, hcnt⟩ := hw
    have hccs : ccs.length = its.length + 1 := har
    have hwtake := wfL_take hwl (mx / 2) (by omega)
    have hwdrop := wfL_drop hwl (mx / 2) (by omega)
    have hct : (ccs.take (mx / 2 + 1)).length = mn + 1 := by
      simp only [List.length_take]
      omega
    have hcd : (ccs.drop (mx / 2 + 1)).length = mn + 1 := by
      simp only [List.length_drop]
      omega
    simp only [nodeSplit, Node.items_mk, Node.children_mk, Node.count_mk,
      Option.map_some', Node.updateCount]
    refine ⟨?_, ?_, trivial, ?_, hbnds.1, hbnds.2⟩
    · simp only [List.getD_eq_getElem?_getD] at htake hwtake
      simp [wfN, hlt, hct, htake, hwtake, h0, hmnmx, hmn]
    · simp only [List.getD_eq_getElem?_getD] at hdrop hwdrop
      simp [wfN, hdl, hcd, hdrop, hwdrop, h0, hmnmx, hmn]
    · simp only [Node.count_mk, hlt, hdl]
      rw [hcnt]
      have hsum := sumCounts_take_drop ccs (mx / 2 + 1)
      push_cast
      omega

/-- Setting a slot to the value it already holds is the identity. -/
theorem set_self_of_getD {β : Type} [Inhabited β] {l : List β} {i : Nat} {a : β}
    (hi : i < l.length) (ha : l.getD i default = a) : l.set i a = l := by
  subst ha
  rw [List.getD_eq_getElem l default hi]
  apply List.ext_getElem
  · simp
  · intro n h1 h2
    rw [List.getElem_set]
    split
    · subst ‹i = n›
      rfl
    · rfl

/-- Replacing child `i` changes the count sum by the count difference. -/
theorem sumCounts_set (cs : List (Node α)) (i : Nat) (c : Node α)
    (hi : i < cs.length) :
    ((cs.set i c).map Node.count).sum + (cs.getD i default).count
      = (cs.map Node.count).sum + c.count := by
  induction cs generalizing i with
  | nil => simp at hi
  | cons x xs ih =>
    cases i with
    | zero =>
      simp only [List.set_cons_zero, List.getD_cons_zero, List.map_cons, List.sum_cons]
      ring
    | succ i' =>
      simp only [List.set_cons_succ, List.getD_cons_succ, List.map_cons, List.sum_cons]
      have := ih i' (by simpa [List.length_cons] using hi)
      omega

/-- Inserting a child adds its count to the count sum. -/
theorem sumCounts_insertIdx (cs : List (Node α)) (k : Nat) (c : Node α)
    (hk : k ≤ cs.length) :
    ((cs.insertIdx k c).map Node.count).sum = (cs.map Node.count).sum + c.count := by
  induction cs generalizing k with
  | nil =>
    have : k = 0 := by simpa using hk
    subst this
    simp [List.insertIdx]
  | cons x xs ih =>
    cases k with
    | zero =>
      simp only [List.insertIdx_zero, List.map_cons, List.sum_cons]
      ring
    | succ k' =>
      simp only [List.insertIdx_succ_cons, List.map_cons, List.sum_cons,
        ih k' (by simpa [List.length_cons] using hk)]
      ring

/-- A well-formed node at height `h` has `heightLoop` exactly `h + 1`:
well-formedness pins the measured height (leaves all at the same depth). -/
theorem heightLoop_of_wfN {mn mx : Nat} :
    ∀ (h : Nat) {rt : Bool} {lo hi : Option α} {n : Node α},
      wfN mn mx rt h lo hi n = true → heightLoop n = h + 1 := by
  intro h
  induction h with
  | zero =>
    intro rt lo hi n hw
    obtain ⟨its, ch, cnt⟩ := n
    cases ch with
    | none => rfl
    | some cs => simp [wfN] at hw
  | succ h ih =>
    intro rt lo hi n hw
    obtain ⟨its, ch, cnt⟩ := n
    cases ch with
    | none => simp [wfN] at hw
    | some cs =>
      simp only [wfN, Bool.and_eq_true, and_assoc, beq_iff_eq, bne_iff_ne,
        decide_eq_true_eq] at hw
      obtain ⟨-, -, -, -, har, hwl, -⟩ := hw
      have hget := wfL_get hwl 0 (Nat.zero_le _)
      match cs, har, hget with
      | c :: cs', _, hget =>
        rw [List.getD_cons_zero] at hget
        have hc := ih hget
        simp only [heightLoop, Nat.succ_sub_one] at *
        omega

/-- Absorbing a split child (the non-full branch of `nodeSet`'s retry):
replacing child `i` by the two halves of a full well-formed node `c'` (same
bounds and count as the old child) and inserting the median in the item
list preserves well-formedness and the stored count. -/
theorem absorb_wf {mn mx hh : Nat} {lo hi : Option α} {its : List α}
    {cs : List (Node α)} {cnt : Int} {i : Nat} {rt : Bool} {c' : Node α}
    (hmn : 1 ≤ mn) (hmx : mx = 2 * mn + 1)
    (hw : wfN mn mx rt hh lo hi (.mk its (some cs) cnt) = true)
    (hile : i ≤ its.length) (hlt : its.length < mx)
    (hc' : wfN mn mx false (hh - 1) (boundL lo its i) (boundR hi its i) c' = true)
    (hc'len : c'.items.length = mx)
    (hc'cnt : c'.count = (cs.getD i default).count) :
    wfN mn mx rt hh lo hi
      (.mk (its.insertIdx i (nodeSplit mx c').2.2)
        (some ((cs.set i (nodeSplit mx c').1).insertIdx (i + 1) (nodeSplit mx c').2.1))
        cnt) = true := by
  obtain ⟨hl, hr, hmed, hcnt2, hlobL, hlobR⟩ := nodeSplit_wf hmn hmx hc'len hc'
  simp only [wfN, Bool.and_eq_true, and_assoc, beq_iff_eq, bne_iff_ne,
    decide_eq_true_eq, Node.items_mk, Node.children_mk, Node.count_mk] at hw
  obtain ⟨h0, hocc, hle, hchn, har, hwl, hcnt⟩ := hw
  have hlen_ins : (its.insertIdx i (nodeSplit mx c').2.2).length = its.length + 1 :=
    List.length_insertIdx i its hile
  have hchins : chainB lo hi (its.insertIdx i (nodeSplit mx c').2.2) = true := by
    exact chainB_insertIdx hchn (lob_lo_of_boundL hchn hile hlobL)
      (lob_hi_of_boundR hchn hile hlobR) hile
      (lt_before_of_boundL hchn hile hlobL) (lt_after_of_boundR hchn hile hlobR)
  have hwl2 := wfL_insert_split i hwl hile hl hr
  have hilecs : i < cs.length := by omega
  have hcs2len :
      ((cs.set i (nodeSplit mx c').1).insertIdx (i + 1) (nodeSplit mx c').2.1).length
        = cs.length + 1 := by
    rw [List.length_insertIdx (i + 1) _ (by simp only [List.length_set]; omega)]
    simp only [List.length_set]
  have hsum :
      (((cs.set i (nodeSplit mx c').1).insertIdx (i + 1) (nodeSplit mx c').2.1).map
        Node.count).sum = (cs.map Node.count).sum - 1 := by
    rw [sumCounts_insertIdx _ _ _ (by simp only [List.length_set]; omega)]
    have hset := sumCounts_set cs i (nodeSplit mx c').1 hilecs
    omega
  simp only [wfN, Bool.and_eq_true, and_assoc, beq_iff_eq, bne_iff_ne,
    decide_eq_true_eq, Node.items_mk, Node.children_mk, Node.count_mk]
  refine ⟨h0, ?_, ?_, hchins, ?_, hwl2, ?_⟩
  · rw [hlen_ins]
    cases rt with
    | false =>
      simp only [if_false, Bool.false_eq_true, decide_eq_true_eq] at hocc ⊢
      omega
    | true =>
      simp only [if_true, decide_eq_true_eq] at hocc ⊢
      omega
  · rw [hlen_ins]
    omega
  · rw [hcs2len, hlen_ins]
    omega
  · rw [hlen_ins, hsum, hcnt]
    push_cast
    omega

/-- Splitting a full root (the root-split branch of `setHint`): the new
two-child root is well-formed one level higher with the same total count. -/
theorem rootSplit_wf {mn mx h : Nat} {r : Node α}
    (hmn : 1 ≤ mn) (hmx : mx = 2 * mn + 1)
    (hw : wfN mn mx true h none none r = true) (hlen : r.items.length = mx) :
    wfN mn mx true (h + 1) none none
      (Node.updateCount (.mk [(nodeSplit mx r).2.2]
        (some [(nodeSplit mx r).1, (nodeSplit mx r).2.1]) 0)) = true ∧
    (Node.updateCount (.mk [(nodeSplit mx r).2.2]
      (some [(nodeSplit mx r).1, (nodeSplit mx r).2.1]) 0)).count = r.count := by
  obtain ⟨hl, hr, hmed, hcnt2, -, -⟩ := nodeSplit_wf hmn hmx hlen hw
  constructor
  · have hlobnone : lob (some (nodeSplit mx r).2.2) (none : Option α) = true := rfl
    have hlobnone2 : lob (none : Option α) (some (nodeSplit mx r).2.2) = true := rfl
    have hone : (1 : Nat) ≤ mx := by omega
    simp [Node.updateCount, wfN, wfL, chainB, hl, hr, hlobnone, hlobnone2, hone]
  · simp only [Node.updateCount, Node.count_mk, List.length_cons, List.length_nil,
      List.map_cons, List.map_nil, List.sum_cons, List.sum_nil]
    push_cast
    omega

/-- `nodeSet` preserves well-formedness: within bounds that admit `item`,
a `split` report leaves the node well-formed with exactly `max` items and
an unchanged count; otherwise the node stays well-formed at the same
height and bounds, with the count bumped exactly when a new item was
inserted (not replaced). -/
theorem nodeSet_wf {mn mx : Nat} (hmn : 1 ≤ mn) (hmx : mx = 2 * mn + 1) :
    ∀ (fuel : Nat) {h : Nat} {rt : Bool} {lo hi : Option α} {n : Node α} {item : α}
      {hint : Option PathHint} {depth : Nat}
      {res : Node α × α × Bool × Bool × Option PathHint},
      wfN mn mx rt h lo hi n = true →
      lob lo (some item) = true → lob (some item) hi = true →
      nodeSet mx n item hint depth fuel = some res →
      (res.2.2.2.1 = true →
        wfN mn mx rt h lo hi res.1 = true ∧ res.1.items.length = mx ∧
          res.1.count = n.count) ∧
      (res.2.2.2.1 = false →
        wfN mn mx rt h lo hi res.1 = true ∧
          (res.2.2.1 = true → res.1.count = n.count) ∧
          (res.2.2.1 = false → res.1.count = n.count + 1)) := by
  intro fuel
  induction fuel with
  | zero =>
    intro h rt lo hi n item hint depth res hw hlo hhi hrun
    simp [nodeSet] at hrun
  | succ fuel ih =>
    intro h rt lo hi n item hint depth res hw hlo hhi hrun
    have hw0 := hw
    obtain ⟨its, ch, cnt⟩ := n
    have hsorted : its.Pairwise (· < ·) := by
      simpa [Node.items_mk] using wfN_sorted hw
    have hne : its ≠ [] := by
      simpa [Node.items_mk] using wfN_nonempty hmn hw
    have hfr : (find (Node.mk its ch cnt) item hint depth).1 = bsearch its item := by
      have := find_fst_eq_bsearch (Node.mk its ch cnt) item hint depth
        (by simpa [Node.items_mk] using hsorted) (by simpa [Node.items_mk] using hne)
      simpa [Node.items_mk] using this
    simp only [nodeSet, hfr, Node.items_mk, Node.children_mk, Node.count_mk] at hrun
    by_cases hfound : (bsearch its item).2 = true
    · rw [if_pos hfound] at hrun
      have hsp := (bsearch_spec its item hsorted).1 hfound
      have hset : its.set (bsearch its item).1 item = its :=
        set_self_of_getD hsp.1 hsp.2
      rw [hset] at hrun
      injection hrun with hrun
      subst hrun
      exact ⟨fun hx => Bool.noConfusion hx,
        fun _ => ⟨hw0, fun _ => rfl, fun hy => Bool.noConfusion hy⟩⟩
    · rw [if_neg hfound] at hrun
      have hfoundF : (bsearch its item).2 = false := by
        cases hb : (bsearch its item).2
        · rfl
        · exact absurd hb hfound
      obtain ⟨hile, hbef, haft⟩ := (bsearch_spec its item hsorted).2 hfoundF
      cases ch with
      | none =>
        simp only [wfN, Bool.and_eq_true, and_assoc, beq_iff_eq, bne_iff_ne,
          decide_eq_true_eq, Node.items_mk, Node.children_mk, Node.count_mk] at hw
        obtain ⟨h0, hocc, hle, hchn, hcnt⟩ := hw
        by_cases hfull : its.length = mx
        · rw [if_pos hfull] at hrun
          injection hrun with hrun
          subst hrun
          exact ⟨fun _ => ⟨hw0, by simpa [Node.items_mk] using hfull, rfl⟩,
            fun hx => Bool.noConfusion hx⟩
        · rw [if_neg hfull] at hrun
          injection hrun with hrun
          subst hrun
          refine ⟨fun hx => Bool.noConfusion hx,
            fun _ => ⟨?_, fun hy => Bool.noConfusion hy, fun _ => rfl⟩⟩
          have hchins := chainB_insertIdx hchn hlo hhi hile hbef haft
          have hlen : (its.insertIdx (bsearch its item).1 item).length
              = its.length + 1 := List.length_insertIdx _ its hile
          simp only [wfN, Bool.and_eq_true, and_assoc, beq_iff_eq, bne_iff_ne,
            decide_eq_true_eq, Node.items_mk, Node.children_mk, Node.count_mk]
          refine ⟨h0, ?_, ?_, hchins, ?_⟩
          · rw [hlen]
            cases rt with
            | false =>
              simp only [if_false, Bool.false_eq_true, decide_eq_true_eq] at hocc ⊢
              omega
            | true =>
              simp only [if_true, decide_eq_true_eq] at hocc ⊢
              omega
          · rw [hlen]
            omega
          · rw [hlen, hcnt]
            push_cast
            ring
      | some cs =>
        simp only [wfN, Bool.and_eq_true, and_assoc, beq_iff_eq, bne_iff_ne,
          decide_eq_true_eq, Node.items_mk, Node.children_mk, Node.count_mk] at hw
        obtain ⟨h0, hocc, hle, hchn, har, hwl, hcnt⟩ := hw
        simp only [] at hrun
        rcases hrec : nodeSet mx (cs.getD (bsearch its item).1 default) item
            ((find (Node.mk its (some cs) cnt) item hint depth).2) (depth + 1) fuel with
          _ | ⟨c', prev, replaced, split, hint2⟩
        · rw [hrec] at hrun
          exact Option.noConfusion hrun
        · simp only [hrec] at hrun
          have hilecs : (bsearch its item).1 < cs.length := by omega
          have hwc := wfL_get hwl (bsearch its item).1 hile
          have hlo' : lob (boundL lo its (bsearch its item).1) (some item) = true :=
            lob_boundL_of_lt (fun h0' => hbef _ (by omega)) hlo
          have hhi' : lob (some item) (boundR hi its (bsearch its item).1) = true :=
            lob_boundR_of_lt (fun hne' => haft _ (le_refl _) (by omega)) hhi
          have ihc := ih hwc hlo' hhi' hrec
          by_cases hsplit : split = true
          · rw [if_pos hsplit] at hrun
            obtain ⟨hwc', hc'len, hc'cnt⟩ := ihc.1 hsplit
            by_cases hfull : its.length = mx
            · rw [if_pos hfull] at hrun
              injection hrun with hrun
              subst hrun
              exact ⟨fun _ => ⟨hw0, by simpa [Node.items_mk] using hfull, rfl⟩,
                fun hx => Bool.noConfusion hx⟩
            · rw [if_neg hfull] at hrun
              have hwn1 : wfN mn mx rt h lo hi
                  (Node.mk (its.insertIdx (bsearch its item).1 (nodeSplit mx c').2.2)
                    (some ((cs.set (bsearch its item).1 (nodeSplit mx c').1).insertIdx
                      ((bsearch its item).1 + 1) (nodeSplit mx c').2.1)) cnt) = true :=
                absorb_wf hmn hmx hw0 hile (by omega) hwc' hc'len hc'cnt
              have ihr := ih hwn1 hlo hhi hrun
              refine ⟨fun hx => ?_, fun hx => ?_⟩
              · obtain ⟨hA, hB, hC⟩ := ihr.1 hx
                exact ⟨hA, hB, by simpa [Node.count_mk] using hC⟩
              · obtain ⟨hA, hB, hC⟩ := ihr.2 hx
                exact ⟨hA, fun hy => by simpa [Node.count_mk] using hB hy,
                  fun hy => by simpa [Node.count_mk] using hC hy⟩
          · rw [if_neg hsplit] at hrun
            have hsf : split = false := by
              cases split
              · rfl
              · exact absurd rfl hsplit
            obtain ⟨hwc', hrep1, hrep0⟩ := ihc.2 hsf
            injection hrun with hrun
            subst hrun
            have hss := sumCounts_set cs (bsearch its item).1 c' hilecs
            have hwlset := wfL_set hwl (bsearch its item).1 hile hwc'
            refine ⟨fun hx => Bool.noConfusion hx, fun _ => ?_⟩
            cases replaced with
            | true =>
              have hceq : c'.count = (cs.getD (bsearch its item).1 default).count :=
                hrep1 rfl
              refine ⟨?_, fun _ => by simp [Node.count_mk], fun hy => Bool.noConfusion hy⟩
              simp only [wfN, Bool.and_eq_true, and_assoc, beq_iff_eq, bne_iff_ne,
                decide_eq_true_eq, Node.items_mk, Node.children_mk, Node.count_mk]
              refine ⟨h0, hocc, hle, hchn, ?_, hwlset, ?_⟩
              · simp only [List.length_set]
                exact har
              · simp only [if_true]
                rw [hcnt]
                omega
            | false =>
              have hceq : c'.count = (cs.getD (bsearch its item).1 default).count + 1 :=
                hrep0 rfl
              refine ⟨?_, fun hy => Bool.noConfusion hy, fun _ => by simp [Node.count_mk]⟩
              simp only [wfN, Bool.and_eq_true, and_assoc, beq_iff_eq, bne_iff_ne,
                decide_eq_true_eq, Node.items_mk, Node.children_mk, Node.count_mk]
              refine ⟨h0, hocc, hle, hchn, ?_, hwlset, ?_⟩
              · simp only [List.length_set]
                exact har
              · simp only [Bool.false_eq_true, if_false]
                rw [hcnt]
                omega

/-- `setHint` preserves validity; the tree count grows by one exactly when
the item was newly inserted (`replaced = false`), and the min/max
configuration is unchanged. -/
theorem setHint_valid :
    ∀ (fuel : Nat) {t : Tree α} {item : α} {hint : Option PathHint}
      {t' : Tree α} {prev : α} {replaced : Bool} {hint' : Option PathHint},
      Valid t = true →
      setHint t item hint fuel = some (t', prev, replaced, hint') →
      Valid t' = true ∧
      t'.count = t.count + (if replaced = true then 0 else 1) ∧
      t'.minI = t.minI ∧ t'.maxI = t.maxI := by
  intro fuel
  induction fuel with
  | zero =>
    intro t item hint t' prev replaced hint' hv hrun
    simp [setHint] at hrun
  | succ fuel ih =>
    intro t item hint t' prev replaced hint' hv hrun
    obtain ⟨troot, tcnt, tmn, tmx⟩ := t
    simp only [Valid, Bool.and_eq_true, and_assoc, beq_iff_eq, decide_eq_true_eq] at hv
    obtain ⟨hmn, hmx, hroot⟩ := hv
    cases troot with
    | none =>
      simp only [beq_iff_eq] at hroot
      simp only [setHint, Option.some.injEq, Prod.mk.injEq] at hrun
      obtain ⟨h1, h2, h3, h4⟩ := hrun
      subst h1
      subst h2
      subst h3
      subst h4
      have h1t : lob (none : Option α) (some item) = true := rfl
      have h2t : lob (some item) (none : Option α) = true := rfl
      have hone : 1 ≤ tmx := by omega
      refine ⟨?_, ?_, rfl, rfl⟩
      · simp only [Valid, Bool.and_eq_true, and_assoc, beq_iff_eq, decide_eq_true_eq]
        refine ⟨hmn, hmx, ?_⟩
        simp [wfN, heightLoop, chainB, h1t, h2t, hone, Node.count_mk, Node.items_mk]
      · rw [hroot]
        simp
    | some r =>
      simp only [Bool.and_eq_true, beq_iff_eq] at hroot
      obtain ⟨hwr, hcntr⟩ := hroot
      simp only [setHint] at hrun
      rcases hrec : nodeSet tmx r item hint 0 fuel with
        _ | ⟨r', prev2, replaced2, split2, hint2⟩
      · rw [hrec] at hrun
        exact Option.noConfusion hrun
      · simp only [hrec] at hrun
        have hlo : lob (none : Option α) (some item) = true := rfl
        have hhi : lob (some item) (none : Option α) = true := rfl
        have hns := nodeSet_wf hmn hmx fuel hwr hlo hhi hrec
        by_cases hsp : split2 = true
        · rw [if_pos hsp] at hrun
          obtain ⟨hwr', hrlen, hrcnt⟩ := hns.1 hsp
          obtain ⟨hwnew, hcntnew⟩ := rootSplit_wf hmn hmx hwr' hrlen
          generalize hnr : Node.updateCount (Node.mk [(nodeSplit tmx r').2.2]
            (some [(nodeSplit tmx r').1, (nodeSplit tmx r').2.1]) 0) = nr at hrun
          rw [hnr] at hwnew hcntnew
          have hh' : heightLoop nr = heightLoop r - 1 + 1 + 1 :=
            heightLoop_of_wfN _ hwnew
          have hvmid : Valid ({ root := some nr, count := tcnt, minI := tmn, maxI := tmx } : Tree α) = true := by
            simp only [Valid, Bool.and_eq_true, and_assoc, beq_iff_eq,
              decide_eq_true_eq]
            refine ⟨hmn, hmx, ?_⟩
            constructor
            · rw [hh', Nat.succ_sub_one]
              exact hwnew
            · rw [hcntnew, hrcnt, hcntr]
          have hres := @ih ({ root := some nr, count := tcnt, minI := tmn, maxI := tmx } : Tree α) item hint2 t' prev replaced hint' hvmid hrun
          exact ⟨hres.1, hres.2.1, hres.2.2.1, hres.2.2.2⟩
        · rw [if_neg hsp] at hrun
          have hsf : split2 = false := by
            cases split2
            · rfl
            · exact absurd rfl hsp
          obtain ⟨hwr', hrep1, hrep0⟩ := hns.2 hsf
          have hh' : heightLoop r' = heightLoop r - 1 + 1 :=
            heightLoop_of_wfN _ hwr'
          by_cases hrep : replaced2 = true
          · rw [if_pos hrep] at hrun
            simp only [Option.some.injEq, Prod.mk.injEq] at hrun
            obtain ⟨h1, h2, h3, h4⟩ := hrun
            subst h1
            subst h2
            subst h3
            subst h4
            refine ⟨?_, ?_, rfl, rfl⟩
            · simp only [Valid, Bool.and_eq_true, and_assoc, beq_iff_eq,
                decide_eq_true_eq]
              refine ⟨hmn, hmx, ?_⟩
              constructor
              · rw [hh', Nat.succ_sub_one]
                exact hwr'
              · rw [hrep1 hrep, hcntr]
            · simp
          · rw [if_neg hrep] at hrun
            have hrf : replaced2 = false := by
              cases replaced2
              · rfl
              · exact absurd rfl hrep
            simp only [Option.some.injEq, Prod.mk.injEq] at hrun
            obtain ⟨h1, h2, h3, h4⟩ := hrun
            subst h1
            subst h2
            subst h3
            subst h4
            refine ⟨?_, ?_, rfl, rfl⟩
            · simp only [Valid, Bool.and_eq_true, and_assoc, beq_iff_eq,
                decide_eq_true_eq]
              refine ⟨hmn, hmx, ?_⟩
              constructor
              · rw [hh', Nat.succ_sub_one]
                exact hwr'
              · rw [hrep0 hrf, hcntr]
            · simp

/-- A key not present in a sorted list: `bsearch` lands at the lower bound,
reporting "not found". -/
theorem bsearch_of_not_mem (l : List α) (key : α) (hs : l.Pairwise (· < ·))
    (hmem : key ∉ l) : bsearch l key = (lowerBound l key, false) := by
  have hff := bsearch_not_mem l key hs hmem
  rw [bsearch_eq_lowerBound l key hs] at hff ⊢
  by_cases hc : 0 < lowerBound l key ∧ ¬ l.getD (lowerBound l key - 1) default < key
  · rw [if_pos hc] at hff
    simp at hff
  · rw [if_neg hc]

/-- `bsearch` on a one-item list for a distinct key: index picks the side. -/
theorem bsearch_singleton (m key : α) (hne : key ≠ m) :
    bsearch [m] key = ((if m ≤ key then 1 else 0), false) := by
  have hs : ([m] : List α).Pairwise (· < ·) := by simp
  have hmem : key ∉ ([m] : List α) := by simpa using hne
  rw [bsearch_of_not_mem _ _ hs hmem]
  simp [lowerBound]

/-- One `nodeSet` step on a full leaf holding a fresh key: report a split,
leaving the node untouched. -/
theorem nodeSet_leaf_full {mx : Nat} {its : List α} {cnt : Int} {key : α}
    {depth fuel : Nat} (hs : its.Pairwise (· < ·)) (hmem : key ∉ its)
    (hfull : its.length = mx) :
    nodeSet mx (Node.mk its none cnt) key none depth (fuel + 1)
      = some (Node.mk its none cnt, default, false, true, none) := by
  have hbs := bsearch_of_not_mem its key hs hmem
  simp [nodeSet, find, hbs, hfull, Node.items_mk, Node.children_mk, Node.count_mk]

/-- One `nodeSet` step on a non-full leaf holding a fresh key: sorted
insertion at the lower bound, count bumped. -/
theorem nodeSet_leaf_insert {mx : Nat} {its : List α} {cnt : Int} {key : α}
    {depth fuel : Nat} (hs : its.Pairwise (· < ·)) (hmem : key ∉ its)
    (hnot : its.length ≠ mx) :
    nodeSet mx (Node.mk its none cnt) key none depth (fuel + 1)
      = some (Node.mk (its.insertIdx (lowerBound its key) key) none (cnt + 1),
              default, false, false, none) := by
  have hbs := bsearch_of_not_mem its key hs hmem
  simp [nodeSet, find, hbs, hnot, Node.items_mk, Node.children_mk, Node.count_mk]

/-- One `nodeSet` step on a one-item internal node with a key below the
separator: descend into the left child. -/
theorem nodeSet_one_item_desc_left {mx : Nat} {med : α} {L R : Node α} {c0 : Int}
    {key : α} {depth fuel : Nat} {c' : Node α} {pr : α} {hint2 : Option PathHint}
    (hklt : key < med) (hkm : key ≠ med)
    (hchild : nodeSet mx L key none (depth + 1) fuel = some (c', pr, false, false, hint2)) :
    nodeSet mx (Node.mk [med] (some [L, R]) c0) key none depth (fuel + 1)
      = some (Node.mk [med] (some [c', R]) (c0 + 1), pr, false, false, hint2) := by
  have hbs := bsearch_singleton med key hkm
  have hnle : ¬ med ≤ key := not_le.mpr hklt
  simp [nodeSet, find, hbs, hnle, hchild, Node.items_mk, Node.children_mk, Node.count_mk]

/-- Left-descent variant when the child runs out of fuel. -/
theorem nodeSet_one_item_desc_left_none {mx : Nat} {med : α} {L R : Node α}
    {c0 : Int} {key : α} {depth fuel : Nat}
    (hklt : key < med) (hkm : key ≠ med)
    (hchild : nodeSet mx L key none (depth + 1) fuel = none) :
    nodeSet mx (Node.mk [med] (some [L, R]) c0) key none depth (fuel + 1) = none := by
  have hbs := bsearch_singleton med key hkm
  have hnle : ¬ med ≤ key := not_le.mpr hklt
  simp [nodeSet, find, hbs, hnle, hchild, Node.items_mk, Node.children_mk, Node.count_mk]

/-- One `nodeSet` step on a one-item internal node with a key above the
separator: descend into the right child. -/
theorem nodeSet_one_item_desc_right {mx : Nat} {med : α} {L R : Node α} {c0 : Int}
    {key : α} {depth fuel : Nat} {c' : Node α} {pr : α} {hint2 : Option PathHint}
    (hkgt : med < key) (hkm : key ≠ med)
    (hchild : nodeSet mx R key none (depth + 1) fuel = some (c', pr, false, false, hint2)) :
    nodeSet mx (Node.mk [med] (some [L, R]) c0) key none depth (fuel + 1)
      = some (Node.mk [med] (some [L, c']) (c0 + 1), pr, false, false, hint2) := by
  have hbs := bsearch_singleton med key hkm
  have hle : med ≤ key := le_of_lt hkgt
  simp [nodeSet, find, hbs, hle, hchild, Node.items_mk, Node.children_mk, Node.count_mk]

/-- Right-descent variant when the child runs out of fuel. -/
theorem nodeSet_one_item_desc_right_none {mx : Nat} {med : α} {L R : Node α}
    {c0 : Int} {key : α} {depth fuel : Nat}
    (hkgt : med < key) (hkm : key ≠ med)
    (hchild : nodeSet mx R key none (depth + 1) fuel = none) :
    nodeSet mx (Node.mk [med] (some [L, R]) c0) key none depth (fuel + 1) = none := by
  have hbs := bsearch_singleton med key hkm
  have hle : med ≤ key := le_of_lt hkgt
  simp [nodeSet, find, hbs, hle, hchild, Node.items_mk, Node.children_mk, Node.count_mk]

/-- **C5** — Split on overflow: when `Set` inserts a fresh (not already
present) key into a tree whose root is a leaf holding exactly `max` items,
the leaf is split at `i = max / 2` around the median `items[i]`: the
resulting root is an internal node whose single item is the old median,
with two leaf children with recomputed counts, the left keeping
`items[:i]` and the right taking `items[i+1:]`, and with the new key
inserted (in sorted position) on the correct side of the median; the
operation reports "not replaced" and the tree count grows by one. -/
theorem set_splits_full_root_leaf {troot : Option (Node α)} {tcnt cnt : Int}
    {tmn tmx : Nat} {its : List α} {key : α} {fuel : Nat}
    {t' : Tree α} {prev : α} {replaced : Bool}
    (hv : Valid ({ root := troot, count := tcnt, minI := tmn, maxI := tmx } : Tree α) = true)
    (hroot : troot = some (Node.mk its none cnt))
    (hfull : its.length = tmx)
    (hmem : key ∉ its)
    (hrun : set ({ root := troot, count := tcnt, minI := tmn, maxI := tmx } : Tree α) key fuel
      = some (t', prev, replaced)) :
    replaced = false ∧ t'.count = tcnt + 1 ∧
    ∃ l r : Node α,
      t'.root = some (Node.mk [its.getD (tmx / 2) default] (some [l, r]) (cnt + 1)) ∧
      l.leaf = true ∧ r.leaf = true ∧ countTop l = true ∧ countTop r = true ∧
      (key < its.getD (tmx / 2) default →
        l.items.Perm (key :: its.take (tmx / 2)) ∧ r.items = its.drop (tmx / 2 + 1)) ∧
      (its.getD (tmx / 2) default < key →
        r.items.Perm (key :: its.drop (tmx / 2 + 1)) ∧ l.items = its.take (tmx / 2)) := by
  subst hroot
  simp only [Valid, Bool.and_eq_true, and_assoc, beq_iff_eq, decide_eq_true_eq,
    Node.count_mk, heightLoop] at hv
  obtain ⟨hmn, hmx, hwr, hcntr⟩ := hv
  have hsorted : its.Pairwise (· < ·) := by
    simpa [Node.items_mk] using wfN_sorted hwr
  have hcnt : cnt = (its.length : Int) := by
    have := wfN_countTop hwr
    simpa [countTop] using this
  have hocc := wfN_occupancy hwr
  have hlen1 : 1 ≤ its.length := by
    have := hocc.1 rfl
    simpa [Node.items_mk] using this
  have hmid : tmx / 2 = tmn := by omega
  have hmidlt : tmx / 2 < its.length := by omega
  have hmedmem : its.getD (tmx / 2) default ∈ its := by
    rw [List.getD_eq_getElem its default hmidlt]
    exact List.getElem_mem hmidlt
  have hkmed : key ≠ its.getD (tmx / 2) default := by
    intro he
    exact hmem (he ▸ hmedmem)
  have hlentake : (its.take (tmx / 2)).length = tmn := by
    simp only [List.length_take]
    omega
  have hlendrop : (its.drop (tmx / 2 + 1)).length = tmn := by
    simp only [List.length_drop]
    omega
  have hstake : (its.take (tmx / 2)).Pairwise (· < ·) :=
    hsorted.sublist (List.take_sublist _ _)
  have hsdrop : (its.drop (tmx / 2 + 1)).Pairwise (· < ·) :=
    hsorted.sublist (List.drop_sublist _ _)
  have hmtake : key ∉ its.take (tmx / 2) := fun hx => hmem (List.mem_of_mem_take hx)
  have hmdrop : key ∉ its.drop (tmx / 2 + 1) := fun hx => hmem (List.mem_of_mem_drop hx)
  simp only [set] at hrun
  rcases hsh : setHint ({ root := some (Node.mk its none cnt), count := tcnt, minI := tmn, maxI := tmx } : Tree α) key none fuel with _ | ⟨t2, p2, r2, h2⟩
  · rw [hsh] at hrun
    exact Option.noConfusion hrun
  · rw [hsh] at hrun
    simp only [Option.map_some', Option.some.injEq, Prod.mk.injEq] at hrun
    obtain ⟨rfl, rfl, rfl⟩ := hrun
    cases fuel with
    | zero => simp [setHint] at hsh
    | succ f =>
      simp only [setHint] at hsh
      rcases hq : nodeSet tmx (Node.mk its none cnt) key none 0 f with
        _ | ⟨r1, p1, rep1, sp1, hint1⟩
      · rw [hq] at hsh
        exact Option.noConfusion hsh
      · simp only [hq] at hsh
        cases f with
        | zero => exact Option.noConfusion hq
        | succ f1 =>
          rw [nodeSet_leaf_full hsorted hmem hfull] at hq
          simp only [Option.some.injEq, Prod.mk.injEq] at hq
          obtain ⟨rfl, rfl, rfl, rfl, rfl⟩ := hq
          rw [if_pos rfl] at hsh
          have hse : nodeSplit tmx (Node.mk its none cnt)
              = (Node.mk (its.take (tmx / 2)) none ((its.take (tmx / 2)).length : Int),
                 Node.mk (its.drop (tmx / 2 + 1)) none ((its.drop (tmx / 2 + 1)).length : Int),
                 its.getD (tmx / 2) default) := by
            simp [nodeSplit, Node.updateCount, Node.items_mk, Node.children_mk]
          have hnr : Node.updateCount (Node.mk [(nodeSplit tmx (Node.mk its none cnt)).2.2]
                (some [(nodeSplit tmx (Node.mk its none cnt)).1,
                       (nodeSplit tmx (Node.mk its none cnt)).2.1]) 0)
              = Node.mk [its.getD (tmx / 2) default]
                  (some [Node.mk (its.take (tmx / 2)) none (tmn : Int),
                         Node.mk (its.drop (tmx / 2 + 1)) none (tmn : Int)])
                  (2 * (tmn : Int) + 1) := by
            rw [hse]
            simp [Node.updateCount, hlentake, hlendrop, Node.count_mk]
            push_cast
            ring
          rw [hnr] at hsh
          simp only [setHint] at hsh
          rcases hq2 : nodeSet tmx (Node.mk [its.getD (tmx / 2) default]
              (some [Node.mk (its.take (tmx / 2)) none (tmn : Int),
                     Node.mk (its.drop (tmx / 2 + 1)) none (tmn : Int)])
              (2 * (tmn : Int) + 1)) key none 0 f1 with
            _ | ⟨r2', p2', rep2, sp2, hint2⟩
          · rw [hq2] at hsh
            exact Option.noConfusion hsh
          · simp only [hq2] at hsh
            rcases lt_or_gt_of_ne hkmed with hklt | hkgt
            · -- key goes to the left half
              cases f1 with
              | zero => exact Option.noConfusion hq2
              | succ f2 =>
                cases f2 with
                | zero =>
                  have hnone : nodeSet tmx (Node.mk [its.getD (tmx / 2) default]
                      (some [Node.mk (its.take (tmx / 2)) none (tmn : Int),
                             Node.mk (its.drop (tmx / 2 + 1)) none (tmn : Int)])
                      (2 * (tmn : Int) + 1)) key none 0 (0 + 1) = none :=
                    nodeSet_one_item_desc_left_none hklt hkmed rfl
                  rw [hnone] at hq2
                  exact Option.noConfusion hq2
                | succ f3 =>
                  rw [nodeSet_one_item_desc_left hklt hkmed
                    (nodeSet_leaf_insert hstake hmtake (by omega))] at hq2
                  simp only [Option.some.injEq, Prod.mk.injEq] at hq2
                  obtain ⟨rfl, rfl, rfl, rfl, rfl⟩ := hq2
                  rw [if_neg Bool.false_ne_true, if_neg Bool.false_ne_true] at hsh
                  simp only [Option.some.injEq, Prod.mk.injEq] at hsh
                  obtain ⟨rfl, rfl, rfl, rfl⟩ := hsh
                  have hposle : lowerBound (its.take (tmx / 2)) key
                      ≤ (its.take (tmx / 2)).length :=
                    (lowerBound_searchPos (its.take (tmx / 2)) key hstake).1
                  have hlenins : ((its.take (tmx / 2)).insertIdx
                      (lowerBound (its.take (tmx / 2)) key) key).length = tmn + 1 := by
                    rw [List.length_insertIdx _ _ hposle, hlentake]
                  have hc0 : (2 * (tmn : Int) + 1 + 1) = cnt + 1 := by
                    rw [hcnt, hfull]
                    push_cast
                    omega
                  refine ⟨rfl, rfl,
                    Node.mk ((its.take (tmx / 2)).insertIdx
                      (lowerBound (its.take (tmx / 2)) key) key) none ((tmn : Int) + 1),
                    Node.mk (its.drop (tmx / 2 + 1)) none (tmn : Int),
                    ?_, rfl, rfl, ?_, ?_, ?_, ?_⟩
                  · rw [← hc0]
                  · simp [countTop, hlenins]
                  · simp [countTop, hlendrop]
                  · intro
                    exact ⟨List.perm_insertNth key _ hposle, rfl⟩
                  · intro hgt
                    exact (lt_asymm hklt hgt).elim
            · -- key goes to the right half
              cases f1 with
              | zero => exact Option.noConfusion hq2
              | succ f2 =>
                cases f2 with
                | zero =>
                  have hnone : nodeSet tmx (Node.mk [its.getD (tmx / 2) default]
                      (some [Node.mk (its.take (tmx / 2)) none (tmn : Int),
                             Node.mk (its.drop (tmx / 2 + 1)) none (tmn : Int)])
                      (2 * (tmn : Int) + 1)) key none 0 (0 + 1) = none :=
                    nodeSet_one_item_desc_right_none hkgt hkmed rfl
                  rw [hnone] at hq2
                  exact Option.noConfusion hq2
                | succ f3 =>
                  rw [nodeSet_one_item_desc_right hkgt hkmed
                    (nodeSet_leaf_insert hsdrop hmdrop (by omega))] at hq2
                  simp only [Option.some.injEq, Prod.mk.injEq] at hq2
                  obtain ⟨rfl, rfl, rfl, rfl, rfl⟩ := hq2
                  rw [if_neg Bool.false_ne_true, if_neg Bool.false_ne_true] at hsh
                  simp only [Option.some.injEq, Prod.mk.injEq] at hsh
                  obtain ⟨rfl, rfl, rfl, rfl⟩ := hsh
                  have hposle : lowerBound (its.drop (tmx / 2 + 1)) key
                      ≤ (its.drop (tmx / 2 + 1)).length :=
                    (lowerBound_searchPos (its.drop (tmx / 2 + 1)) key hsdrop).1
                  have hlenins : ((its.drop (tmx / 2 + 1)).insertIdx
                      (lowerBound (its.drop (tmx / 2 + 1)) key) key).length = tmn + 1 := by
                    rw [List.length_insertIdx _ _ hposle, hlendrop]
                  have hc0 : (2 * (tmn : Int) + 1 + 1) = cnt + 1 := by
                    rw [hcnt, hfull]
                    push_cast
                    omega
                  refine ⟨rfl, rfl,
                    Node.mk (its.take (tmx / 2)) none (tmn : Int),
                    Node.mk ((its.drop (tmx / 2 + 1)).insertIdx
                      (lowerBound (its.drop (tmx / 2 + 1)) key) key) none ((tmn : Int) + 1),
                    ?_, rfl, rfl, ?_, ?_, ?_, ?_⟩
                  · rw [← hc0]
                  · simp [countTop, hlentake]
                  · simp [countTop, hlenins]
                  · intro hlt
                    exact (lt_asymm hlt hkgt).elim
                  · intro
                    exact ⟨List.perm_insertNth key _ hposle, rfl⟩

/-! ## Deletion-side invariant surgery: index and bound bookkeeping -/

theorem getD_set_eq {β : Type} [Inhabited β] {l : List β} {i : Nat} {a : β}
    (h : i < l.length) : (l.set i a).getD i default = a := by
  rw [List.getD_eq_getElem _ default (by simpa using h)]
  simp [List.getElem_set]

theorem getD_set_ne {β : Type} [Inhabited β] (l : List β) (i : Nat) (a : β) (j : Nat)
    (h : i ≠ j) : (l.set i a).getD j default = l.getD j default := by
  by_cases hj : j < l.length
  · rw [List.getD_eq_getElem _ default (by simpa using hj),
      List.getD_eq_getElem _ default hj]
    rw [List.getElem_set]
    simp [h]
  · rw [List.getD_eq_default _ default (by simpa using hj),
      List.getD_eq_default _ default (by omega)]

theorem getD_eraseIdx_lt {β : Type} [Inhabited β] (l : List β) (i j : Nat)
    (hi : i < l.length) (hj : j < i) :
    (l.eraseIdx i).getD j default = l.getD j default := by
  have hlen : (l.eraseIdx i).length = l.length - 1 := by
    rw [List.length_eraseIdx]
    simp [hi]
  rw [List.getD_eq_getElem _ default (by omega), List.getD_eq_getElem _ default (by omega)]
  exact List.getElem_eraseIdx_of_lt l i j _ hj

theorem getD_eraseIdx_ge {β : Type} [Inhabited β] (l : List β) (i j : Nat)
    (hj1 : j + 1 < l.length) (hj : i ≤ j) :
    (l.eraseIdx i).getD j default = l.getD (j + 1) default := by
  have hi : i < l.length := by omega
  have hlen : (l.eraseIdx i).length = l.length - 1 := by
    rw [List.length_eraseIdx]
    simp [hi]
  rw [List.getD_eq_getElem _ default (by omega), List.getD_eq_getElem _ default (by omega)]
  exact List.getElem_eraseIdx_of_ge l i j _ hj

theorem boundL_cons_succ (lo : Option α) (it : α) (its : List α) (i : Nat) :
    boundL lo (it :: its) (i + 1) = boundL (some it) its i := by
  cases i with
  | zero => simp [boundL, List.getD_cons_zero]
  | succ k => simp [boundL, List.getD_cons_succ]

theorem boundR_cons_succ (hi : Option α) (it : α) (its : List α) (i : Nat) :
    boundR hi (it :: its) (i + 1) = boundR hi its i := by
  by_cases he : i = its.length
  · simp [boundR, he, List.length_cons]
  · simp [boundR, he, List.length_cons, List.getD_cons_succ]

theorem boundL_set_ne {lo : Option α} {its : List α} {i j : Nat} {x : α}
    (h : j ≠ i + 1) : boundL lo (its.set i x) j = boundL lo its j := by
  unfold boundL
  by_cases h0 : j = 0
  · simp [h0]
  · simp only [if_neg h0]
    rw [getD_set_ne _ _ _ _ (by omega)]

theorem boundL_set_eq {lo : Option α} {its : List α} {i : Nat} {x : α}
    (hi : i < its.length) : boundL lo (its.set i x) (i + 1) = some x := by
  unfold boundL
  have h1 : i + 1 ≠ 0 := by omega
  simp only [if_neg h1, Nat.add_sub_cancel]
  rw [getD_set_eq hi]

theorem boundR_set_ne {hi : Option α} {its : List α} {i j : Nat} {x : α}
    (h : j ≠ i) : boundR hi (its.set i x) j = boundR hi its j := by
  unfold boundR
  rw [List.length_set]
  by_cases he : j = its.length
  · simp [he]
  · simp only [if_neg he]
    rw [getD_set_ne _ _ _ _ (Ne.symm h)]

theorem boundR_set_eq {hi : Option α} {its : List α} {i : Nat} {x : α}
    (hil : i < its.length) : boundR hi (its.set i x) i = some x := by
  unfold boundR
  rw [List.length_set]
  have hne : i ≠ its.length := by omega
  simp only [if_neg hne]
  rw [getD_set_eq hil]

theorem boundL_eraseIdx_le {lo : Option α} {its : List α} {i j : Nat}
    (hi : i < its.length) (hj : j ≤ i) :
    boundL lo (its.eraseIdx i) j = boundL lo its j := by
  unfold boundL
  by_cases h0 : j = 0
  · simp [h0]
  · simp only [if_neg h0]
    rw [getD_eraseIdx_lt _ _ _ hi (by omega)]

theorem boundL_eraseIdx_gt {lo : Option α} {its : List α} {i j : Nat}
    (hj : i < j) (hjl : j ≤ its.length - 1) :
    boundL lo (its.eraseIdx i) j = boundL lo its (j + 1) := by
  unfold boundL
  have h0 : j ≠ 0 := by omega
  have h1 : j + 1 ≠ 0 := by omega
  simp only [if_neg h0, if_neg h1, Nat.add_sub_cancel]
  rw [getD_eraseIdx_ge _ _ _ (by omega) (by omega), Nat.sub_add_cancel (by omega)]

theorem boundR_eraseIdx_lt {hi : Option α} {its : List α} {i j : Nat}
    (hi' : i < its.length) (hj : j < i) :
    boundR hi (its.eraseIdx i) j = boundR hi its j := by
  unfold boundR
  have hlen : (its.eraseIdx i).length = its.length - 1 := by
    rw [List.length_eraseIdx]
    simp [hi']
  rw [hlen]
  have h1 : j ≠ its.length - 1 := by omega
  have h2 : j ≠ its.length := by omega
  simp only [if_neg h1, if_neg h2]
  rw [getD_eraseIdx_lt _ _ _ hi' hj]

theorem boundR_eraseIdx_ge {hi : Option α} {its : List α} {i j : Nat}
    (hi' : i < its.length) (hj : i ≤ j) (hjl : j ≤ its.length - 1) :
    boundR hi (its.eraseIdx i) j = boundR hi its (j + 1) := by
  unfold boundR
  have hlen : (its.eraseIdx i).length = its.length - 1 := by
    rw [List.length_eraseIdx]
    simp [hi']
  rw [hlen]
  by_cases he : j = its.length - 1
  · have h2 : j + 1 = its.length := by omega
    rw [if_pos he, if_pos h2]
  · have h2 : j + 1 ≠ its.length := by omega
    simp only [if_neg he, if_neg h2]
    rw [getD_eraseIdx_ge _ _ _ (by omega) hj]

/-! ## chainB surgery -/

theorem chainB_weaken_lo {lo : Option α} {x : α} {hi : Option α} {l : List α}
    (hx : lob lo (some x) = true) (hc : chainB (some x) hi l = true) :
    chainB lo hi l = true := by
  cases l with
  | nil => exact lob_trans hx (by simpa [chainB] using hc) (by simp)
  | cons y ys =>
    simp only [chainB, Bool.and_eq_true] at hc ⊢
    exact ⟨lob_trans hx hc.1 (by simp), hc.2⟩

theorem chainB_weaken_hi {lo : Option α} {x : α} {hi : Option α} {l : List α}
    (hc : chainB lo (some x) l = true) (hx : lob (some x) hi = true) :
    chainB lo hi l = true := by
  induction l generalizing lo with
  | nil => exact lob_trans (by simpa [chainB] using hc) hx (by simp)
  | cons y ys ih =>
    simp only [chainB, Bool.and_eq_true] at hc ⊢
    exact ⟨hc.1, ih hc.2⟩

theorem chainB_eraseIdx {lo hi : Option α} {l : List α} (i : Nat)
    (hc : chainB lo hi l = true) : chainB lo hi (l.eraseIdx i) = true := by
  induction l generalizing lo i with
  | nil => simpa [List.eraseIdx] using hc
  | cons y ys ih =>
    simp only [chainB, Bool.and_eq_true] at hc
    cases i with
    | zero =>
      simp only [List.eraseIdx_cons_zero]
      exact chainB_weaken_lo hc.1 hc.2
    | succ i' =>
      simp only [List.eraseIdx_cons_succ, chainB, Bool.and_eq_true]
      exact ⟨hc.1, ih i' hc.2⟩

theorem chainB_append_sep {lo hi : Option α} {s : α} {l1 l2 : List α}
    (h1 : chainB lo (some s) l1 = true) (h2 : chainB (some s) hi l2 = true) :
    chainB lo hi (l1 ++ s :: l2) = true := by
  induction l1 generalizing lo with
  | nil =>
    simp only [List.nil_append, chainB, Bool.and_eq_true]
    exact ⟨by simpa [chainB] using h1, h2⟩
  | cons y ys ih =>
    simp only [List.cons_append, chainB, Bool.and_eq_true] at h1 ⊢
    exact ⟨h1.1, ih h1.2⟩

theorem chainB_retarget_hi {lo hi : Option α} {b : α} {l : List α}
    (hc : chainB lo hi l = true) (hb : ∀ x ∈ l, x < b)
    (hlob : lob lo (some b) = true) :
    chainB lo (some b) l = true := by
  induction l generalizing lo with
  | nil => simpa [chainB] using hlob
  | cons y ys ih =>
    simp only [chainB, Bool.and_eq_true] at hc ⊢
    refine ⟨hc.1, ih hc.2 (fun x hx => hb x (by simp [hx])) ?_⟩
    simpa [lob] using hb y (by simp)

theorem chainB_set {lo hi : Option α} {its : List α} {i : Nat} {x : α}
    (hch : chainB lo hi its = true) (hilt : i < its.length)
    (hl : lob (boundL lo its i) (some x) = true)
    (hr : lob (some x) (boundR hi its (i + 1)) = true) :
    chainB lo hi (its.set i x) = true := by
  induction its generalizing lo i with
  | nil => simp at hilt
  | cons y ys ih =>
    simp only [chainB, Bool.and_eq_true] at hch
    cases i with
    | zero =>
      simp only [List.set_cons_zero, chainB, Bool.and_eq_true]
      refine ⟨by simpa [boundL] using hl, ?_⟩
      cases ys with
      | nil =>
        have : boundR hi [y] 1 = hi := by simp [boundR]
        rw [this] at hr
        simpa [chainB] using hr
      | cons z zs =>
        have : boundR hi (y :: z :: zs) 1 = some z := by
          simp [boundR, List.getD_cons_succ, List.getD_cons_zero]
        rw [this] at hr
        simp only [chainB, Bool.and_eq_true] at hch ⊢
        exact ⟨hr, hch.2.2⟩
    | succ i' =>
      simp only [List.set_cons_succ, chainB, Bool.and_eq_true]
      rw [boundL_cons_succ] at hl
      rw [boundR_cons_succ] at hr
      exact ⟨hch.1, ih hch.2 (by simpa [List.length_cons] using hilt) hl hr⟩

theorem lob_boundL_getD {lo hi : Option α} {its : List α} {i : Nat}
    (hch : chainB lo hi its = true) (hilt : i < its.length) :
    lob (boundL lo its i) (some (its.getD i default)) = true := by
  unfold boundL
  by_cases h0 : i = 0
  · subst h0
    have hmem : its.getD 0 default ∈ its := by
      rw [List.getD_eq_getElem its default hilt]
      exact List.getElem_mem hilt
    simp only [if_pos rfl]
    exact (chainB_mem_bounds hch hmem).1
  · simp only [if_neg h0, lob, decide_eq_true_eq]
    exact sorted_getD_lt its (chainB_pairwise hch) (by omega) hilt

theorem lob_getD_boundR {lo hi : Option α} {its : List α} {i : Nat}
    (hch : chainB lo hi its = true) (hilt : i < its.length) :
    lob (some (its.getD i default)) (boundR hi its (i + 1)) = true := by
  unfold boundR
  by_cases he : i + 1 = its.length
  · have hmem : its.getD i default ∈ its := by
      rw [List.getD_eq_getElem its default hilt]
      exact List.getElem_mem hilt
    simp only [if_pos he]
    exact (chainB_mem_bounds hch hmem).2
  · simp only [if_neg he, lob, decide_eq_true_eq]
    exact sorted_getD_lt its (chainB_pairwise hch) (by omega) (by omega)

theorem sumCounts_eraseIdx (cs : List (Node α)) (i : Nat) (hi : i < cs.length) :
    ((cs.eraseIdx i).map Node.count).sum + (cs.getD i default).count
      = (cs.map Node.count).sum := by
  induction cs generalizing i with
  | nil => simp at hi
  | cons x xs ih =>
    cases i with
    | zero =>
      simp only [List.eraseIdx_cons_zero, List.getD_cons_zero, List.map_cons,
        List.sum_cons]
      ring
    | succ i' =>
      simp only [List.eraseIdx_cons_succ, List.getD_cons_succ, List.map_cons,
        List.sum_cons]
      have := ih i' (by simpa [List.length_cons] using hi)
      omega

/-! ## wfD bridges and pointwise wfL -/

theorem wfD_of_wfN {mn mx : Nat} {rt : Bool} {h : Nat} {lo hi : Option α} {n : Node α}
    (hw : wfN mn mx rt h lo hi n = true) : wfD mn mx h lo hi n = true := by
  obtain ⟨its, ch, cnt⟩ := n
  cases ch with
  | none =>
    simp only [wfN, Bool.and_eq_true, and_assoc] at hw
    obtain ⟨h0, -, hle, hchn, hcnt⟩ := hw
    simp only [wfD, Bool.and_eq_true, and_assoc]
    exact ⟨h0, hle, hchn, hcnt⟩
  | some cs =>
    simp only [wfN, Bool.and_eq_true, and_assoc] at hw
    obtain ⟨h0, -, hle, hchn, har, hwl, hcnt⟩ := hw
    simp only [wfD, Bool.and_eq_true, and_assoc]
    exact ⟨h0, hle, hchn, har, hwl, hcnt⟩

theorem wfN_of_wfD {mn mx : Nat} {rt : Bool} {h : Nat} {lo hi : Option α} {n : Node α}
    (hw : wfD mn mx h lo hi n = true)
    (h1 : rt = true → 1 ≤ n.items.length)
    (h2 : rt = false → mn ≤ n.items.length) :
    wfN mn mx rt h lo hi n = true := by
  obtain ⟨its, ch, cnt⟩ := n
  simp only [Node.items_mk] at h1 h2
  cases ch with
  | none =>
    simp only [wfD, Bool.and_eq_true, and_assoc] at hw
    obtain ⟨h0, hle, hchn, hcnt⟩ := hw
    simp only [wfN, Bool.and_eq_true, and_assoc]
    refine ⟨h0, ?_, hle, hchn, hcnt⟩
    cases rt with
    | true => simp [h1 rfl]
    | false => simp [h2 rfl]
  | some cs =>
    simp only [wfD, Bool.and_eq_true, and_assoc] at hw
    obtain ⟨h0, hle, hchn, har, hwl, hcnt⟩ := hw
    simp only [wfN, Bool.and_eq_true, and_assoc]
    refine ⟨h0, ?_, hle, hchn, har, hwl, hcnt⟩
    cases rt with
    | true => simp [h1 rfl]
    | false => simp [h2 rfl]

theorem wfL_of_forall {mn mx h : Nat} {lo hi : Option α} {cs : List (Node α)}
    {its : List α}
    (hlen : cs.length = its.length + 1)
    (hall : ∀ j, j ≤ its.length →
      wfN mn mx false h (boundL lo its j) (boundR hi its j) (cs.getD j default) = true) :
    wfL mn mx h lo hi cs its = true := by
  induction its generalizing lo cs with
  | nil =>
    match cs, hlen with
    | [c], _ =>
      simpa [wfL, boundL, boundR] using hall 0 (Nat.le_refl 0)
  | cons it its' ih =>
    match cs with
    | [] => simp at hlen
    | c :: cs' =>
      simp only [wfL, Bool.and_eq_true]
      constructor
      · have h0 := hall 0 (Nat.zero_le _)
        have hbR : boundR hi (it :: its') 0 = some it := by
          simp [boundR, List.length_cons, List.getD_cons_zero]
        rw [hbR] at h0
        simpa [boundL, List.getD_cons_zero] using h0
      · apply ih (by simpa [List.length_cons] using hlen)
        intro j hj
        have := hall (j + 1) (by simpa [List.length_cons] using Nat.succ_le_succ hj)
        rw [boundL_cons_succ, boundR_cons_succ] at this
        simpa [List.getD_cons_succ] using this

/-- Well-formedness is monotone in the open lower bound (only the leftmost
spine mentions it). -/
theorem wfN_weaken_lo {mn mx : Nat} :
    ∀ (h : Nat) {rt : Bool} {a : α} {lo2 hi : Option α} {n : Node α},
      wfN mn mx rt h (some a) hi n = true → lob lo2 (some a) = true →
      wfN mn mx rt h lo2 hi n = true := by
  intro h
  induction h with
  | zero =>
    intro rt a lo2 hi n hw hl
    obtain ⟨its, ch, cnt⟩ := n
    cases ch with
    | some cs => simp [wfN] at hw
    | none =>
      simp only [wfN, Bool.and_eq_true, and_assoc] at hw ⊢
      obtain ⟨h0, hocc, hle, hchn, hcnt⟩ := hw
      exact ⟨h0, hocc, hle, chainB_weaken_lo hl hchn, hcnt⟩
  | succ h ih =>
    intro rt a lo2 hi n hw hl
    obtain ⟨its, ch, cnt⟩ := n
    cases ch with
    | none => simp [wfN] at hw
    | some cs =>
      simp only [wfN, Bool.and_eq_true, and_assoc, Nat.succ_sub_one] at hw ⊢
      obtain ⟨h0, hocc, hle, hchn, har, hwl, hcnt⟩ := hw
      refine ⟨h0, hocc, hle, chainB_weaken_lo hl hchn, har, ?_, hcnt⟩
      match cs, its, hwl with
      | [], _, hwl => simp [wfL] at hwl
      | [c], [], hwl =>
        simp only [wfL] at hwl ⊢
        exact ih hwl hl
      | c :: cs', it :: its', hwl =>
        simp only [wfL, Bool.and_eq_true] at hwl ⊢
        exact ⟨ih hwl.1 hl, hwl.2⟩
      | c :: c2 :: cs'', [], hwl => simp [wfL] at hwl

/-- Well-formedness is monotone in the open upper bound (only the rightmost
spine mentions it). -/
theorem wfN_weaken_hi {mn mx : Nat} :
    ∀ (h : Nat) {rt : Bool} {a : α} {lo hi2 : Option α} {n : Node α},
      wfN mn mx rt h lo (some a) n = true → lob (some a) hi2 = true →
      wfN mn mx rt h lo hi2 n = true := by
  intro h
  induction h with
  | zero =>
    intro rt a lo hi2 n hw hl
    obtain ⟨its, ch, cnt⟩ := n
    cases ch with
    | some cs => simp [wfN] at hw
    | none =>
      simp only [wfN, Bool.and_eq_true, and_assoc] at hw ⊢
      obtain ⟨h0, hocc, hle, hchn, hcnt⟩ := hw
      exact ⟨h0, hocc, hle, chainB_weaken_hi hchn hl, hcnt⟩
  | succ h ih =>
    intro rt a lo hi2 n hw hl
    obtain ⟨its, ch, cnt⟩ := n
    cases ch with
    | none => simp [wfN] at hw
    | some cs =>
      simp only [wfN, Bool.and_eq_true, and_assoc, Nat.succ_sub_one] at hw ⊢
      obtain ⟨h0, hocc, hle, hchn, har, hwl, hcnt⟩ := hw
      refine ⟨h0, hocc, hle, chainB_weaken_hi hchn hl, har, ?_, hcnt⟩
      have hwl' : ∀ (its' : List α) (cs' : List (Node α)) (lo' : Option α),
          wfL mn mx h lo' (some a) cs' its' = true →
          wfL mn mx h lo' hi2 cs' its' = true := by
        intro its'
        induction its' with
        | nil =>
          intro cs' lo' hw'
          match cs' with
          | [] => simp [wfL] at hw'
          | [c] =>
            simp only [wfL] at hw' ⊢
            exact ih hw' hl
          | c :: c2 :: cr => simp [wfL] at hw'
        | cons it its'' ih2 =>
          intro cs' lo' hw'
          match cs' with
          | [] => simp [wfL] at hw'
          | c :: cs'' =>
            simp only [wfL, Bool.and_eq_true] at hw' ⊢
            exact ⟨hw'.1, ih2 cs'' (some it) hw'.2⟩
      exact hwl' its cs lo hwl

/-- Concatenating two well-formed child lists around their shared
separator. -/
theorem wfL_append {mn mx h : Nat} {lo hi : Option α} {s : α}
    {lc : List (Node α)} {lits : List α} {rc : List (Node α)} {rits : List α}
    (h1 : wfL mn mx h lo (some s) lc lits = true)
    (h2 : wfL mn mx h (some s) hi rc rits = true) :
    wfL mn mx h lo hi (lc ++ rc) (lits ++ s :: rits) = true := by
  induction lits generalizing lo lc with
  | nil =>
    match lc with
    | [] => simp [wfL] at h1
    | [c] =>
      simp only [wfL] at h1
      simp only [List.cons_append, List.nil_append]
      match rc with
      | [] => simp [wfL] at h2
      | c2 :: rc' =>
        simp only [wfL, Bool.and_eq_true]
        exact ⟨h1, h2⟩
    | c :: c2 :: r => simp [wfL] at h1
  | cons it lits' ih =>
    match lc with
    | [] => simp [wfL] at h1
    | c :: lc' =>
      simp only [wfL, Bool.and_eq_true] at h1
      simp only [List.cons_append, wfL, Bool.and_eq_true]
      exact ⟨h1.1, ih h1.2⟩

/-- The merged node built by `nodeRebalance`'s merge branch is fully
well-formed when the two halves are structurally sound and the combined
occupancy fits. -/
theorem merge_node_wf {mn mx hh : Nat} {lo1 hi1 : Option α} {sep : α}
    {left right : Node α}
    (hl : wfD mn mx hh lo1 (some sep) left = true)
    (hr : wfD mn mx hh (some sep) hi1 right = true)
    (hlen : left.items.length + right.items.length + 1 ≤ mx)
    (hmn : mn ≤ left.items.length + right.items.length + 1) :
    wfN mn mx false hh lo1 hi1
      (Node.mk (left.items ++ sep :: right.items)
        (match left.children, right.children with
         | some lc, some rc => some (lc ++ rc)
         | lc, _ => lc)
        (left.count + right.count + 1)) = true := by
  obtain ⟨li, lch, lcnt⟩ := left
  obtain ⟨ri, rch, rcnt⟩ := right
  simp only [Node.items_mk, Node.children_mk, Node.count_mk] at hlen hmn ⊢
  cases lch with
  | none =>
    cases rch with
    | none =>
      simp only [wfD, Bool.and_eq_true, and_assoc, beq_iff_eq, bne_iff_ne,
        decide_eq_true_eq] at hl hr
      obtain ⟨h0l, hlel, hchl, hcntl⟩ := hl
      obtain ⟨h0r, hler, hchr, hcntr⟩ := hr
      simp only [wfN, Bool.and_eq_true, and_assoc, beq_iff_eq, bne_iff_ne,
        decide_eq_true_eq, Bool.false_eq_true, if_false]
      refine ⟨h0l, ?_, ?_, chainB_append_sep hchl hchr, ?_⟩
      · simp only [List.length_append, List.length_cons]
        omega
      · simp only [List.length_append, List.length_cons]
        omega
      · simp only [List.length_append, List.length_cons]
        rw [hcntl, hcntr]
        push_cast
        ring
    | some rc =>
      simp only [wfD, Bool.and_eq_true, and_assoc, beq_iff_eq, bne_iff_ne,
        decide_eq_true_eq] at hl hr
      obtain ⟨h0l, -, -, -⟩ := hl
      obtain ⟨h0r, -, -, -, -, -⟩ := hr
      omega
  | some lc =>
    cases rch with
    | none =>
      simp only [wfD, Bool.and_eq_true, and_assoc, beq_iff_eq, bne_iff_ne,
        decide_eq_true_eq] at hl hr
      obtain ⟨h0l, -, -, -, -, -⟩ := hl
      obtain ⟨h0r, -, -, -⟩ := hr
      omega
    | some rc =>
      simp only [wfD, Bool.and_eq_true, and_assoc, beq_iff_eq, bne_iff_ne,
        decide_eq_true_eq] at hl hr
      obtain ⟨h0l, hlel, hchl, harl, hwll, hcntl⟩ := hl
      obtain ⟨h0r, hler, hchr, harr, hwlr, hcntr⟩ := hr
      simp only [wfN, Bool.and_eq_true, and_assoc, beq_iff_eq, bne_iff_ne,
        decide_eq_true_eq, Bool.false_eq_true, if_false]
      refine ⟨h0l, ?_, ?_, chainB_append_sep hchl hchr, ?_, wfL_append hwll hwlr, ?_⟩
      · simp only [List.length_append, List.length_cons]
        omega
      · simp only [List.length_append, List.length_cons]
        omega
      · simp only [List.length_append, List.length_cons]
        omega
      · simp only [List.length_append, List.length_cons, List.map_append,
          List.sum_append]
        rw [hcntl, hcntr]
        push_cast
        ring

/-- Child-list surgery for a rotation: replace children `i` and `i + 1`
(with the separator at `i` replaced accordingly). -/
theorem wfL_rotate_pair {mn mx h : Nat} {lo hi : Option α} {its : List α}
    {csx : List (Node α)} {i : Nat} {s' : α} {L' R' : Node α}
    (har : csx.length = its.length + 1) (hi' : i < its.length)
    (hok2 : ∀ j, j ≤ its.length → j ≠ i → j ≠ i + 1 →
      wfN mn mx false h (boundL lo its j) (boundR hi its j) (csx.getD j default) = true)
    (hL : wfN mn mx false h (boundL lo its i) (some s') L' = true)
    (hR : wfN mn mx false h (some s') (boundR hi its (i + 1)) R' = true) :
    wfL mn mx h lo hi ((csx.set i L').set (i + 1) R') (its.set i s') = true := by
  apply wfL_of_forall (by simp [har])
  intro j hj
  rw [List.length_set] at hj
  rcases lt_trichotomy j i with hlt | rfl | hgt
  · rw [getD_set_ne _ _ _ _ (by omega), getD_set_ne _ _ _ _ (by omega),
      boundL_set_ne (by omega), boundR_set_ne (by omega)]
    exact hok2 j hj (by omega) (by omega)
  · rw [getD_set_ne _ _ _ _ (by omega), getD_set_eq (by omega),
      boundL_set_ne (by omega), boundR_set_eq hi']
    exact hL
  · by_cases he : j = i + 1
    · subst he
      rw [getD_set_eq (by rw [List.length_set]; omega), boundL_set_eq hi',
        boundR_set_ne (by omega)]
      exact hR
    · rw [getD_set_ne _ _ _ _ (by omega), getD_set_ne _ _ _ _ (by omega),
        boundL_set_ne (by omega), boundR_set_ne (by omega)]
      exact hok2 j hj (by omega) (by omega)

/-- Child-list surgery for a merge: replace child `i` by the merged node
and drop child `i + 1` together with separator `i`. -/
theorem wfL_merge_pair {mn mx h : Nat} {lo hi : Option α} {its : List α}
    {csx : List (Node α)} {i : Nat} {M : Node α}
    (har : csx.length = its.length + 1) (hi' : i < its.length)
    (hok2 : ∀ j, j ≤ its.length → j ≠ i → j ≠ i + 1 →
      wfN mn mx false h (boundL lo its j) (boundR hi its j) (csx.getD j default) = true)
    (hM : wfN mn mx false h (boundL lo its i) (boundR hi its (i + 1)) M = true) :
    wfL mn mx h lo hi ((csx.set i M).eraseIdx (i + 1)) (its.eraseIdx i) = true := by
  have hcsl : (csx.set i M).length = its.length + 1 := by
    rw [List.length_set, har]
  apply wfL_of_forall
  · rw [List.length_eraseIdx, List.length_eraseIdx]
    rw [hcsl]
    have h1 : i + 1 < its.length + 1 := by omega
    have h2 : i < its.length := hi'
    simp [h1, h2]
    omega
  intro j hj
  have hjlen : j ≤ its.length - 1 := by
    rw [List.length_eraseIdx] at hj
    simp [hi'] at hj
    omega
  rcases lt_trichotomy j i with hlt | rfl | hgt
  · rw [getD_eraseIdx_lt _ _ _ (by omega) (by omega),
      getD_set_ne _ _ _ _ (by omega),
      boundL_eraseIdx_le hi' (by omega), boundR_eraseIdx_lt hi' (by omega)]
    exact hok2 j (by omega) (by omega) (by omega)
  · rw [getD_eraseIdx_lt _ _ _ (by omega) (by omega),
      getD_set_eq (by omega),
      boundL_eraseIdx_le hi' (Nat.le_refl _), boundR_eraseIdx_ge hi' (Nat.le_refl _) (by omega)]
    exact hM
  · rw [getD_eraseIdx_ge _ _ _ (by omega) (by omega),
      getD_set_ne _ _ _ _ (by omega),
      boundL_eraseIdx_gt (by omega) (by omega),
      boundR_eraseIdx_ge hi' (by omega) (by omega)]
    exact hok2 (j + 1) (by omega) (by omega) (by omega)

/-- The two nodes built by `nodeRebalance`'s left-to-right rotation: drop
the last item (and child) of the heavier left sibling, push the old
separator (and the moved child) onto the right sibling; the last left item
becomes the new separator. -/
theorem rotate_lr_wf {mn mx hh : Nat} {lo1 hi1 : Option α} {sep : α}
    {left right : Node α}
    (hl : wfD mn mx hh lo1 (some sep) left = true)
    (hr : wfD mn mx hh (some sep) hi1 right = true)
    (hllen : mn + 1 ≤ left.items.length)
    (hrmn : mn ≤ right.items.length + 1)
    (hrmx : right.items.length + 1 ≤ mx) :
    lob lo1 (some (left.items.getD (left.items.length - 1) default)) = true ∧
    lob (some (left.items.getD (left.items.length - 1) default)) (some sep) = true ∧
    (left.children = none →
      wfN mn mx false hh lo1 (some (left.items.getD (left.items.length - 1) default))
        (Node.mk left.items.dropLast none (left.count - 1)) = true ∧
      wfN mn mx false hh (some (left.items.getD (left.items.length - 1) default)) hi1
        (Node.mk (sep :: right.items) right.children (right.count + 1)) = true) ∧
    (∀ lc, left.children = some lc →
      wfN mn mx false hh lo1 (some (left.items.getD (left.items.length - 1) default))
        (Node.mk left.items.dropLast (some lc.dropLast)
          (left.count - 1 - (lc.getD (lc.length - 1) default).count)) = true ∧
      wfN mn mx false hh (some (left.items.getD (left.items.length - 1) default)) hi1
        (Node.mk (sep :: right.items)
          (some ((lc.getD (lc.length - 1) default) :: right.children.getD []))
          (right.count + 1 + (lc.getD (lc.length - 1) default).count)) = true) := by
  obtain ⟨li, lch, lcnt⟩ := left
  obtain ⟨ri, rch, rcnt⟩ := right
  simp only [Node.items_mk, Node.children_mk, Node.count_mk] at hllen hrmn hrmx ⊢
  have hlne : li.length ≠ 0 := by omega
  cases lch with
  | none =>
    simp only [wfD, Bool.and_eq_true, and_assoc, beq_iff_eq, bne_iff_ne,
      decide_eq_true_eq] at hl
    obtain ⟨h0l, hlel, hchl, hcntl⟩ := hl
    subst h0l
    cases rch with
    | some rc =>
      simp only [wfD, Bool.and_eq_true, and_assoc, beq_iff_eq, bne_iff_ne,
        decide_eq_true_eq] at hr
      obtain ⟨h0r, -, -, -, -, -⟩ := hr
      omega
    | none =>
      simp only [wfD, Bool.and_eq_true, and_assoc, beq_iff_eq, bne_iff_ne,
        decide_eq_true_eq] at hr
      obtain ⟨-, hler, hchr, hcntr⟩ := hr
      have hmem : li.getD (li.length - 1) default ∈ li := by
        rw [List.getD_eq_getElem li default (by omega)]
        exact List.getElem_mem (by omega)
      have hbnds := chainB_mem_bounds hchl hmem
      refine ⟨hbnds.1, hbnds.2, fun _ => ⟨?_, ?_⟩, fun lc hlc => Option.noConfusion hlc⟩
      · have hchl' : chainB lo1 (some (li.getD (li.length - 1) default)) li.dropLast = true := by
          rw [List.dropLast_eq_take]
          exact chainB_take hchl (li.length - 1) (by omega)
        simp only [wfN, Bool.and_eq_true, and_assoc, beq_iff_eq, bne_iff_ne,
          decide_eq_true_eq, Bool.false_eq_true, if_false, List.length_dropLast]
        repeat' apply And.intro
        all_goals first
          | exact hchl'
          | omega
          | (rw [hcntl]; push_cast; omega)
          | trivial
      · simp only [wfN, chainB, Bool.and_eq_true, and_assoc, beq_iff_eq, bne_iff_ne,
          decide_eq_true_eq, Bool.false_eq_true, if_false, List.length_cons]
        repeat' apply And.intro
        all_goals first
          | exact hbnds.2
          | exact hchr
          | omega
          | (rw [hcntr]; push_cast; omega)
          | trivial
  | some lc =>
    simp only [wfD, Bool.and_eq_true, and_assoc, beq_iff_eq, bne_iff_ne,
      decide_eq_true_eq] at hl
    obtain ⟨h0l, hlel, hchl, harl, hwll, hcntl⟩ := hl
    cases rch with
    | none =>
      simp only [wfD, Bool.and_eq_true, and_assoc, beq_iff_eq, bne_iff_ne,
        decide_eq_true_eq] at hr
      obtain ⟨h0r, -, -, -⟩ := hr
      omega
    | some rc =>
      simp only [wfD, Bool.and_eq_true, and_assoc, beq_iff_eq, bne_iff_ne,
        decide_eq_true_eq] at hr
      obtain ⟨-, hler, hchr, harr, hwlr, hcntr⟩ := hr
      have hmem : li.getD (li.length - 1) default ∈ li := by
        rw [List.getD_eq_getElem li default (by omega)]
        exact List.getElem_mem (by omega)
      have hbnds := chainB_mem_bounds hchl hmem
      have hlcl : lc.length - 1 = li.length := by omega
      refine ⟨hbnds.1, hbnds.2, fun hno => Option.noConfusion hno, ?_⟩
      rintro lc' hlc'
      obtain rfl : lc = lc' := by
        injection hlc'
      constructor
      · have hchl' : chainB lo1 (some (li.getD (li.length - 1) default)) li.dropLast = true := by
          rw [List.dropLast_eq_take]
          exact chainB_take hchl (li.length - 1) (by omega)
        have hwl' : wfL mn mx (hh - 1) lo1 (some (li.getD (li.length - 1) default))
            lc.dropLast li.dropLast = true := by
          have := wfL_take hwll (li.length - 1) (by omega)
          rw [List.dropLast_eq_take, List.dropLast_eq_take, hlcl]
          have he : li.length - 1 + 1 = li.length := by omega
          rw [he] at this
          exact this
        have hsum := sumCounts_dropLast lc
        simp only [wfN, Bool.and_eq_true, and_assoc, beq_iff_eq, bne_iff_ne,
          decide_eq_true_eq, Bool.false_eq_true, if_false, List.length_dropLast]
        repeat' apply And.intro
        all_goals first
          | exact hchl'
          | exact hwl'
          | omega
          | (rw [hcntl]; push_cast; omega)
          | trivial
      · have hmoved := wfL_get hwll li.length (Nat.le_refl _)
        have hbL : boundL lo1 li li.length = some (li.getD (li.length - 1) default) := by
          unfold boundL
          rw [if_neg hlne]
        have hbR : boundR (some sep) li li.length = some sep := by
          unfold boundR
          rw [if_pos rfl]
        rw [hbL, hbR] at hmoved
        rw [hlcl]
        simp only [Option.getD_some]
        simp only [wfN, Bool.and_eq_true, and_assoc, beq_iff_eq, bne_iff_ne,
          decide_eq_true_eq, Bool.false_eq_true, if_false, List.length_cons,
          wfL, chainB]
        repeat' apply And.intro
        all_goals first
          | exact hbnds.2
          | exact hchr
          | exact hmoved
          | exact hwlr
          | omega
          | (simp only [List.map_cons, List.sum_cons]; rw [hcntr]; push_cast; omega)
          | trivial

/-- The two nodes built by `nodeRebalance`'s right-to-left rotation: append
the old separator (and the moved first right child) to the lighter left
sibling and drop the head of the right sibling; the first right item
becomes the new separator. -/
theorem rotate_rl_wf {mn mx hh : Nat} {lo1 hi1 : Option α} {sep : α}
    {left right : Node α}
    (hl : wfD mn mx hh lo1 (some sep) left = true)
    (hr : wfD mn mx hh (some sep) hi1 right = true)
    (hrlen : mn + 1 ≤ right.items.length)
    (hlmn : mn ≤ left.items.length + 1)
    (hlmx : left.items.length + 1 ≤ mx) :
    lob (some sep) (some (right.items.getD 0 default)) = true ∧
    lob (some (right.items.getD 0 default)) hi1 = true ∧
    (left.children = none →
      wfN mn mx false hh lo1 (some (right.items.getD 0 default))
        (Node.mk (left.items ++ [sep]) none (left.count + 1)) = true ∧
      wfN mn mx false hh (some (right.items.getD 0 default)) hi1
        (Node.mk (right.items.drop 1) right.children (right.count - 1)) = true) ∧
    (∀ lc, left.children = some lc →
      wfN mn mx false hh lo1 (some (right.items.getD 0 default))
        (Node.mk (left.items ++ [sep])
          (some (lc ++ [(right.children.getD []).getD 0 default]))
          (left.count + 1 + ((right.children.getD []).getD 0 default).count)) = true ∧
      wfN mn mx false hh (some (right.items.getD 0 default)) hi1
        (Node.mk (right.items.drop 1)
          (some ((right.children.getD []).drop 1))
          (right.count - 1 - ((right.children.getD []).getD 0 default).count)) = true) := by
  obtain ⟨li, lch, lcnt⟩ := left
  obtain ⟨ri, rch, rcnt⟩ := right
  simp only [Node.items_mk, Node.children_mk, Node.count_mk] at hrlen hlmn hlmx ⊢
  have hrne : ri.length ≠ 0 := by omega
  cases lch with
  | none =>
    simp only [wfD, Bool.and_eq_true, and_assoc, beq_iff_eq, bne_iff_ne,
      decide_eq_true_eq] at hl
    obtain ⟨h0l, hlel, hchl, hcntl⟩ := hl
    cases rch with
    | some rc =>
      simp only [wfD, Bool.and_eq_true, and_assoc, beq_iff_eq, bne_iff_ne,
        decide_eq_true_eq] at hr
      obtain ⟨h0r, -, -, -, -, -⟩ := hr
      omega
    | none =>
      simp only [wfD, Bool.and_eq_true, and_assoc, beq_iff_eq, bne_iff_ne,
        decide_eq_true_eq] at hr
      obtain ⟨-, hler, hchr, hcntr⟩ := hr
      have hmem : ri.getD 0 default ∈ ri := by
        rw [List.getD_eq_getElem ri default (by omega)]
        exact List.getElem_mem (by omega)
      have hbnds := chainB_mem_bounds hchr hmem
      refine ⟨hbnds.1, hbnds.2, fun _ => ⟨?_, ?_⟩, fun lc hlc => Option.noConfusion hlc⟩
      · have hchl' : chainB lo1 (some (ri.getD 0 default)) (li ++ [sep]) = true :=
          chainB_append_sep hchl (by simpa [chainB] using hbnds.1)
        simp only [wfN, Bool.and_eq_true, and_assoc, beq_iff_eq, bne_iff_ne,
          decide_eq_true_eq, Bool.false_eq_true, if_false, List.length_append,
          List.length_cons, List.length_nil]
        repeat' apply And.intro
        all_goals first
          | exact hchl'
          | omega
          | (rw [hcntl]; push_cast; omega)
          | trivial
      · have hchr' : chainB (some (ri.getD 0 default)) hi1 (ri.drop 1) = true :=
          chainB_drop hchr 0 (by omega)
        simp only [wfN, Bool.and_eq_true, and_assoc, beq_iff_eq, bne_iff_ne,
          decide_eq_true_eq, Bool.false_eq_true, if_false, List.length_drop]
        repeat' apply And.intro
        all_goals first
          | exact hchr'
          | omega
          | (rw [hcntr]; push_cast; omega)
          | trivial
  | some lc =>
    simp only [wfD, Bool.and_eq_true, and_assoc, beq_iff_eq, bne_iff_ne,
      decide_eq_true_eq] at hl
    obtain ⟨h0l, hlel, hchl, harl, hwll, hcntl⟩ := hl
    cases rch with
    | none =>
      simp only [wfD, Bool.and_eq_true, and_assoc, beq_iff_eq, bne_iff_ne,
        decide_eq_true_eq] at hr
      obtain ⟨h0r, -, -, -⟩ := hr
      omega
    | some rc =>
      simp only [wfD, Bool.and_eq_true, and_assoc, beq_iff_eq, bne_iff_ne,
        decide_eq_true_eq] at hr
      obtain ⟨-, hler, hchr, harr, hwlr, hcntr⟩ := hr
      have hmem : ri.getD 0 default ∈ ri := by
        rw [List.getD_eq_getElem ri default (by omega)]
        exact List.getElem_mem (by omega)
      have hbnds := chainB_mem_bounds hchr hmem
      have hmoved := wfL_get hwlr 0 (Nat.zero_le _)
      have hbL : boundL (some sep) ri 0 = some sep := by
        unfold boundL
        rw [if_pos rfl]
      have hbR : boundR hi1 ri 0 = some (ri.getD 0 default) := by
        unfold boundR
        rw [if_neg (by omega : ¬ (0 = ri.length))]
      rw [hbL, hbR] at hmoved
      refine ⟨hbnds.1, hbnds.2, fun hno => Option.noConfusion hno, ?_⟩
      rintro lc' hlc'
      obtain rfl : lc = lc' := by
        injection hlc'
      simp only [Option.getD_some]
      constructor
      · have hchl' : chainB lo1 (some (ri.getD 0 default)) (li ++ [sep]) = true :=
          chainB_append_sep hchl (by simpa [chainB] using hbnds.1)
        have hwl' : wfL mn mx (hh - 1) lo1 (some (ri.getD 0 default))
            (lc ++ [rc.getD 0 default]) (li ++ [sep]) = true :=
          wfL_append hwll (by simpa [wfL] using hmoved)
        simp only [wfN, Bool.and_eq_true, and_assoc, beq_iff_eq, bne_iff_ne,
          decide_eq_true_eq, Bool.false_eq_true, if_false, List.length_append,
          List.length_cons, List.length_nil, List.map_append, List.map_cons,
          List.map_nil, List.sum_append, List.sum_cons, List.sum_nil]
        repeat' apply And.intro
        all_goals first
          | exact hchl'
          | exact hwl'
          | omega
          | (rw [hcntl]; push_cast; omega)
          | trivial
      · have hchr' : chainB (some (ri.getD 0 default)) hi1 (ri.drop 1) = true :=
          chainB_drop hchr 0 (by omega)
        have hwr' : wfL mn mx (hh - 1) (some (ri.getD 0 default)) hi1
            (rc.drop 1) (ri.drop 1) = true := by
          have := wfL_drop hwlr 0 (by omega)
          simpa using this
        have hsum := sumCounts_dropOne rc
        simp only [wfN, Bool.and_eq_true, and_assoc, beq_iff_eq, bne_iff_ne,
          decide_eq_true_eq, Bool.false_eq_true, if_false, List.length_drop]
        repeat' apply And.intro
        all_goals first
          | exact hchr'
          | exact hwr'
          | omega
          | (rw [hcntr]; push_cast; omega)
          | trivial

/-- Assembling the parent after a rotation: separator `i` replaced by the
new separator, children `i` and `i + 1` replaced by the rotated pair. -/
theorem rotate_parent_wf {mn mx hh : Nat} {lo hi : Option α} {its : List α}
    {csx : List (Node α)} {cnt : Int} {i : Nat} {s' : α} {L' R' : Node α}
    (hch : chainB lo hi its = true) (hle : its.length ≤ mx)
    (har : csx.length = its.length + 1) (hilt : i < its.length)
    (hok2 : ∀ j, j ≤ its.length → j ≠ i → j ≠ i + 1 →
      wfN mn mx false hh (boundL lo its j) (boundR hi its j) (csx.getD j default) = true)
    (hL' : wfN mn mx false hh (boundL lo its i) (some s') L' = true)
    (hR' : wfN mn mx false hh (some s') (boundR hi its (i + 1)) R' = true)
    (hlobL : lob (boundL lo its i) (some s') = true)
    (hlobR : lob (some s') (boundR hi its (i + 1)) = true)
    (hcnt' : cnt = (its.length : Int)
      + ((((csx.set i L').set (i + 1) R').map Node.count).sum)) :
    wfD mn mx (hh + 1) lo hi
      (Node.mk (its.set i s') (some ((csx.set i L').set (i + 1) R')) cnt) = true := by
  simp only [wfD, Bool.and_eq_true, and_assoc, beq_iff_eq, bne_iff_ne,
    decide_eq_true_eq, List.length_set, Nat.add_sub_cancel]
  refine ⟨by omega, hle, chainB_set hch hilt hlobL hlobR, by omega,
    wfL_rotate_pair har hilt hok2 hL' hR', by rw [hcnt']⟩

/-- Assembling the parent after a merge: separator `i` dropped, child `i`
replaced by the merged node, child `i + 1` dropped. -/
theorem merge_parent_wf {mn mx hh : Nat} {lo hi : Option α} {its : List α}
    {csx : List (Node α)} {cnt : Int} {i : Nat} {M : Node α}
    (hch : chainB lo hi its = true) (hle : its.length ≤ mx)
    (har : csx.length = its.length + 1) (hilt : i < its.length)
    (hok2 : ∀ j, j ≤ its.length → j ≠ i → j ≠ i + 1 →
      wfN mn mx false hh (boundL lo its j) (boundR hi its j) (csx.getD j default) = true)
    (hM : wfN mn mx false hh (boundL lo its i) (boundR hi its (i + 1)) M = true)
    (hcnt' : cnt = ((its.eraseIdx i).length : Int)
      + ((((csx.set i M).eraseIdx (i + 1)).map Node.count).sum)) :
    wfD mn mx (hh + 1) lo hi
      (Node.mk (its.eraseIdx i) (some ((csx.set i M).eraseIdx (i + 1))) cnt) = true := by
  have hel : (its.eraseIdx i).length = its.length - 1 := by
    rw [List.length_eraseIdx]
    simp [hilt]
  have hcl : ((csx.set i M).eraseIdx (i + 1)).length = its.length := by
    rw [List.length_eraseIdx, List.length_set, har]
    have : i + 1 < its.length + 1 := by omega
    simp [this]
  simp only [wfD, Bool.and_eq_true, and_assoc, beq_iff_eq, bne_iff_ne,
    decide_eq_true_eq, Nat.add_sub_cancel]
  refine ⟨by omega, by omega, chainB_eraseIdx i hch, by omega,
    wfL_merge_pair har hilt hok2 hM, by rw [hcnt']⟩

/-- The heart of the C1 delete argument: `nodeRebalance` on a parent whose
child `i` (or `i + 1`, depending on the shift) just underflowed to
`min - 1` items restores a structurally well-formed node with the same
stored count and at most one fewer separator.  This version assumes the
un-shifted index (`i < |items|`). -/
theorem nodeRebalance_wf_core {mn mx hh : Nat} {lo hi : Option α} {its : List α}
    {csx : List (Node α)} {cnt : Int} {i : Nat}
    (hmn : 1 ≤ mn) (hmx : mx = 2 * mn + 1)
    (hch : chainB lo hi its = true)
    (hle : its.length ≤ mx)
    (har : csx.length = its.length + 1)
    (hilt : i < its.length)
    (hok2 : ∀ j, j ≤ its.length → j ≠ i → j ≠ i + 1 →
      wfN mn mx false hh (boundL lo its j) (boundR hi its j) (csx.getD j default) = true)
    (hLD : wfD mn mx hh (boundL lo its i) (some (its.getD i default))
      (csx.getD i default) = true)
    (hRD : wfD mn mx hh (some (its.getD i default)) (boundR hi its (i + 1))
      (csx.getD (i + 1) default) = true)
    (hLm : mn - 1 ≤ (csx.getD i default).items.length)
    (hRm : mn - 1 ≤ (csx.getD (i + 1) default).items.length)
    (hone : (csx.getD i default).items.length = mn - 1 ∨
      (csx.getD (i + 1) default).items.length = mn - 1)
    (hcnt : cnt = (its.length : Int) + (csx.map Node.count).sum) :
    wfD mn mx (hh + 1) lo hi (nodeRebalance mx (Node.mk its (some csx) cnt) i) = true ∧
    (nodeRebalance mx (Node.mk its (some csx) cnt) i).count = cnt ∧
    its.length - 1 ≤ (nodeRebalance mx (Node.mk its (some csx) cnt) i).items.length ∧
    (nodeRebalance mx (Node.mk its (some csx) cnt) i).items.length ≤ its.length := by
  have hine : ¬ (i = its.length) := by omega
  have hbRi : boundR hi its i = some (its.getD i default) := by
    unfold boundR
    rw [if_neg hine]
  simp only [nodeRebalance, Node.items_mk, Node.children_mk, Node.count_mk,
    if_neg hine]
  by_cases hmerge : (csx.getD i default).items.length
      + (csx.getD (i + 1) default).items.length < mx
  · rw [if_pos hmerge]
    have hM := merge_node_wf hLD hRD (by omega) (by omega)
    have hgd1 : (csx.set i (Node.mk ((csx.getD i default).items
        ++ its.getD i default :: (csx.getD (i + 1) default).items)
        (match (csx.getD i default).children, (csx.getD (i + 1) default).children with
         | some lc, some rc => some (lc ++ rc)
         | lc, _ => lc)
        ((csx.getD i default).count + (csx.getD (i + 1) default).count + 1))).getD
        (i + 1) default = csx.getD (i + 1) default :=
      getD_set_ne _ _ _ _ (by omega)
    have hS1 := sumCounts_eraseIdx (csx.set i (Node.mk ((csx.getD i default).items
        ++ its.getD i default :: (csx.getD (i + 1) default).items)
        (match (csx.getD i default).children, (csx.getD (i + 1) default).children with
         | some lc, some rc => some (lc ++ rc)
         | lc, _ => lc)
        ((csx.getD i default).count + (csx.getD (i + 1) default).count + 1)))
      (i + 1) (by rw [List.length_set]; omega)
    have hS2 := sumCounts_set csx i (Node.mk ((csx.getD i default).items
        ++ its.getD i default :: (csx.getD (i + 1) default).items)
        (match (csx.getD i default).children, (csx.getD (i + 1) default).children with
         | some lc, some rc => some (lc ++ rc)
         | lc, _ => lc)
        ((csx.getD i default).count + (csx.getD (i + 1) default).count + 1))
      (by omega)
    rw [hgd1] at hS1
    have hel : (its.eraseIdx i).length = its.length - 1 := by
      rw [List.length_eraseIdx]
      simp [hilt]
    refine ⟨merge_parent_wf hch hle har hilt hok2 hM ?_, rfl, ?_, ?_⟩
    · rw [hel]
      simp only [Node.count_mk] at hS1 hS2
      rw [hcnt]
      push_cast
      omega
    · simp only [Node.items_mk, hel]
      omega
    · simp only [Node.items_mk, hel]
      omega
  · rw [if_neg hmerge]
    by_cases hLR : (csx.getD i default).items.length
        > (csx.getD (i + 1) default).items.length
    · rw [if_pos hLR]
      have hllen : mn + 1 ≤ (csx.getD i default).items.length := by omega
      have hrmn : mn ≤ (csx.getD (i + 1) default).items.length + 1 := by omega
      have hrmx : (csx.getD (i + 1) default).items.length + 1 ≤ mx := by omega
      obtain ⟨hlobL, hlobSep, hleaf, hintl⟩ := rotate_lr_wf hLD hRD hllen hrmn hrmx
      have hlobR : lob (some ((csx.getD i default).items.getD
          ((csx.getD i default).items.length - 1) default))
          (boundR hi its (i + 1)) = true :=
        lob_trans hlobSep (lob_getD_boundR hch hilt) (by simp)
      rcases hLc : (csx.getD i default).children with _ | lc
      · obtain ⟨hL', hR'⟩ := hleaf hLc
        simp only [hLc]
        refine ⟨rotate_parent_wf hch hle har hilt hok2 hL' hR' hlobL hlobR ?_,
          rfl, ?_, ?_⟩
        · have hS1 := sumCounts_set csx i (Node.mk (csx.getD i default).items.dropLast
            none ((csx.getD i default).count - 1)) (by omega)
          have hgd : (csx.set i (Node.mk (csx.getD i default).items.dropLast
              none ((csx.getD i default).count - 1))).getD (i + 1) default
              = csx.getD (i + 1) default := getD_set_ne _ _ _ _ (by omega)
          have hS2 := sumCounts_set (csx.set i (Node.mk (csx.getD i default).items.dropLast
              none ((csx.getD i default).count - 1))) (i + 1)
            (Node.mk (its.getD i default :: (csx.getD (i + 1) default).items)
              (csx.getD (i + 1) default).children ((csx.getD (i + 1) default).count + 1))
            (by rw [List.length_set]; omega)
          rw [hgd] at hS2
          simp only [Node.count_mk] at hS1 hS2
          rw [hcnt]
          omega
        · simp only [Node.items_mk, List.length_set]
          omega
        · simp only [Node.items_mk, List.length_set]
          omega
      · obtain ⟨hL', hR'⟩ := hintl lc hLc
        simp only [hLc]
        refine ⟨rotate_parent_wf hch hle har hilt hok2 hL' hR' hlobL hlobR ?_,
          rfl, ?_, ?_⟩
        · have hS1 := sumCounts_set csx i (Node.mk (csx.getD i default).items.dropLast
            (some lc.dropLast) ((csx.getD i default).count - 1
              - (lc.getD (lc.length - 1) default).count)) (by omega)
          have hgd : (csx.set i (Node.mk (csx.getD i default).items.dropLast
              (some lc.dropLast) ((csx.getD i default).count - 1
                - (lc.getD (lc.length - 1) default).count))).getD (i + 1) default
              = csx.getD (i + 1) default := getD_set_ne _ _ _ _ (by omega)
          have hS2 := sumCounts_set (csx.set i (Node.mk (csx.getD i default).items.dropLast
              (some lc.dropLast) ((csx.getD i default).count - 1
                - (lc.getD (lc.length - 1) default).count))) (i + 1)
            (Node.mk (its.getD i default :: (csx.getD (i + 1) default).items)
              (some ((lc.getD (lc.length - 1) default)
                :: (csx.getD (i + 1) default).children.getD []))
              ((csx.getD (i + 1) default).count + 1
                + (lc.getD (lc.length - 1) default).count))
            (by rw [List.length_set]; omega)
          rw [hgd] at hS2
          simp only [Node.count_mk] at hS1 hS2
          rw [hcnt]
          omega
        · simp only [Node.items_mk, List.length_set]
          omega
        · simp only [Node.items_mk, List.length_set]
          omega
    · rw [if_neg hLR]
      have hrlen : mn + 1 ≤ (csx.getD (i + 1) default).items.length := by omega
      have hlmn : mn ≤ (csx.getD i default).items.length + 1 := by omega
      have hlmx : (csx.getD i default).items.length + 1 ≤ mx := by omega
      obtain ⟨hlobSep, hlobR0, hleaf, hintl⟩ := rotate_rl_wf hLD hRD hrlen hlmn hlmx
      have hlobL : lob (boundL lo its i)
          (some ((csx.getD (i + 1) default).items.getD 0 default)) = true := by
        refine lob_trans (lob_boundL_getD hch hilt) hlobSep (by simp)
      rcases hLc : (csx.getD i default).children with _ | lc
      · obtain ⟨hL', hR'⟩ := hleaf hLc
        simp only [hLc]
        refine ⟨rotate_parent_wf hch hle har hilt hok2 hL' hR' hlobL hlobR0 ?_,
          rfl, ?_, ?_⟩
        · have hS1 := sumCounts_set csx i (Node.mk ((csx.getD i default).items
            ++ [its.getD i default]) none ((csx.getD i default).count + 1)) (by omega)
          have hgd : (csx.set i (Node.mk ((csx.getD i default).items
              ++ [its.getD i default]) none ((csx.getD i default).count + 1))).getD
              (i + 1) default = csx.getD (i + 1) default :=
            getD_set_ne _ _ _ _ (by omega)
          have hS2 := sumCounts_set (csx.set i (Node.mk ((csx.getD i default).items
              ++ [its.getD i default]) none ((csx.getD i default).count + 1))) (i + 1)
            (Node.mk ((csx.getD (i + 1) default).items.drop 1)
              (csx.getD (i + 1) default).children ((csx.getD (i + 1) default).count - 1))
            (by rw [List.length_set]; omega)
          rw [hgd] at hS2
          simp only [Node.count_mk] at hS1 hS2
          rw [hcnt]
          omega
        · simp only [Node.items_mk, List.length_set]
          omega
        · simp only [Node.items_mk, List.length_set]
          omega
      · obtain ⟨hL', hR'⟩ := hintl lc hLc
        simp only [hLc]
        refine ⟨rotate_parent_wf hch hle har hilt hok2 hL' hR' hlobL hlobR0 ?_,
          rfl, ?_, ?_⟩
        · have hS1 := sumCounts_set csx i (Node.mk ((csx.getD i default).items
            ++ [its.getD i default])
            (some (lc ++ [((csx.getD (i + 1) default).children.getD []).getD 0 default]))
            ((csx.getD i default).count + 1
              + (((csx.getD (i + 1) default).children.getD []).getD 0 default).count))
            (by omega)
          have hgd : (csx.set i (Node.mk ((csx.getD i default).items
              ++ [its.getD i default])
              (some (lc ++ [((csx.getD (i + 1) default).children.getD []).getD 0 default]))
              ((csx.getD i default).count + 1
                + (((csx.getD (i + 1) default).children.getD []).getD 0 default).count))).getD
              (i + 1) default = csx.getD (i + 1) default :=
            getD_set_ne _ _ _ _ (by omega)
          have hS2 := sumCounts_set (csx.set i (Node.mk ((csx.getD i default).items
              ++ [its.getD i default])
              (some (lc ++ [((csx.getD (i + 1) default).children.getD []).getD 0 default]))
              ((csx.getD i default).count + 1
                + (((csx.getD (i + 1) default).children.getD []).getD 0 default).count)))
            (i + 1)
            (Node.mk ((csx.getD (i + 1) default).items.drop 1)
              (some (((csx.getD (i + 1) default).children.getD []).drop 1))
              ((csx.getD (i + 1) default).count - 1
                - (((csx.getD (i + 1) default).children.getD []).getD 0 default).count))
            (by rw [List.length_set]; omega)
          rw [hgd] at hS2
          simp only [Node.count_mk] at hS1 hS2
          rw [hcnt]
          omega
        · simp only [Node.items_mk, List.length_set]
          omega
        · simp only [Node.items_mk, List.length_set]
          omega

/-- `nodeRebalance` restores structural well-formedness after child `i0`
underflowed to `min - 1` items (the remaining children being fully
well-formed), preserving the stored count and dropping at most one
separator. -/
theorem nodeRebalance_wf {mn mx hh : Nat} {lo hi : Option α} {its : List α}
    {cs : List (Node α)} {c' : Node α} {cnt : Int} {i0 : Nat}
    (hmn : 1 ≤ mn) (hmx : mx = 2 * mn + 1)
    (hch : chainB lo hi its = true)
    (hle : its.length ≤ mx)
    (hits1 : 1 ≤ its.length)
    (har : cs.length = its.length + 1)
    (hi0 : i0 ≤ its.length)
    (hok : ∀ j, j ≤ its.length → j ≠ i0 →
      wfN mn mx false hh (boundL lo its j) (boundR hi its j) (cs.getD j default) = true)
    (hc' : wfD mn mx hh (boundL lo its i0) (boundR hi its i0) c' = true)
    (hclen : c'.items.length + 1 = mn)
    (hcnt : cnt = (its.length : Int) + (((cs.set i0 c').map Node.count)).sum) :
    wfD mn mx (hh + 1) lo hi
      (nodeRebalance mx (Node.mk its (some (cs.set i0 c')) cnt) i0) = true ∧
    (nodeRebalance mx (Node.mk its (some (cs.set i0 c')) cnt) i0).count = cnt ∧
    its.length - 1 ≤ (nodeRebalance mx (Node.mk its (some (cs.set i0 c')) cnt) i0).items.length ∧
    (nodeRebalance mx (Node.mk its (some (cs.set i0 c')) cnt) i0).items.length ≤ its.length := by
  by_cases hsh : i0 = its.length
  · have hsame : nodeRebalance mx (Node.mk its (some (cs.set i0 c')) cnt) i0
        = nodeRebalance mx (Node.mk its (some (cs.set i0 c')) cnt) (i0 - 1) := by
      simp only [nodeRebalance, Node.items_mk]
      rw [if_pos hsh, if_neg (by omega : ¬ (i0 - 1 = its.length))]
    rw [hsame]
    have hbL : boundL lo its i0 = some (its.getD (i0 - 1) default) := by
      unfold boundL
      rw [if_neg (by omega : ¬ (i0 = 0))]
    have hgd1 : (cs.set i0 c').getD (i0 - 1) default = cs.getD (i0 - 1) default :=
      getD_set_ne _ _ _ _ (by omega)
    have hgd2 : (cs.set i0 c').getD i0 default = c' :=
      getD_set_eq (by omega)
    have hsib := hok (i0 - 1) (by omega) (by omega)
    have hsibocc := wfN_occupancy hsib
    have hbRsib : boundR hi its (i0 - 1) = some (its.getD (i0 - 1) default) := by
      unfold boundR
      rw [if_neg (by omega : ¬ (i0 - 1 = its.length))]
    rw [hbRsib] at hsib
    have he1 : i0 - 1 + 1 = i0 := by omega
    have hcore := nodeRebalance_wf_core hmn hmx hch hle
      (by rw [List.length_set]; exact har) (by omega : i0 - 1 < its.length)
      (fun j hj h1 h2 => by
        rw [getD_set_ne _ _ _ _ (by omega)]
        exact hok j hj (by omega))
      (by rw [hgd1]; exact wfD_of_wfN hsib)
      (by rw [he1, hgd2, ← hbL]; exact hc')
      (by rw [hgd1]; exact le_trans (by omega) (hsibocc.2.1 rfl))
      (by rw [he1, hgd2]; omega)
      (Or.inr (by rw [he1, hgd2]; omega))
      hcnt
    exact hcore
  · have hbR0 : boundR hi its i0 = some (its.getD i0 default) := by
      unfold boundR
      rw [if_neg hsh]
    have hgd2 : (cs.set i0 c').getD i0 default = c' :=
      getD_set_eq (by omega)
    have hgd3 : (cs.set i0 c').getD (i0 + 1) default = cs.getD (i0 + 1) default :=
      getD_set_ne _ _ _ _ (by omega)
    have hsib := hok (i0 + 1) (by omega) (by omega)
    have hsibocc := wfN_occupancy hsib
    have hbLsib : boundL lo its (i0 + 1) = some (its.getD i0 default) := by
      unfold boundL
      rw [if_neg (by omega : ¬ (i0 + 1 = 0))]
      simp
    rw [hbLsib] at hsib
    exact nodeRebalance_wf_core hmn hmx hch hle
      (by rw [List.length_set]; exact har) (by omega : i0 < its.length)
      (fun j hj h1 h2 => by
        rw [getD_set_ne _ _ _ _ (by omega)]
        exact hok j hj (by omega))
      (by rw [hgd2, ← hbR0]; exact hc')
      (by rw [hgd3]; exact wfD_of_wfN hsib)
      (by rw [hgd2]; omega)
      (by rw [hgd3]; exact le_trans (by omega) (hsibocc.2.1 rfl))
      (Or.inl (by rw [hgd2]; omega))
      hcnt

/-- In a sorted list, everything is below any bound on the last element. -/
theorem all_lt_of_last_lt {l : List α} (hs : l.Pairwise (· < ·)) {b : α}
    (h : l.getD (l.length - 1) default < b) : ∀ x ∈ l, x < b := by
  intro x hx
  obtain ⟨j, hj, rfl⟩ := List.mem_iff_getElem.mp hx
  rw [← List.getD_eq_getElem l default hj]
  exact lt_of_le_of_lt (sorted_getD_le l hs (by omega) (by omega)) h

/-- The tail of `delete` after a successful child deletion: store the
child, decrement the count, and rebalance on underflow.  The parent stays
structurally well-formed with the count decremented and at most one
separator dropped. -/
theorem afterChildDelete_wf {mn mx hh : Nat} {lo hi : Option α} {its' : List α}
    {cs : List (Node α)} {c' : Node α} {cnt : Int} {i : Nat}
    (hmn : 1 ≤ mn) (hmx : mx = 2 * mn + 1)
    (hch : chainB lo hi its' = true)
    (hle : its'.length ≤ mx)
    (hits1 : 1 ≤ its'.length)
    (har : cs.length = its'.length + 1)
    (hii : i ≤ its'.length)
    (hok : ∀ j, j ≤ its'.length → j ≠ i →
      wfN mn mx false hh (boundL lo its' j) (boundR hi its' j) (cs.getD j default) = true)
    (hc' : wfD mn mx hh (boundL lo its' i) (boundR hi its' i) c' = true)
    (hc'm : mn ≤ c'.items.length + 1)
    (hc'cnt : c'.count = (cs.getD i default).count - 1)
    (hcnt : cnt = (its'.length : Int) + ((cs.map Node.count)).sum) :
    wfD mn mx (hh + 1) lo hi (afterChildDelete mn mx its' cs i c' cnt) = true ∧
    (afterChildDelete mn mx its' cs i c' cnt).count = cnt - 1 ∧
    its'.length - 1 ≤ (afterChildDelete mn mx its' cs i c' cnt).items.length ∧
    (afterChildDelete mn mx its' cs i c' cnt).items.length ≤ its'.length := by
  have hS := sumCounts_set cs i c' (by omega)
  simp only [afterChildDelete]
  by_cases hu : c'.items.length < mn
  · rw [if_pos hu]
    have hcnt1 : cnt - 1 = (its'.length : Int) + ((cs.set i c').map Node.count).sum := by
      rw [hcnt]
      omega
    exact nodeRebalance_wf hmn hmx hch hle hits1 har hii hok hc' (by omega) hcnt1
  · rw [if_neg hu]
    refine ⟨?_, by simp [Node.count_mk], by simp [Node.items_mk], by simp [Node.items_mk]⟩
    simp only [wfD, Bool.and_eq_true, and_assoc, beq_iff_eq, bne_iff_ne,
      decide_eq_true_eq, List.length_set, Nat.add_sub_cancel, Node.items_mk,
      Node.children_mk, Node.count_mk]
    refine ⟨by omega, hle, hch, by omega, ?_, ?_⟩
    · apply wfL_of_forall (by rw [List.length_set]; omega)
      intro j hj
      by_cases he : j = i
      · subst he
        rw [getD_set_eq (by omega)]
        exact wfN_of_wfD hc' (fun hx => Bool.noConfusion hx) (fun _ => by omega)
      · rw [getD_set_ne _ _ _ _ (fun hx => he hx.symm)]
        exact hok j hj he
    · rw [hcnt]
      omega

/-- Witness for the C5 theorem, on the degree-2 tree whose root leaf holds
`[10, 20, 30]` (exactly `max = 3` items), inserting the fresh key `25`. -/
theorem set_splits_full_root_leaf_witness :
    Valid ({ root := some (Node.mk [10, 20, 30] none 3), count := 3, minI := 1, maxI := 3 } : Tree Int) = true ∧
    (false = false ∧
      ({ root := some (Node.mk [20] (some [Node.mk [10] none 1, Node.mk [25, 30] none 2]) 4), count := 4, minI := 1, maxI := 3 } : Tree Int).count = 3 + 1 ∧
      ∃ l r : Node Int,
        ({ root := some (Node.mk [20] (some [Node.mk [10] none 1, Node.mk [25, 30] none 2]) 4), count := 4, minI := 1, maxI := 3 } : Tree Int).root
          = some (Node.mk [([10, 20, 30] : List Int).getD (3 / 2) default] (some [l, r]) (3 + 1)) ∧
        l.leaf = true ∧ r.leaf = true ∧ countTop l = true ∧ countTop r = true ∧
        ((25 : Int) < ([10, 20, 30] : List Int).getD (3 / 2) default →
          l.items.Perm (25 :: ([10, 20, 30] : List Int).take (3 / 2)) ∧
          r.items = ([10, 20, 30] : List Int).drop (3 / 2 + 1)) ∧
        (([10, 20, 30] : List Int).getD (3 / 2) default < (25 : Int) →
          r.items.Perm (25 :: ([10, 20, 30] : List Int).drop (3 / 2 + 1)) ∧
          l.items = ([10, 20, 30] : List Int).take (3 / 2))) := by
  have h2 : nodeSet 3 (Node.mk [30] none 1) (25 : Int) none 1 7
      = some (Node.mk [25, 30] none 2, default, false, false, none) :=
    nodeSet_leaf_insert (by decide) (by decide) (by decide)
  have h3 : nodeSet 3 (Node.mk [20] (some [Node.mk [10] none 1, Node.mk [30] none 1]) 3)
        (25 : Int) none 0 8
      = some (Node.mk [20] (some [Node.mk [10] none 1, Node.mk [25, 30] none 2]) 4,
          default, false, false, none) :=
    nodeSet_one_item_desc_right (by decide) (by decide) h2
  have h1 : nodeSet 3 (Node.mk [10, 20, 30] none 3) (25 : Int) none 0 9
      = some (Node.mk [10, 20, 30] none 3, default, false, true, none) :=
    nodeSet_leaf_full (by decide) (by decide) (by decide)
  have hnr9 : Node.updateCount (Node.mk [(nodeSplit 3 (Node.mk [10, 20, 30] none (3 : Int))).2.2]
        (some [(nodeSplit 3 (Node.mk [10, 20, 30] none (3 : Int))).1,
               (nodeSplit 3 (Node.mk [10, 20, 30] none (3 : Int))).2.1]) 0)
      = Node.mk [20] (some [Node.mk [10] none 1, Node.mk [30] none 1]) 3 := rfl
  have hshmid : setHint ({ root := some (Node.mk [20] (some [Node.mk [10] none 1, Node.mk [30] none 1]) 3), count := 3, minI := 1, maxI := 3 } : Tree Int) 25 none 9
      = some ({ root := some (Node.mk [20] (some [Node.mk [10] none 1, Node.mk [25, 30] none 2]) 4), count := 4, minI := 1, maxI := 3 }, default, false, none) := by
    show setHint _ 25 none (8 + 1) = _
    rw [setHint]
    simp only [h3]
    rfl
  have hsh10 : setHint ({ root := some (Node.mk [10, 20, 30] none 3), count := 3, minI := 1, maxI := 3 } : Tree Int) 25 none 10
      = some ({ root := some (Node.mk [20] (some [Node.mk [10] none 1, Node.mk [25, 30] none 2]) 4), count := 4, minI := 1, maxI := 3 }, default, false, none) := by
    show setHint _ 25 none (9 + 1) = _
    rw [setHint]
    simp only [h1, if_true]
    exact hshmid
  have hrun : set ({ root := some (Node.mk [10, 20, 30] none 3), count := 3, minI := 1, maxI := 3 } : Tree Int) 25 10
      = some ({ root := some (Node.mk [20] (some [Node.mk [10] none 1, Node.mk [25, 30] none 2]) 4), count := 4, minI := 1, maxI := 3 }, default, false) := by
    simp [set, hsh10]
  exact ⟨by decide, set_splits_full_root_leaf (by decide) rfl (by decide) (by decide) hrun⟩

/-- `delete` preserves structural well-formedness: an unsuccessful call
returns the node unchanged; a successful one returns a node satisfying the
occupancy-relaxed invariant `wfD` at the same height, with at most one item
below the minimum (restored by the caller), count decremented, and the
deleted item inside the node's bounds; a `takeMax` extraction moreover
bounds the remaining subtree above by the extracted maximum. -/
theorem delete_wf {mn mx : Nat} (hmn : 1 ≤ mn) (hmx : mx = 2 * mn + 1) :
    ∀ (fuel : Nat) {h : Nat} {rt : Bool} {lo hi : Option α} {n : Node α}
      {takeMax : Bool} {key : α} {hint : Option PathHint} {depth : Nat}
      {res : Node α × α × Bool × Option PathHint},
      wfN mn mx rt h lo hi n = true →
      delete mn mx n takeMax key hint depth fuel = some res →
      (res.2.2.1 = false → res.1 = n) ∧
      (takeMax = true → res.2.2.1 = true) ∧
      (res.2.2.1 = true →
        wfD mn mx h lo hi res.1 = true ∧
        (rt = false → mn ≤ res.1.items.length + 1) ∧
        res.1.count = n.count - 1 ∧
        lob lo (some res.2.1) = true ∧
        lob (some res.2.1) hi = true ∧
        (takeMax = true → wfD mn mx h lo (some res.2.1) res.1 = true)) := by
  intro fuel
  induction fuel with
  | zero =>
    intro h rt lo hi n takeMax key hint depth res hw hrun
    simp [delete] at hrun
  | succ fuel ih =>
    intro h rt lo hi n takeMax key hint depth res hw hrun
    obtain ⟨its, ch, cnt⟩ := n
    have hocc := wfN_occupancy hw
    simp only [Node.items_mk] at hocc
    have hsorted : its.Pairwise (· < ·) := by
      have h1 := wfN_sorted hw
      simpa [Node.items_mk] using h1
    have hlen1 : 1 ≤ its.length := by
      cases rt with
      | false => have := hocc.2.1 rfl; omega
      | true => exact hocc.1 rfl
    cases takeMax with
    | true =>
      cases ch with
      | none =>
        simp only [delete, Node.items_mk, Node.children_mk, Node.count_mk,
          eq_self_iff_true, if_true] at hrun
        injection hrun with hrun
        subst hrun
        simp only [wfN, Bool.and_eq_true, and_assoc, beq_iff_eq,
          decide_eq_true_eq] at hw
        obtain ⟨h0, -, hle, hchn, hcnt⟩ := hw
        have hidx : its.length - 1 < its.length := by omega
        have hmem : its.getD (its.length - 1) default ∈ its := by
          rw [List.getD_eq_getElem its default hidx]
          exact List.getElem_mem hidx
        have hbnds := chainB_mem_bounds hchn hmem
        have hlenE : (its.eraseIdx (its.length - 1)).length = its.length - 1 :=
          List.length_eraseIdx_of_lt hidx
        have hdropE : its.eraseIdx (its.length - 1) = its.take (its.length - 1) := by
          rw [List.eraseIdx_eq_take_drop_succ]
          have he : its.length - 1 + 1 = its.length := by omega
          rw [he, List.drop_length, List.append_nil]
        refine ⟨fun hx => by simp at hx, fun _ => rfl,
          fun _ => ⟨?_, ?_, rfl, hbnds.1, hbnds.2, fun _ => ?_⟩⟩
        · simp only [wfD, Bool.and_eq_true, and_assoc, beq_iff_eq,
            decide_eq_true_eq, Node.items_mk, Node.count_mk]
          refine ⟨h0, ?_, chainB_eraseIdx _ hchn, ?_⟩
          · rw [hlenE]; omega
          · rw [hlenE, hcnt]; omega
        · intro hrt
          have hmle := hocc.2.1 hrt
          show mn ≤ (its.eraseIdx (its.length - 1)).length + 1
          rw [hlenE]
          omega
        · simp only [wfD, Bool.and_eq_true, and_assoc, beq_iff_eq,
            decide_eq_true_eq, Node.items_mk, Node.count_mk]
          rw [hdropE]
          refine ⟨h0, ?_, chainB_take hchn _ hidx, ?_⟩
          · rw [List.length_take]; omega
          · rw [List.length_take, hcnt]; push_cast; omega
      | some cs =>
        simp only [delete, Node.items_mk, Node.children_mk, Node.count_mk,
          eq_self_iff_true, if_true] at hrun
        have he1 : its.length - 1 + 1 = its.length := by omega
        rw [he1] at hrun
        simp only [wfN, Bool.and_eq_true, and_assoc, beq_iff_eq, bne_iff_ne,
          decide_eq_true_eq] at hw
        obtain ⟨h0, -, hle, hchn, har, hwl, hcnt⟩ := hw
        have hh1 : h - 1 + 1 = h := by omega
        have hwc := wfL_get hwl its.length (le_refl _)
        rcases hrec : delete mn mx (cs.getD its.length default) true default none 0 fuel
          with - | ⟨c', prevM, deletedC, hintC⟩
        · rw [hrec] at hrun
          exact Option.noConfusion hrun
        · have ihc := ih hwc hrec
          simp only [] at ihc
          simp only [hrec] at hrun
          by_cases hdel : deletedC = true
          · rw [hdel] at hrun
            rw [if_neg (by simp)] at hrun
            injection hrun with hrun
            subst hrun
            obtain ⟨ihA, ihB, ihC, ihD1, ihD2, ihE⟩ := ihc.2.2 hdel
            have hD1 : lob lo (some prevM) = true := lob_lo_of_boundL hchn (le_refl _) ihD1
            have hD2 : lob (some prevM) hi = true := lob_hi_of_boundR hchn (le_refl _) ihD2
            have hok : ∀ j, j ≤ its.length → j ≠ its.length →
                wfN mn mx false (h - 1) (boundL lo its j) (boundR hi its j)
                  (cs.getD j default) = true := fun j hj _ => wfL_get hwl j hj
            have hP1 := afterChildDelete_wf hmn hmx hchn hle hlen1 har (le_refl _)
              hok ihA (ihB trivial) ihC hcnt
            rw [hh1] at hP1
            have hbL : boundL lo its its.length
                = some (its.getD (its.length - 1) default) := by
              unfold boundL
              rw [if_neg (by omega)]
            rw [hbL] at ihD1
            have hlast : its.getD (its.length - 1) default < prevM := by
              simpa [lob] using ihD1
            have hall : ∀ x ∈ its, x < prevM := all_lt_of_last_lt hsorted hlast
            have hchT : chainB lo (some prevM) its = true :=
              chainB_retarget_hi hchn hall hD1
            have hokT : ∀ j, j ≤ its.length → j ≠ its.length →
                wfN mn mx false (h - 1) (boundL lo its j) (boundR (some prevM) its j)
                  (cs.getD j default) = true := by
              intro j hj hne
              have hbr : boundR (some prevM) its j = boundR hi its j := by
                unfold boundR
                rw [if_neg hne, if_neg hne]
              rw [hbr]
              exact wfL_get hwl j hj
            have hcT : wfD mn mx (h - 1) (boundL lo its its.length)
                (boundR (some prevM) its its.length) c' = true := by
              have hbr : boundR (some prevM) its its.length = some prevM := by
                unfold boundR
                rw [if_pos rfl]
              rw [hbr]
              exact ihE trivial
            have hP2 := afterChildDelete_wf hmn hmx hchT hle hlen1 har (le_refl _)
              hokT hcT (ihB trivial) ihC hcnt
            rw [hh1] at hP2
            refine ⟨fun hx => by simp at hx, fun _ => rfl,
              fun _ => ⟨hP1.1, ?_, hP1.2.1, hD1, hD2, fun _ => hP2.1⟩⟩
            intro hrt
            have hmle := hocc.2.1 hrt
            have h3 := hP1.2.2.1
            show mn ≤ (afterChildDelete mn mx its cs its.length c' cnt).items.length + 1
            omega
          · rw [if_pos hdel] at hrun
            exact absurd (ihc.2.1 trivial) hdel
    | false =>
      cases ch with
      | none =>
        simp only [delete, Node.items_mk, Node.children_mk, Node.count_mk,
          Bool.false_eq_true, if_false] at hrun
        have hne : its ≠ [] := List.length_pos.mp (by omega)
        have hfr : (find (Node.mk its none cnt) key hint depth).1 = bsearch its key := by
          have h1 := find_fst_eq_bsearch (Node.mk its none cnt) key hint depth
            (by simpa [Node.items_mk] using hsorted) (by simpa [Node.items_mk] using hne)
          simpa [Node.items_mk] using h1
        rw [hfr] at hrun
        have hbs := bsearch_spec its key hsorted
        by_cases hfound : (bsearch its key).2 = true
        · rw [if_pos hfound] at hrun
          injection hrun with hrun
          subst hrun
          obtain ⟨hilt, hkey⟩ := hbs.1 hfound
          simp only [wfN, Bool.and_eq_true, and_assoc, beq_iff_eq,
            decide_eq_true_eq] at hw
          obtain ⟨h0, -, hle, hchn, hcnt⟩ := hw
          have hmem : its.getD (bsearch its key).1 default ∈ its := by
            rw [List.getD_eq_getElem its default hilt]
            exact List.getElem_mem hilt
          have hbnds := chainB_mem_bounds hchn hmem
          have hlenE : (its.eraseIdx (bsearch its key).1).length = its.length - 1 :=
            List.length_eraseIdx_of_lt hilt
          refine ⟨fun hx => by simp at hx, fun _ => rfl,
            fun _ => ⟨?_, ?_, rfl, hbnds.1, hbnds.2, fun hx => by simp at hx⟩⟩
          · simp only [wfD, Bool.and_eq_true, and_assoc, beq_iff_eq,
              decide_eq_true_eq, Node.items_mk, Node.count_mk]
            refine ⟨h0, ?_, chainB_eraseIdx _ hchn, ?_⟩
            · rw [hlenE]; omega
            · rw [hlenE, hcnt]; omega
          · intro hrt
            have hmle := hocc.2.1 hrt
            show mn ≤ (its.eraseIdx (bsearch its key).1).length + 1
            rw [hlenE]
            omega
        · rw [if_neg hfound] at hrun
          injection hrun with hrun
          subst hrun
          exact ⟨fun _ => rfl, fun hx => by simp at hx, fun hx => by simp at hx⟩
      | some cs =>
        simp only [delete, Node.items_mk, Node.children_mk, Node.count_mk,
          Bool.false_eq_true, if_false] at hrun
        have hne : its ≠ [] := List.length_pos.mp (by omega)
        have hfr : (find (Node.mk its (some cs) cnt) key hint depth).1
            = bsearch its key := by
          have h1 := find_fst_eq_bsearch (Node.mk its (some cs) cnt) key hint depth
            (by simpa [Node.items_mk] using hsorted) (by simpa [Node.items_mk] using hne)
          simpa [Node.items_mk] using h1
        rw [hfr] at hrun
        have hbs := bsearch_spec its key hsorted
        simp only [wfN, Bool.and_eq_true, and_assoc, beq_iff_eq, bne_iff_ne,
          decide_eq_true_eq] at hw
        obtain ⟨h0, -, hle, hchn, har, hwl, hcnt⟩ := hw
        have hh1 : h - 1 + 1 = h := by omega
        by_cases hfound : (bsearch its key).2 = true
        · rw [if_pos hfound] at hrun
          obtain ⟨hilt, hkey⟩ := hbs.1 hfound
          have hwc := wfL_get hwl (bsearch its key).1 (le_of_lt hilt)
          rcases hrec : delete mn mx (cs.getD (bsearch its key).1 default) true default
              none 0 fuel with - | ⟨c', maxItem, deletedC, hintC⟩
          · rw [hrec] at hrun
            exact Option.noConfusion hrun
          · have ihc := ih hwc hrec
            simp only [] at ihc
            simp only [hrec] at hrun
            injection hrun with hrun
            subst hrun
            have hdelC : deletedC = true := ihc.2.1 trivial
            obtain ⟨ihA, ihB, ihC, ihD1, ihD2, ihE⟩ := ihc.2.2 hdelC
            have hbRi : boundR hi its (bsearch its key).1
                = some (its.getD (bsearch its key).1 default) := by
              unfold boundR
              rw [if_neg (by omega)]
            have hmax_lt : maxItem < its.getD (bsearch its key).1 default := by
              have h2 := ihD2
              rw [hbRi] at h2
              simpa [lob] using h2
            have hrset : lob (some maxItem) (boundR hi its ((bsearch its key).1 + 1)) = true :=
              lob_trans (by simpa [lob] using hmax_lt) (lob_getD_boundR hchn hilt) (by simp)
            have hchS : chainB lo hi (its.set (bsearch its key).1 maxItem) = true :=
              chainB_set hchn hilt ihD1 hrset
            have hokS : ∀ j, j ≤ (its.set (bsearch its key).1 maxItem).length →
                j ≠ (bsearch its key).1 →
                wfN mn mx false (h - 1)
                  (boundL lo (its.set (bsearch its key).1 maxItem) j)
                  (boundR hi (its.set (bsearch its key).1 maxItem) j)
                  (cs.getD j default) = true := by
              intro j hj hjne
              rw [List.length_set] at hj
              by_cases hj1 : j = (bsearch its key).1 + 1
              · subst hj1
                rw [boundL_set_eq hilt, boundR_set_ne (by omega)]
                have hwcj := wfL_get hwl ((bsearch its key).1 + 1) (by omega)
                have hbL1 : boundL lo its ((bsearch its key).1 + 1)
                    = some (its.getD (bsearch its key).1 default) := by
                  unfold boundL
                  rw [if_neg (by omega)]
                  simp
                rw [hbL1] at hwcj
                exact wfN_weaken_lo (h - 1) hwcj (by simpa [lob] using hmax_lt)
              · rw [boundL_set_ne hj1, boundR_set_ne hjne]
                exact wfL_get hwl j hj
            have hcS : wfD mn mx (h - 1)
                (boundL lo (its.set (bsearch its key).1 maxItem) (bsearch its key).1)
                (boundR hi (its.set (bsearch its key).1 maxItem) (bsearch its key).1)
                c' = true := by
              rw [boundL_set_ne (by omega), boundR_set_eq hilt]
              exact ihE trivial
            have hleS : (its.set (bsearch its key).1 maxItem).length ≤ mx := by
              rw [List.length_set]; exact hle
            have hits1S : 1 ≤ (its.set (bsearch its key).1 maxItem).length := by
              rw [List.length_set]; exact hlen1
            have harS : cs.length = (its.set (bsearch its key).1 maxItem).length + 1 := by
              rw [List.length_set]; exact har
            have hiiS : (bsearch its key).1 ≤ (its.set (bsearch its key).1 maxItem).length := by
              rw [List.length_set]; omega
            have hcntS : cnt = ((its.set (bsearch its key).1 maxItem).length : Int)
                + ((cs.map Node.count)).sum := by
              rw [List.length_set]; exact hcnt
            have hP := afterChildDelete_wf hmn hmx hchS hleS hits1S harS hiiS
              hokS hcS (ihB trivial) ihC hcntS
            rw [hh1] at hP
            have hmemP : its.getD (bsearch its key).1 default ∈ its := by
              rw [List.getD_eq_getElem its default hilt]
              exact List.getElem_mem hilt
            have hbndsP := chainB_mem_bounds hchn hmemP
            refine ⟨fun hx => by simp at hx, fun _ => rfl,
              fun _ => ⟨hP.1, ?_, hP.2.1, hbndsP.1, hbndsP.2, fun hx => by simp at hx⟩⟩
            intro hrt
            have hmle := hocc.2.1 hrt
            have h3 := hP.2.2.1
            rw [List.length_set] at h3
            show mn ≤ (afterChildDelete mn mx (its.set (bsearch its key).1 maxItem)
              cs (bsearch its key).1 c' cnt).items.length + 1
            omega
        · rw [if_neg hfound] at hrun
          obtain ⟨hile, hbef, haft⟩ := hbs.2 (eq_false_of_ne_true hfound)
          have hwc := wfL_get hwl (bsearch its key).1 hile
          rcases hrec : delete mn mx (cs.getD (bsearch its key).1 default) false key
              ((find (Node.mk its (some cs) cnt) key hint depth).2) (depth + 1) fuel
            with - | ⟨c', prev2, deletedC, hint2C⟩
          · rw [hrec] at hrun
            exact Option.noConfusion hrun
          · have ihc := ih hwc hrec
            simp only [] at ihc
            simp only [hrec] at hrun
            by_cases hdel : deletedC = true
            · rw [hdel] at hrun
              rw [if_neg (by simp)] at hrun
              injection hrun with hrun
              subst hrun
              obtain ⟨ihA, ihB, ihC, ihD1, ihD2, -⟩ := ihc.2.2 hdel
              have hok : ∀ j, j ≤ its.length → j ≠ (bsearch its key).1 →
                  wfN mn mx false (h - 1) (boundL lo its j) (boundR hi its j)
                    (cs.getD j default) = true := fun j hj _ => wfL_get hwl j hj
              have hP := afterChildDelete_wf hmn hmx hchn hle hlen1 har hile
                hok ihA (ihB trivial) ihC hcnt
              rw [hh1] at hP
              refine ⟨fun hx => by simp at hx, fun hx => by simp at hx,
                fun _ => ⟨hP.1, ?_, hP.2.1, lob_lo_of_boundL hchn hile ihD1,
                  lob_hi_of_boundR hchn hile ihD2, fun hx => by simp at hx⟩⟩
              intro hrt
              have hmle := hocc.2.1 hrt
              have h3 := hP.2.2.1
              show mn ≤ (afterChildDelete mn mx its cs (bsearch its key).1 c' cnt).items.length + 1
              omega
            · rw [if_pos hdel] at hrun
              injection hrun with hrun
              subst hrun
              exact ⟨fun _ => rfl, fun hx => by simp at hx, fun hx => by simp at hx⟩

/-- `deleteHint` preserves the tree invariant: on a successful deletion the
count drops by one (root shrink and nil-at-zero included), otherwise the
tree is returned unchanged; the degree bounds never change. -/
theorem deleteHint_valid {t : Tree α} {key : α} {hint : Option PathHint} {fuel : Nat}
    {t' : Tree α} {prev : α} {deleted : Bool}
    (hv : Valid t = true)
    (hrun : deleteHint t key hint fuel = some (t', prev, deleted)) :
    Valid t' = true ∧
    t'.count = t.count - (if deleted = true then 1 else 0) ∧
    t'.minI = t.minI ∧ t'.maxI = t.maxI ∧
    (deleted = false → t' = t) := by
  have hv0 := hv
  obtain ⟨troot, tcnt, tmn, tmx⟩ := t
  cases troot with
  | none =>
    simp only [deleteHint] at hrun
    injection hrun with hrun
    simp only [Prod.mk.injEq] at hrun
    obtain ⟨h1, h2, h3⟩ := hrun
    subst h1
    subst h2
    subst h3
    exact ⟨hv0, by simp, rfl, rfl, fun _ => rfl⟩
  | some r =>
    simp only [Valid, Bool.and_eq_true, and_assoc, beq_iff_eq,
      decide_eq_true_eq] at hv
    obtain ⟨hmn1, hmxE, hroot1, hroot2⟩ := hv
    simp only [deleteHint] at hrun
    rcases hrec : delete tmn tmx r false key hint 0 fuel
      with - | ⟨r', prevD, deletedD, hintD⟩
    · rw [hrec] at hrun
      exact Option.noConfusion hrun
    · have hD := delete_wf hmn1 hmxE fuel hroot1 hrec
      simp only [] at hD
      simp only [hrec] at hrun
      by_cases hdel : deletedD = true
      · rw [hdel] at hrun
        rw [if_neg (by simp)] at hrun
        injection hrun with hrun
        simp only [Prod.mk.injEq] at hrun
        obtain ⟨h1, h2, h3⟩ := hrun
        subst h1
        subst h2
        subst h3
        obtain ⟨hA, -, hC, -, -, -⟩ := hD.2.2 hdel
        refine ⟨?_, by simp, rfl, rfl, fun hx => by simp at hx⟩
        by_cases hz : tcnt - 1 = (0 : Int)
        · rw [if_pos hz]
          simp only [Valid, Bool.and_eq_true, and_assoc, beq_iff_eq,
            decide_eq_true_eq]
          exact ⟨hmn1, hmxE, hz⟩
        · rw [if_neg hz]
          obtain ⟨its', ch', cnt''⟩ := r'
          simp only [Node.count_mk] at hC
          cases ch' with
          | none =>
            rw [if_neg (by simp [Node.leaf_mk])]
            simp only [wfD, Bool.and_eq_true, and_assoc, beq_iff_eq,
              decide_eq_true_eq] at hA
            obtain ⟨h0', hle', hchn', hcnt''⟩ := hA
            have hlen0 : 1 ≤ its'.length := by omega
            have hvN : wfN tmn tmx true (heightLoop r - 1) none none
                (Node.mk its' none cnt'') = true := by
              refine wfN_of_wfD ?_ (fun _ => by simpa [Node.items_mk] using hlen0)
                (fun hx => by simp at hx)
              simp only [wfD, Bool.and_eq_true, and_assoc, beq_iff_eq,
                decide_eq_true_eq]
              exact ⟨h0', hle', hchn', hcnt''⟩
            have hH := heightLoop_of_wfN (heightLoop r - 1) hvN
            simp only [Valid, Bool.and_eq_true, and_assoc, beq_iff_eq,
              decide_eq_true_eq, Node.count_mk]
            refine ⟨hmn1, hmxE, ?_, by omega⟩
            rw [hH]
            simpa using hvN
          | some cs' =>
            simp only [wfD, Bool.and_eq_true, and_assoc, beq_iff_eq, bne_iff_ne,
              decide_eq_true_eq] at hA
            obtain ⟨h0', hle', hchn', har', hwl', hcnt''⟩ := hA
            by_cases hlen0 : its'.length = 0
            · rw [if_pos ⟨by simpa [Node.items_mk] using hlen0, by simp [Node.leaf_mk]⟩]
              have hits'nil : its' = [] := List.length_eq_zero.mp hlen0
              subst hits'nil
              match cs', har' with
              | [c], _ =>
                simp only [wfL] at hwl'
                have hcocc := (wfN_occupancy hwl').2.1 rfl
                have hcT : wfN tmn tmx true (heightLoop r - 1 - 1) none none c = true :=
                  wfN_of_wfD (wfD_of_wfN hwl') (fun _ => by omega)
                    (fun hx => by simp at hx)
                have hH := heightLoop_of_wfN (heightLoop r - 1 - 1) hcT
                simp only [Node.children_mk, Option.getD_some, List.getD_cons_zero]
                simp only [Valid, Bool.and_eq_true, and_assoc, beq_iff_eq,
                  decide_eq_true_eq]
                refine ⟨hmn1, hmxE, ?_, ?_⟩
                · rw [hH]
                  simpa using hcT
                · simp only [List.map_cons, List.map_nil, List.sum_cons,
                    List.sum_nil] at hcnt''
                  omega
            · rw [if_neg (by simp [Node.items_mk, Node.leaf_mk, hlen0])]
              have hvN : wfN tmn tmx true (heightLoop r - 1) none none
                  (Node.mk its' (some cs') cnt'') = true := by
                refine wfN_of_wfD ?_ (fun _ => by simp [Node.items_mk]; omega)
                  (fun hx => by simp at hx)
                simp only [wfD, Bool.and_eq_true, and_assoc, beq_iff_eq,
                  bne_iff_ne, decide_eq_true_eq]
                exact ⟨h0', hle', hchn', har', hwl', hcnt''⟩
              have hH := heightLoop_of_wfN (heightLoop r - 1) hvN
              simp only [Valid, Bool.and_eq_true, and_assoc, beq_iff_eq,
                decide_eq_true_eq, Node.count_mk]
              refine ⟨hmn1, hmxE, ?_, by omega⟩
              rw [hH]
              simpa using hvN
      · rw [if_pos hdel] at hrun
        injection hrun with hrun
        simp only [Prod.mk.injEq] at hrun
        obtain ⟨h1, h2, h3⟩ := hrun
        subst h1
        subst h2
        subst h3
        exact ⟨hv0, by simp, rfl, rfl, fun _ => rfl⟩


/-! ## In-order content toolkit -/

theorem flatI_nil_left (its : List α) : flatI ([] : List (Node α)) its = [] := rfl

theorem flatI_cons_nil (c : Node α) (cs : List (Node α)) :
    flatI (c :: cs) [] = nodeItems c := rfl

theorem flatI_cons_cons (c : Node α) (cs : List (Node α)) (it : α) (its : List α) :
    flatI (c :: cs) (it :: its) = nodeItems c ++ it :: flatI cs its := rfl

theorem itemsInner_cons_cons (c c2 : Node α) (cs : List (Node α)) (it : α) (its : List α) :
    itemsInner (c :: c2 :: cs) (it :: its) = nodeItems c ++ it :: itemsInner (c2 :: cs) its := rfl

theorem itemsInner_eq_flatI :
    ∀ (its : List α) (cs : List (Node α)), cs.length = its.length + 1 →
      itemsInner cs its = flatI cs its := by
  intro its
  induction its with
  | nil =>
    intro cs har
    match cs with
    | [] => simp at har
    | [c] => rfl
    | c :: c2 :: cs2 => simp at har
  | cons it its2 ih =>
    intro cs har
    match cs with
    | [] => simp at har
    | c :: c2 :: cs2 =>
      rw [itemsInner_cons_cons, flatI_cons_cons, ih (c2 :: cs2) (by simpa using har)]

theorem flatI_split :
    ∀ (i : Nat) (its : List α) (cs : List (Node α)), i ≤ its.length →
      flatI cs its = flatI (cs.take i) (its.take i) ++ flatI (cs.drop i) (its.drop i) := by
  intro i
  induction i with
  | zero =>
    intro its cs h
    simp [flatI_nil_left]
  | succ i ih =>
    intro its cs h
    cases its with
    | nil => simp at h
    | cons it its2 =>
      cases cs with
      | nil => simp [flatI_nil_left]
      | cons c cs2 =>
        simp only [List.take_succ_cons, List.drop_succ_cons, flatI_cons_cons]
        rw [ih its2 cs2 (by simpa using h)]
        simp [List.append_assoc]

theorem flatI_append (s : α) :
    ∀ (li : List α) (lc : List (Node α)), lc.length = li.length + 1 →
      ∀ (ri : List α) (rc : List (Node α)),
        flatI (lc ++ rc) (li ++ s :: ri) = flatI lc li ++ s :: flatI rc ri := by
  intro li
  induction li with
  | nil =>
    intro lc har ri rc
    match lc with
    | [] => simp at har
    | [c] => simp [flatI_cons_cons, flatI_cons_nil]
    | c :: c2 :: cs2 => simp at har
  | cons it li2 ih =>
    intro lc har ri rc
    match lc with
    | [] => simp at har
    | c :: cs2 =>
      simp only [List.cons_append, flatI_cons_cons]
      rw [ih cs2 (by simpa using har) ri rc]
      simp [List.append_assoc]

theorem nodeItems_leaf (its : List α) (cnt : Int) :
    nodeItems (Node.mk its none cnt) = its := rfl

theorem nodeItems_internal {its : List α} {cs : List (Node α)} {cnt : Int}
    (har : cs.length = its.length + 1) :
    nodeItems (Node.mk its (some cs) cnt) = flatI cs its := by
  have h1 : nodeItems (Node.mk its (some cs) cnt) = itemsInner cs its := rfl
  rw [h1, itemsInner_eq_flatI its cs har]

theorem nodeItems_ne_nil {mn mx : Nat} (hmn : 1 ≤ mn) :
    ∀ (h : Nat) {rt : Bool} {lo hi : Option α} {n : Node α},
      wfN mn mx rt h lo hi n = true → nodeItems n ≠ [] := by
  intro h
  induction h with
  | zero =>
    intro rt lo hi n hw
    obtain ⟨its, ch, cnt⟩ := n
    cases ch with
    | some cs => simp [wfN] at hw
    | none =>
      have h1 := wfN_nonempty hmn hw
      simpa [nodeItems_leaf, Node.items_mk] using h1
  | succ h ih =>
    intro rt lo hi n hw
    obtain ⟨its, ch, cnt⟩ := n
    cases ch with
    | none => simp [wfN] at hw
    | some cs =>
      simp only [wfN, Bool.and_eq_true, and_assoc, beq_iff_eq, bne_iff_ne,
        decide_eq_true_eq] at hw
      obtain ⟨-, -, -, -, har, hwl, -⟩ := hw
      match cs, har with
      | c :: cs2, har =>
        have hwc := wfL_get hwl 0 (Nat.zero_le _)
        have hcne : nodeItems c ≠ [] := by
          have := ih hwc
          simpa [List.getD_cons_zero] using this
        rw [nodeItems_internal har]
        cases its with
        | nil => simpa [flatI_cons_nil] using hcne
        | cons it its2 =>
          rw [flatI_cons_cons]
          intro hcontra
          exact hcne (List.append_eq_nil.mp hcontra).1

theorem nodeItems_bounds {mn mx : Nat} :
    ∀ (h : Nat) {rt : Bool} {lo hi : Option α} {n : Node α},
      wfN mn mx rt h lo hi n = true →
      ∀ x ∈ nodeItems n, lob lo (some x) = true ∧ lob (some x) hi = true := by
  intro h
  induction h with
  | zero =>
    intro rt lo hi n hw x hx
    obtain ⟨its, ch, cnt⟩ := n
    cases ch with
    | some cs => simp [wfN] at hw
    | none =>
      have hch := wfN_chainB hw
      simp only [Node.items_mk] at hch
      exact chainB_mem_bounds hch (by simpa [nodeItems_leaf] using hx)
  | succ h ih =>
    intro rt lo hi n hw x hx
    obtain ⟨its, ch, cnt⟩ := n
    cases ch with
    | none => simp [wfN] at hw
    | some cs =>
      simp only [wfN, Bool.and_eq_true, and_assoc, beq_iff_eq, bne_iff_ne,
        decide_eq_true_eq] at hw
      obtain ⟨-, -, -, hchn, har, hwl, -⟩ := hw
      have aux : ∀ (its2 : List α) (lo2 : Option α) (cs2 : List (Node α)),
          wfL mn mx h lo2 hi cs2 its2 = true → chainB lo2 hi its2 = true →
          ∀ y ∈ itemsInner cs2 its2, lob lo2 (some y) = true ∧ lob (some y) hi = true := by
        intro its2
        induction its2 with
        | nil =>
          intro lo2 cs2 hwl2 hch2 y hy
          match cs2 with
          | [] => simp [wfL] at hwl2
          | [c] =>
            have hwc : wfN mn mx false h lo2 hi c = true := by simpa [wfL] using hwl2
            exact ih hwc y (by simpa [itemsInner] using hy)
          | c :: c2 :: cs3 => simp [wfL] at hwl2
        | cons it its3 ihits =>
          intro lo2 cs2 hwl2 hch2 y hy
          match cs2 with
          | [] => simp [wfL] at hwl2
          | c :: cs3 =>
            have hwl3 : wfN mn mx false h lo2 (some it) c = true ∧
                wfL mn mx h (some it) hi cs3 its3 = true := by
              simpa [wfL, Bool.and_eq_true] using hwl2
            have hitb := chainB_mem_bounds hch2 (List.mem_cons_self it its3)
            have hch3 : chainB (some it) hi its3 = true := by
              simp only [chainB, Bool.and_eq_true] at hch2
              exact hch2.2
            match cs3, hwl3.2 with
            | [], hf => simp [wfL] at hf
            | c2 :: cs4, _ =>
              rw [itemsInner_cons_cons] at hy
              rcases List.mem_append.mp hy with hyc | hyr
              · have hb := ih hwl3.1 y hyc
                exact ⟨hb.1, lob_trans hb.2 hitb.2 (by simp)⟩
              · rcases List.mem_cons.mp hyr with hyit | hyrest
                · subst hyit
                  exact hitb
                · have hb := ihits (some it) (c2 :: cs4) hwl3.2 hch3 y hyrest
                  exact ⟨lob_trans hitb.1 hb.1 (by simp), hb.2⟩
      have hx2 : x ∈ itemsInner cs its := by
        have h1 : nodeItems (Node.mk its (some cs) cnt) = itemsInner cs its := rfl
        rwa [h1] at hx
      exact aux its lo cs hwl hchn x hx2


theorem seg_set2 {β : Type} :
    ∀ (i : Nat) (l : List β) (a b : β), i + 1 < l.length →
      (l.set i a).set (i + 1) b = l.take i ++ a :: b :: l.drop (i + 2) := by
  intro i
  induction i with
  | zero =>
    intro l a b h
    match l with
    | x :: y :: l2 => rfl
  | succ i ih =>
    intro l a b h
    match l with
    | x :: l2 =>
      simp only [List.set_cons_succ, List.take_succ_cons, List.drop_succ_cons]
      rw [ih l2 a b (by simpa using h)]
      simp

theorem seg_set_erase {β : Type} :
    ∀ (i : Nat) (l : List β) (a : β), i + 1 < l.length →
      (l.set i a).eraseIdx (i + 1) = l.take i ++ a :: l.drop (i + 2) := by
  intro i
  induction i with
  | zero =>
    intro l a h
    match l with
    | x :: y :: l2 => rfl
  | succ i ih =>
    intro l a h
    match l with
    | x :: l2 =>
      simp only [List.set_cons_succ, List.eraseIdx_cons_succ, List.take_succ_cons,
        List.drop_succ_cons]
      rw [ih l2 a (by simpa using h)]
      simp

theorem flatI_append_eq :
    ∀ (its1 : List α) (cs1 : List (Node α)), cs1.length = its1.length →
      ∀ (cs2 : List (Node α)) (its2 : List α),
        flatI (cs1 ++ cs2) (its1 ++ its2) = flatI cs1 its1 ++ flatI cs2 its2 := by
  intro its1
  induction its1 with
  | nil =>
    intro cs1 hlen cs2 its2
    match cs1 with
    | [] => simp [flatI_nil_left]
  | cons it its3 ih =>
    intro cs1 hlen cs2 its2
    match cs1 with
    | c :: cs3 =>
      simp only [List.cons_append, flatI_cons_cons]
      rw [ih cs3 (by simpa using hlen) cs2 its2]
      simp [List.append_assoc]

theorem flatI_pair_merge {n1 L R : Node α} {s : α}
    (hp : nodeItems n1 = nodeItems L ++ s :: nodeItems R) :
    ∀ (S : List (Node α)) (D : List α),
      flatI (n1 :: S) D = nodeItems L ++ s :: flatI (R :: S) D := by
  intro S D
  cases D with
  | nil => rw [flatI_cons_nil, flatI_cons_nil, hp]
  | cons d D2 =>
    rw [flatI_cons_cons, flatI_cons_cons, hp]
    simp [List.append_assoc]

theorem flatI_pair_rotate {l2 r2 L R : Node α} {m s : α}
    (hp : nodeItems l2 ++ m :: nodeItems r2 = nodeItems L ++ s :: nodeItems R) :
    ∀ (S : List (Node α)) (D : List α),
      flatI (l2 :: r2 :: S) (m :: D) = flatI (L :: R :: S) (s :: D) := by
  intro S D
  cases D with
  | nil =>
    rw [flatI_cons_cons, flatI_cons_nil, flatI_cons_cons, flatI_cons_nil]
    exact hp
  | cons d D2 =>
    rw [flatI_cons_cons, flatI_cons_cons, flatI_cons_cons, flatI_cons_cons]
    have h1 : nodeItems l2 ++ m :: (nodeItems r2 ++ d :: flatI S D2)
        = (nodeItems l2 ++ m :: nodeItems r2) ++ d :: flatI S D2 := by simp
    have h2 : nodeItems L ++ s :: (nodeItems R ++ d :: flatI S D2)
        = (nodeItems L ++ s :: nodeItems R) ++ d :: flatI S D2 := by simp
    rw [h1, h2, hp]

theorem wfD_leaf_h0 {mn mx h : Nat} {lo hi : Option α} {its : List α} {cnt : Int}
    (hw : wfD mn mx h lo hi (Node.mk its none cnt) = true) : h = 0 := by
  simp only [wfD, Bool.and_eq_true, and_assoc, beq_iff_eq, decide_eq_true_eq] at hw
  exact hw.1

theorem wfD_internal_h0 {mn mx h : Nat} {lo hi : Option α} {its : List α}
    {cs : List (Node α)} {cnt : Int}
    (hw : wfD mn mx h lo hi (Node.mk its (some cs) cnt) = true) : h ≠ 0 := by
  simp only [wfD, Bool.and_eq_true, and_assoc, beq_iff_eq, bne_iff_ne,
    decide_eq_true_eq] at hw
  exact hw.1

theorem wfD_internal_arity {mn mx h : Nat} {lo hi : Option α} {its : List α}
    {cs : List (Node α)} {cnt : Int}
    (hw : wfD mn mx h lo hi (Node.mk its (some cs) cnt) = true) :
    cs.length = its.length + 1 := by
  simp only [wfD, Bool.and_eq_true, and_assoc, beq_iff_eq, bne_iff_ne,
    decide_eq_true_eq] at hw
  exact hw.2.2.2.1

theorem dropLast_append_getD {β : Type} [Inhabited β] (l : List β) (h : l ≠ []) :
    l.dropLast ++ [l.getD (l.length - 1) default] = l := by
  have hlen : 0 < l.length := List.length_pos.mpr h
  rw [List.getD_eq_getElem _ _ (by omega)]
  rw [← List.getLast_eq_getElem l h]
  exact List.dropLast_append_getLast h

theorem cons_drop_getD {β : Type} [Inhabited β] (l : List β) (h : 0 < l.length) :
    l = l.getD 0 default :: l.drop 1 := by
  rw [List.getD_eq_getElem _ _ h]
  have h1 := List.drop_eq_getElem_cons h
  simpa using h1

/-- Positional toolkit: a merged pair stored at slot `i` (with separator and
right sibling removed) flattens to the original content. -/
theorem rebalance_merge_items {its : List α} {csx : List (Node α)} {cnt : Int} {i : Nat}
    (l2 : Node α)
    (hilt : i < its.length)
    (har : csx.length = its.length + 1)
    (hp : nodeItems l2 = nodeItems (csx.getD i default)
      ++ its.getD i default :: nodeItems (csx.getD (i + 1) default)) :
    nodeItems (Node.mk (its.eraseIdx i) (some ((csx.set i l2).eraseIdx (i + 1))) cnt)
      = flatI csx its := by
  have hi1 : i < csx.length := by omega
  have hi2 : i + 1 < csx.length := by omega
  have hEc : csx.take i ++ csx.getD i default :: csx.getD (i + 1) default
      :: csx.drop (i + 2) = csx := by
    rw [List.getD_eq_getElem csx default hi1, List.getD_eq_getElem csx default hi2]
    rw [← List.drop_eq_getElem_cons hi2, ← List.drop_eq_getElem_cons hi1]
    exact List.take_append_drop i csx
  have hEi : its.take i ++ its.getD i default :: its.drop (i + 1) = its := by
    rw [List.getD_eq_getElem its default hilt, ← List.drop_eq_getElem_cons hilt]
    exact List.take_append_drop i its
  have hlentk : (csx.take i).length = (its.take i).length := by
    rw [List.length_take, List.length_take]
    omega
  have hsplit : flatI csx its
      = flatI (csx.take i) (its.take i)
        ++ flatI (csx.getD i default :: csx.getD (i + 1) default :: csx.drop (i + 2))
             (its.getD i default :: its.drop (i + 1)) := by
    conv_lhs => rw [← hEc, ← hEi]
    exact flatI_append_eq _ _ hlentk _ _
  have harity : ((csx.set i l2).eraseIdx (i + 1)).length = (its.eraseIdx i).length + 1 := by
    rw [seg_set_erase i csx l2 hi2, List.eraseIdx_eq_take_drop_succ]
    simp only [List.length_append, List.length_take, List.length_cons, List.length_drop]
    omega
  rw [nodeItems_internal harity]
  rw [seg_set_erase i csx l2 hi2, List.eraseIdx_eq_take_drop_succ]
  rw [flatI_append_eq (its.take i) (csx.take i) hlentk]
  rw [flatI_pair_merge hp]
  rw [hsplit, flatI_cons_cons]

/-- Positional toolkit: a rotated pair stored at slots `i`, `i+1` with the
new separator `m` flattens to the original content. -/
theorem rebalance_rot_items {its : List α} {csx : List (Node α)} {cnt : Int} {i : Nat}
    (l2 r2 : Node α) (m : α)
    (hilt : i < its.length)
    (har : csx.length = its.length + 1)
    (hp : nodeItems l2 ++ m :: nodeItems r2
      = nodeItems (csx.getD i default)
        ++ its.getD i default :: nodeItems (csx.getD (i + 1) default)) :
    nodeItems (Node.mk (its.set i m) (some ((csx.set i l2).set (i + 1) r2)) cnt)
      = flatI csx its := by
  have hi1 : i < csx.length := by omega
  have hi2 : i + 1 < csx.length := by omega
  have hEc : csx.take i ++ csx.getD i default :: csx.getD (i + 1) default
      :: csx.drop (i + 2) = csx := by
    rw [List.getD_eq_getElem csx default hi1, List.getD_eq_getElem csx default hi2]
    rw [← List.drop_eq_getElem_cons hi2, ← List.drop_eq_getElem_cons hi1]
    exact List.take_append_drop i csx
  have hEi : its.take i ++ its.getD i default :: its.drop (i + 1) = its := by
    rw [List.getD_eq_getElem its default hilt, ← List.drop_eq_getElem_cons hilt]
    exact List.take_append_drop i its
  have hlentk : (csx.take i).length = (its.take i).length := by
    rw [List.length_take, List.length_take]
    omega
  have hsplit : flatI csx its
      = flatI (csx.take i) (its.take i)
        ++ flatI (csx.getD i default :: csx.getD (i + 1) default :: csx.drop (i + 2))
             (its.getD i default :: its.drop (i + 1)) := by
    conv_lhs => rw [← hEc, ← hEi]
    exact flatI_append_eq _ _ hlentk _ _
  have harity : ((csx.set i l2).set (i + 1) r2).length = (its.set i m).length + 1 := by
    rw [seg_set2 i csx l2 r2 hi2, List.set_eq_take_cons_drop m hilt]
    simp only [List.length_append, List.length_take, List.length_cons, List.length_drop]
    omega
  rw [nodeItems_internal harity]
  rw [seg_set2 i csx l2 r2 hi2, List.set_eq_take_cons_drop m hilt]
  rw [flatI_append_eq (its.take i) (csx.take i) hlentk]
  rw [flatI_pair_rotate hp]
  rw [hsplit]

/-- `nodeRebalance` (with the underflow index strictly inside the item
range) does not change the in-order content of the node. -/
theorem nodeRebalance_items {mn mx hh : Nat} {lo hi : Option α} {its : List α}
    {csx : List (Node α)} {cnt : Int} {i0 i : Nat}
    (hmx1 : 1 ≤ mx)
    (hi0 : (if i0 = its.length then i0 - 1 else i0) = i)
    (har : csx.length = its.length + 1)
    (hilt : i < its.length)
    (hLD : wfD mn mx hh (boundL lo its i) (some (its.getD i default))
      (csx.getD i default) = true)
    (hRD : wfD mn mx hh (some (its.getD i default)) (boundR hi its (i + 1))
      (csx.getD (i + 1) default) = true) :
    nodeItems (nodeRebalance mx (Node.mk its (some csx) cnt) i0) = flatI csx its := by
  rcases hLq : csx.getD i default with ⟨Li, Lch, Lcnt⟩
  rw [hLq] at hLD
  rcases hRq : csx.getD (i + 1) default with ⟨Ri, Rch, Rcnt⟩
  rw [hRq] at hRD
  simp only [nodeRebalance, Node.items_mk, Node.children_mk, Node.count_mk]
  rw [hi0]
  simp only [hLq, hRq, Node.items_mk, Node.children_mk, Node.count_mk]
  by_cases hmerge : Li.length + Ri.length < mx
  · rw [if_pos hmerge]
    cases Lch with
    | none =>
      cases Rch with
      | some rcs =>
        have h0L := wfD_leaf_h0 hLD
        have h0R := wfD_internal_h0 hRD
        omega
      | none =>
        exact rebalance_merge_items _ hilt har (by
          rw [hLq, hRq, nodeItems_leaf, nodeItems_leaf, nodeItems_leaf])
    | some lcs =>
      cases Rch with
      | none =>
        have h0L := wfD_internal_h0 hLD
        have h0R := wfD_leaf_h0 hRD
        omega
      | some rcs =>
        have harL := wfD_internal_arity hLD
        have harR := wfD_internal_arity hRD
        exact rebalance_merge_items _ hilt har (by
          rw [hLq, hRq]
          rw [nodeItems_internal (by simp; omega)]
          rw [nodeItems_internal harL, nodeItems_internal harR]
          exact flatI_append (its.getD i default) Li lcs harL Ri rcs)
  · rw [if_neg hmerge]
    by_cases hheavy : Li.length > Ri.length
    · rw [if_pos hheavy]
      have hLne : Li ≠ [] := by
        intro hnil
        rw [hnil] at hheavy
        simp at hheavy
      have hLback := dropLast_append_getD Li hLne
      cases Lch with
      | none =>
        cases Rch with
        | some rcs =>
          have h0L := wfD_leaf_h0 hLD
          have h0R := wfD_internal_h0 hRD
          omega
        | none =>
          exact rebalance_rot_items _ _ _ hilt har (by
            rw [hLq, hRq, nodeItems_leaf, nodeItems_leaf, nodeItems_leaf, nodeItems_leaf]
            conv_rhs => rw [← hLback]
            simp)
      | some lcs =>
        cases Rch with
        | none =>
          have h0L := wfD_internal_h0 hLD
          have h0R := wfD_leaf_h0 hRD
          omega
        | some rcs =>
          have harL := wfD_internal_arity hLD
          have harR := wfD_internal_arity hRD
          have hlcne : lcs ≠ [] := by
            intro hnil
            rw [hnil] at harL
            simp at harL
          have hlcback := dropLast_append_getD lcs hlcne
          exact rebalance_rot_items _ _ _ hilt har (by
            rw [hLq, hRq]
            simp only [Option.getD_some]
            rw [nodeItems_internal (by simp [List.length_dropLast]; omega)]
            rw [nodeItems_internal (by simp; omega)]
            rw [nodeItems_internal harL, nodeItems_internal harR]
            conv_rhs => rw [← hlcback, ← hLback]
            rw [flatI_append (Li.getD (Li.length - 1) default) Li.dropLast lcs.dropLast
              (by simp [List.length_dropLast]; omega) [] [lcs.getD (lcs.length - 1) default]]
            rw [flatI_cons_cons, flatI_cons_nil]
            simp [List.append_assoc])
    · rw [if_neg hheavy]
      have hRlen : 0 < Ri.length := by omega
      have hRback := cons_drop_getD Ri hRlen
      cases Lch with
      | none =>
        cases Rch with
        | some rcs =>
          have h0L := wfD_leaf_h0 hLD
          have h0R := wfD_internal_h0 hRD
          omega
        | none =>
          exact rebalance_rot_items _ _ _ hilt har (by
            rw [hLq, hRq, nodeItems_leaf, nodeItems_leaf, nodeItems_leaf, nodeItems_leaf]
            conv_rhs => rw [hRback]
            simp)
      | some lcs =>
        cases Rch with
        | none =>
          have h0L := wfD_internal_h0 hLD
          have h0R := wfD_leaf_h0 hRD
          omega
        | some rcs =>
          have harL := wfD_internal_arity hLD
          have harR := wfD_internal_arity hRD
          have hrclen : 0 < rcs.length := by omega
          have hrcback := cons_drop_getD rcs hrclen
          exact rebalance_rot_items _ _ _ hilt har (by
            rw [hLq, hRq]
            simp only [Option.getD_some]
            rw [nodeItems_internal (by simp; omega)]
            rw [nodeItems_internal (by simp [List.length_drop]; omega)]
            rw [nodeItems_internal harL, nodeItems_internal harR]
            conv_rhs => rw [hrcback, hRback]
            rw [flatI_append (its.getD i default) Li lcs harL
              [] [rcs.getD 0 default]]
            rw [flatI_cons_nil, flatI_cons_cons]
            simp [List.append_assoc])


/-- `afterChildDelete` at the content level: the node flattens to the
original separators interleaved with the children where slot `i` holds the
updated child. -/
theorem afterChildDelete_items {mn mx hh : Nat} {lo hi : Option α} {its' : List α}
    {cs : List (Node α)} {c' : Node α} {cnt : Int} {i : Nat}
    (hmx1 : 1 ≤ mx)
    (har : cs.length = its'.length + 1)
    (hits1 : 1 ≤ its'.length)
    (hii : i ≤ its'.length)
    (hok : ∀ j, j ≤ its'.length → j ≠ i →
      wfN mn mx false hh (boundL lo its' j) (boundR hi its' j) (cs.getD j default) = true)
    (hc' : wfD mn mx hh (boundL lo its' i) (boundR hi its' i) c' = true) :
    nodeItems (afterChildDelete mn mx its' cs i c' cnt) = flatI (cs.set i c') its' := by
  simp only [afterChildDelete]
  by_cases hunder : c'.items.length < mn
  · rw [if_pos hunder]
    by_cases hlast : i = its'.length
    · subst hlast
      have hLD : wfD mn mx hh (boundL lo its' (its'.length - 1))
          (some (its'.getD (its'.length - 1) default))
          ((cs.set its'.length c').getD (its'.length - 1) default) = true := by
        rw [getD_set_ne cs its'.length c' (its'.length - 1) (by omega)]
        have hbr : boundR hi its' (its'.length - 1)
            = some (its'.getD (its'.length - 1) default) := by
          unfold boundR
          rw [if_neg (by omega)]
        have hw := hok (its'.length - 1) (by omega) (by omega)
        rw [hbr] at hw
        exact wfD_of_wfN hw
      have hRD : wfD mn mx hh (some (its'.getD (its'.length - 1) default))
          (boundR hi its' (its'.length - 1 + 1))
          ((cs.set its'.length c').getD (its'.length - 1 + 1) default) = true := by
        have he : its'.length - 1 + 1 = its'.length := by omega
        rw [he, getD_set_eq (by omega)]
        have hbl : boundL lo its' its'.length
            = some (its'.getD (its'.length - 1) default) := by
          unfold boundL
          rw [if_neg (by omega)]
        rw [hbl] at hc'
        exact hc'
      exact nodeRebalance_items hmx1 (by rw [if_pos rfl])
        (by rw [List.length_set]; exact har) (by omega) hLD hRD
    · have hilt : i < its'.length := by omega
      have hLD : wfD mn mx hh (boundL lo its' i) (some (its'.getD i default))
          ((cs.set i c').getD i default) = true := by
        rw [getD_set_eq (by omega)]
        have hbr : boundR hi its' i = some (its'.getD i default) := by
          unfold boundR
          rw [if_neg hlast]
        rw [hbr] at hc'
        exact hc'
      have hRD : wfD mn mx hh (some (its'.getD i default)) (boundR hi its' (i + 1))
          ((cs.set i c').getD (i + 1) default) = true := by
        rw [getD_set_ne cs i c' (i + 1) (by omega)]
        have hw := hok (i + 1) (by omega) (by omega)
        have hbl : boundL lo its' (i + 1) = some (its'.getD i default) := by
          unfold boundL
          rw [if_neg (by omega)]
          simp
        rw [hbl] at hw
        exact wfD_of_wfN hw
      exact nodeRebalance_items hmx1 (by rw [if_neg hlast])
        (by rw [List.length_set]; exact har) hilt hLD hRD
  · rw [if_neg hunder]
    exact nodeItems_internal (by rw [List.length_set]; exact har)


/-- Content decomposition at the last child: the flattening splits as
prefix plus the last child's items, and replacing the last child replaces
exactly that suffix. -/
theorem flatI_decomp_last {its : List α} {cs : List (Node α)}
    (har : cs.length = its.length + 1) :
    flatI cs its = flatI (cs.take its.length) its ++ nodeItems (cs.getD its.length default)
    ∧ ∀ c2 : Node α, flatI (cs.set its.length c2) its
        = flatI (cs.take its.length) its ++ nodeItems c2 := by
  have hlt : its.length < cs.length := by omega
  have hdropnil : cs.drop (its.length + 1) = [] := by
    have h1 : cs.length ≤ its.length + 1 := by omega
    exact List.drop_eq_nil_of_le h1
  have hEc : cs = cs.take its.length ++ [cs.getD its.length default] := by
    conv_lhs => rw [← List.take_append_drop its.length cs]
    rw [List.getD_eq_getElem cs default hlt]
    rw [List.drop_eq_getElem_cons hlt, hdropnil]
  have htklen : (cs.take its.length).length = its.length := by
    rw [List.length_take]
    omega
  constructor
  · conv_lhs => rw [hEc]
    have h2 : flatI (cs.take its.length ++ [cs.getD its.length default]) (its ++ [])
        = flatI (cs.take its.length) its ++ flatI [cs.getD its.length default] [] :=
      flatI_append_eq its (cs.take its.length) htklen _ _
    rw [List.append_nil] at h2
    rw [h2, flatI_cons_nil]
  · intro c2
    rw [List.set_eq_take_cons_drop c2 hlt, hdropnil]
    have h2 : flatI (cs.take its.length ++ [c2]) (its ++ [])
        = flatI (cs.take its.length) its ++ flatI [c2] [] :=
      flatI_append_eq its (cs.take its.length) htklen _ _
    rw [List.append_nil] at h2
    rw [h2, flatI_cons_nil]

/-- Content decomposition at an interior child `i < |its|`: prefix, the
child, the separator, and a suffix; replacing the child and the separator
replaces exactly those two segments. -/
theorem flatI_decomp_sep {its : List α} {cs : List (Node α)} {i : Nat}
    (hilt : i < its.length)
    (har : cs.length = its.length + 1) :
    ∃ P T : List α,
      flatI cs its = P ++ nodeItems (cs.getD i default) ++ its.getD i default :: T
      ∧ ∀ (c2 : Node α) (m : α), flatI (cs.set i c2) (its.set i m)
          = P ++ nodeItems c2 ++ m :: T := by
  have hi1 : i < cs.length := by omega
  have htklen : (cs.take i).length = (its.take i).length := by
    rw [List.length_take, List.length_take]
    omega
  refine ⟨flatI (cs.take i) (its.take i), flatI (cs.drop (i + 1)) (its.drop (i + 1)),
    ?_, ?_⟩
  · have hEc : cs = cs.take i ++ cs.getD i default :: cs.drop (i + 1) := by
      conv_lhs => rw [← List.take_append_drop i cs]
      rw [List.getD_eq_getElem cs default hi1, List.drop_eq_getElem_cons hi1]
    have hEi : its = its.take i ++ its.getD i default :: its.drop (i + 1) := by
      conv_lhs => rw [← List.take_append_drop i its]
      rw [List.getD_eq_getElem its default hilt, List.drop_eq_getElem_cons hilt]
    conv_lhs => rw [hEc, hEi]
    rw [flatI_append_eq (its.take i) (cs.take i) htklen, flatI_cons_cons]
    simp [List.append_assoc]
  · intro c2 m
    rw [List.set_eq_take_cons_drop c2 hi1, List.set_eq_take_cons_drop m hilt]
    rw [flatI_append_eq (its.take i) (cs.take i) htklen, flatI_cons_cons]
    simp [List.append_assoc]


/-- `delete` at the content level: a `takeMax` run extracts exactly the last
in-order item; a keyed run that reports `deleted` returns the key itself and
removes exactly one occurrence of it from the in-order sequence. -/
theorem delete_content {mn mx : Nat} (hmn : 1 ≤ mn) (hmx : mx = 2 * mn + 1) :
    ∀ (fuel : Nat) {h : Nat} {rt : Bool} {lo hi : Option α} {n : Node α}
      {takeMax : Bool} {key : α} {hint : Option PathHint} {depth : Nat}
      {res : Node α × α × Bool × Option PathHint},
      wfN mn mx rt h lo hi n = true →
      delete mn mx n takeMax key hint depth fuel = some res →
      (takeMax = true → nodeItems res.1 ++ [res.2.1] = nodeItems n) ∧
      (takeMax = false → res.2.2.1 = true →
        res.2.1 = key ∧
        ∃ A B : List α, nodeItems n = A ++ key :: B ∧ nodeItems res.1 = A ++ B) := by
  intro fuel
  induction fuel with
  | zero =>
    intro h rt lo hi n takeMax key hint depth res hw hrun
    simp [delete] at hrun
  | succ fuel ih =>
    intro h rt lo hi n takeMax key hint depth res hw hrun
    obtain ⟨its, ch, cnt⟩ := n
    have hocc := wfN_occupancy hw
    simp only [Node.items_mk] at hocc
    have hsorted : its.Pairwise (· < ·) := by
      have h1 := wfN_sorted hw
      simpa [Node.items_mk] using h1
    have hlen1 : 1 ≤ its.length := by
      cases rt with
      | false => have := hocc.2.1 rfl; omega
      | true => exact hocc.1 rfl
    cases takeMax with
    | true =>
      cases ch with
      | none =>
        simp only [delete, Node.items_mk, Node.children_mk, Node.count_mk,
          eq_self_iff_true, if_true] at hrun
        injection hrun with hrun
        subst hrun
        refine ⟨fun _ => ?_, fun hx => by simp at hx⟩
        have hne : its ≠ [] := List.length_pos.mp (by omega)
        show its.eraseIdx (its.length - 1) ++ [its.getD (its.length - 1) default] = its
        have hdropE : its.eraseIdx (its.length - 1) = its.dropLast := by
          rw [List.eraseIdx_eq_take_drop_succ]
          have he : its.length - 1 + 1 = its.length := by omega
          rw [he, List.drop_length, List.append_nil, List.dropLast_eq_take]
        rw [hdropE]
        exact dropLast_append_getD its hne
      | some cs =>
        simp only [delete, Node.items_mk, Node.children_mk, Node.count_mk,
          eq_self_iff_true, if_true] at hrun
        have he1 : its.length - 1 + 1 = its.length := by omega
        rw [he1] at hrun
        simp only [wfN, Bool.and_eq_true, and_assoc, beq_iff_eq, bne_iff_ne,
          decide_eq_true_eq] at hw
        obtain ⟨h0, -, hle, hchn, har, hwl, hcnt⟩ := hw
        have hwc := wfL_get hwl its.length (le_refl _)
        rcases hrec : delete mn mx (cs.getD its.length default) true default none 0 fuel
          with - | ⟨c', prevM, deletedC, hintC⟩
        · rw [hrec] at hrun
          exact Option.noConfusion hrun
        · have ihc := ih hwc hrec
          simp only [] at ihc
          have hDw := delete_wf hmn hmx fuel hwc hrec
          simp only [] at hDw
          simp only [hrec] at hrun
          by_cases hdel : deletedC = true
          · rw [hdel] at hrun
            rw [if_neg (by simp)] at hrun
            injection hrun with hrun
            subst hrun
            refine ⟨fun _ => ?_, fun hx => by simp at hx⟩
            obtain ⟨hA, hB, hC, hD1, hD2, hE⟩ := hDw.2.2 hdel
            have hok : ∀ j, j ≤ its.length → j ≠ its.length →
                wfN mn mx false (h - 1) (boundL lo its j) (boundR hi its j)
                  (cs.getD j default) = true := fun j hj _ => wfL_get hwl j hj
            have hitems := @afterChildDelete_items α _ _ mn mx (h - 1) lo hi its cs c' cnt
              its.length (by omega) har hlen1 (le_refl _) hok hA
            have hpair := ihc.1 trivial
            have hdec := flatI_decomp_last har
            show nodeItems (afterChildDelete mn mx its cs its.length c' cnt) ++ [prevM]
              = nodeItems (Node.mk its (some cs) cnt)
            rw [hitems, nodeItems_internal har, hdec.2 c', hdec.1]
            rw [List.append_assoc, hpair]
          · rw [if_pos hdel] at hrun
            exact absurd (hDw.2.1 trivial) hdel
    | false =>
      cases ch with
      | none =>
        simp only [delete, Node.items_mk, Node.children_mk, Node.count_mk,
          Bool.false_eq_true, if_false] at hrun
        have hne : its ≠ [] := List.length_pos.mp (by omega)
        have hfr : (find (Node.mk its none cnt) key hint depth).1 = bsearch its key := by
          have h1 := find_fst_eq_bsearch (Node.mk its none cnt) key hint depth
            (by simpa [Node.items_mk] using hsorted) (by simpa [Node.items_mk] using hne)
          simpa [Node.items_mk] using h1
        rw [hfr] at hrun
        have hbs := bsearch_spec its key hsorted
        by_cases hfound : (bsearch its key).2 = true
        · rw [if_pos hfound] at hrun
          injection hrun with hrun
          subst hrun
          obtain ⟨hilt, hkey⟩ := hbs.1 hfound
          refine ⟨fun hx => by simp at hx, fun _ _ => ?_⟩
          refine ⟨hkey, its.take (bsearch its key).1, its.drop ((bsearch its key).1 + 1),
            ?_, ?_⟩
          · show its = _ ++ key :: _
            conv_lhs => rw [← List.take_append_drop (bsearch its key).1 its]
            rw [List.drop_eq_getElem_cons hilt,
              ← List.getD_eq_getElem its default hilt, hkey]
          · show its.eraseIdx (bsearch its key).1 = _ ++ _
            rw [List.eraseIdx_eq_take_drop_succ]
        · rw [if_neg hfound] at hrun
          injection hrun with hrun
          subst hrun
          exact ⟨fun hx => by simp at hx, fun _ hx => by simp at hx⟩
      | some cs =>
        simp only [delete, Node.items_mk, Node.children_mk, Node.count_mk,
          Bool.false_eq_true, if_false] at hrun
        have hne : its ≠ [] := List.length_pos.mp (by omega)
        have hfr : (find (Node.mk its (some cs) cnt) key hint depth).1
            = bsearch its key := by
          have h1 := find_fst_eq_bsearch (Node.mk its (some cs) cnt) key hint depth
            (by simpa [Node.items_mk] using hsorted) (by simpa [Node.items_mk] using hne)
          simpa [Node.items_mk] using h1
        rw [hfr] at hrun
        have hbs := bsearch_spec its key hsorted
        simp only [wfN, Bool.and_eq_true, and_assoc, beq_iff_eq, bne_iff_ne,
          decide_eq_true_eq] at hw
        obtain ⟨h0, -, hle, hchn, har, hwl, hcnt⟩ := hw
        by_cases hfound : (bsearch its key).2 = true
        · rw [if_pos hfound] at hrun
          obtain ⟨hilt, hkey⟩ := hbs.1 hfound
          have hwc := wfL_get hwl (bsearch its key).1 (le_of_lt hilt)
          rcases hrec : delete mn mx (cs.getD (bsearch its key).1 default) true default
              none 0 fuel with - | ⟨c', maxItem, deletedC, hintC⟩
          · rw [hrec] at hrun
            exact Option.noConfusion hrun
          · have ihc := ih hwc hrec
            simp only [] at ihc
            have hDw := delete_wf hmn hmx fuel hwc hrec
            simp only [] at hDw
            simp only [hrec] at hrun
            injection hrun with hrun
            subst hrun
            have hdelC : deletedC = true := hDw.2.1 trivial
            obtain ⟨ihA, ihB, ihC, ihD1, ihD2, ihE⟩ := hDw.2.2 hdelC
            have hbRi : boundR hi its (bsearch its key).1
                = some (its.getD (bsearch its key).1 default) := by
              unfold boundR
              rw [if_neg (by omega)]
            have hmax_lt : maxItem < its.getD (bsearch its key).1 default := by
              have h2 := ihD2
              rw [hbRi] at h2
              simpa [lob] using h2
            have hokS : ∀ j, j ≤ (its.set (bsearch its key).1 maxItem).length →
                j ≠ (bsearch its key).1 →
                wfN mn mx false (h - 1)
                  (boundL lo (its.set (bsearch its key).1 maxItem) j)
                  (boundR hi (its.set (bsearch its key).1 maxItem) j)
                  (cs.getD j default) = true := by
              intro j hj hjne
              rw [List.length_set] at hj
              by_cases hj1 : j = (bsearch its key).1 + 1
              · subst hj1
                rw [boundL_set_eq hilt, boundR_set_ne (by omega)]
                have hwcj := wfL_get hwl ((bsearch its key).1 + 1) (by omega)
                have hbL1 : boundL lo its ((bsearch its key).1 + 1)
                    = some (its.getD (bsearch its key).1 default) := by
                  unfold boundL
                  rw [if_neg (by omega)]
                  simp
                rw [hbL1] at hwcj
                exact wfN_weaken_lo (h - 1) hwcj (by simpa [lob] using hmax_lt)
              · rw [boundL_set_ne hj1, boundR_set_ne hjne]
                exact wfL_get hwl j hj
            have hcS : wfD mn mx (h - 1)
                (boundL lo (its.set (bsearch its key).1 maxItem) (bsearch its key).1)
                (boundR hi (its.set (bsearch its key).1 maxItem) (bsearch its key).1)
                c' = true := by
              rw [boundL_set_ne (by omega), boundR_set_eq hilt]
              exact ihE trivial
            have harS : cs.length = (its.set (bsearch its key).1 maxItem).length + 1 := by
              rw [List.length_set]; exact har
            have hits1S : 1 ≤ (its.set (bsearch its key).1 maxItem).length := by
              rw [List.length_set]; exact hlen1
            have hiiS : (bsearch its key).1
                ≤ (its.set (bsearch its key).1 maxItem).length := by
              rw [List.length_set]; omega
            have hitems := @afterChildDelete_items α _ _ mn mx (h - 1) lo hi
              (its.set (bsearch its key).1 maxItem) cs c' cnt (bsearch its key).1
              (by omega) harS hits1S hiiS hokS hcS
            refine ⟨fun hx => by simp at hx, fun _ _ => ?_⟩
            have hpair := ihc.1 trivial
            obtain ⟨P, T, hdec1, hdec2⟩ := flatI_decomp_sep hilt har
            refine ⟨hkey, P ++ (nodeItems c' ++ [maxItem]), T, ?_, ?_⟩
            · show nodeItems (Node.mk its (some cs) cnt) = _
              rw [nodeItems_internal har, hdec1, ← hpair, hkey]
            · show nodeItems (afterChildDelete mn mx (its.set (bsearch its key).1 maxItem)
                cs (bsearch its key).1 c' cnt) = _
              rw [hitems, hdec2 c' maxItem]
              simp [List.append_assoc]
        · rw [if_neg hfound] at hrun
          obtain ⟨hile, hbef, haft⟩ := hbs.2 (eq_false_of_ne_true hfound)
          have hwc := wfL_get hwl (bsearch its key).1 hile
          rcases hrec : delete mn mx (cs.getD (bsearch its key).1 default) false key
              ((find (Node.mk its (some cs) cnt) key hint depth).2) (depth + 1) fuel
            with - | ⟨c', prev2, deletedC, hint2C⟩
          · rw [hrec] at hrun
            exact Option.noConfusion hrun
          · have ihc := ih hwc hrec
            simp only [] at ihc
            have hDw := delete_wf hmn hmx fuel hwc hrec
            simp only [] at hDw
            simp only [hrec] at hrun
            by_cases hdel : deletedC = true
            · rw [hdel] at hrun
              rw [if_neg (by simp)] at hrun
              injection hrun with hrun
              subst hrun
              obtain ⟨hA, hB2, hC, hD1, hD2, -⟩ := hDw.2.2 hdel
              have hok : ∀ j, j ≤ its.length → j ≠ (bsearch its key).1 →
                  wfN mn mx false (h - 1) (boundL lo its j) (boundR hi its j)
                    (cs.getD j default) = true := fun j hj _ => wfL_get hwl j hj
              have hitems := @afterChildDelete_items α _ _ mn mx (h - 1) lo hi its cs c' cnt
                (bsearch its key).1 (by omega) har hlen1 hile hok hA
              refine ⟨fun hx => by simp at hx, fun _ _ => ?_⟩
              obtain ⟨hprevk, A2, B2, hcd1, hcd2⟩ := ihc.2 trivial hdel
              by_cases hilast : (bsearch its key).1 = its.length
              · have hdec := flatI_decomp_last har
                rw [hilast] at hcd1
                refine ⟨hprevk, flatI (cs.take its.length) its ++ A2, B2, ?_, ?_⟩
                · show nodeItems (Node.mk its (some cs) cnt) = _
                  rw [nodeItems_internal har, hdec.1, hcd1]
                  simp [List.append_assoc]
                · show nodeItems (afterChildDelete mn mx its cs (bsearch its key).1 c' cnt)
                    = _
                  rw [hitems, hilast, hdec.2 c', hcd2]
                  simp [List.append_assoc]
              · have hilt2 : (bsearch its key).1 < its.length := by omega
                obtain ⟨P, T, hdec1, hdec2⟩ := flatI_decomp_sep hilt2 har
                have hsetid : its.set (bsearch its key).1
                    (its.getD (bsearch its key).1 default) = its := by
                  rw [List.set_eq_take_cons_drop _ hilt2]
                  rw [List.getD_eq_getElem its default hilt2,
                    ← List.drop_eq_getElem_cons hilt2]
                  exact List.take_append_drop _ its
                refine ⟨hprevk, P ++ A2, B2 ++ its.getD (bsearch its key).1 default :: T,
                  ?_, ?_⟩
                · show nodeItems (Node.mk its (some cs) cnt) = _
                  rw [nodeItems_internal har, hdec1, hcd1]
                  simp [List.append_assoc]
                · show nodeItems (afterChildDelete mn mx its cs (bsearch its key).1 c' cnt)
                    = _
                  have hd2 := hdec2 c' (its.getD (bsearch its key).1 default)
                  rw [hsetid] at hd2
                  rw [hitems, hd2, hcd2]
                  simp [List.append_assoc]
            · rw [if_pos hdel] at hrun
              injection hrun with hrun
              subst hrun
              exact ⟨fun hx => by simp at hx, fun _ hx => by simp at hx⟩


theorem mem_flatI {key : α} :
    ∀ (its : List α) (cs : List (Node α)), key ∈ flatI cs its →
      key ∈ its ∨ ∃ j, j < cs.length ∧ key ∈ nodeItems (cs.getD j default) := by
  intro its
  induction its with
  | nil =>
    intro cs hmem
    match cs with
    | [] => simp [flatI_nil_left] at hmem
    | c :: cs2 =>
      rw [flatI_cons_nil] at hmem
      exact Or.inr ⟨0, by simp, by simpa using hmem⟩
  | cons it its2 ih =>
    intro cs hmem
    match cs with
    | [] => simp [flatI_nil_left] at hmem
    | c :: cs2 =>
      rw [flatI_cons_cons] at hmem
      rcases List.mem_append.mp hmem with hc | hrest
      · exact Or.inr ⟨0, by simp, by simpa using hc⟩
      · rcases List.mem_cons.mp hrest with hit | htail
        · exact Or.inl (by simp [hit])
        · rcases ih cs2 htail with hin | ⟨j, hj, hjin⟩
          · exact Or.inl (List.mem_cons_of_mem _ hin)
          · exact Or.inr ⟨j + 1, by simpa using hj, by simpa using hjin⟩

/-- A keyed (non-`takeMax`) `delete` on a well-formed node containing the
key always reports a deletion. -/
theorem delete_found {mn mx : Nat} (hmn : 1 ≤ mn) (hmx : mx = 2 * mn + 1) :
    ∀ (fuel : Nat) {h : Nat} {rt : Bool} {lo hi : Option α} {n : Node α}
      {key : α} {hint : Option PathHint} {depth : Nat}
      {res : Node α × α × Bool × Option PathHint},
      wfN mn mx rt h lo hi n = true →
      key ∈ nodeItems n →
      delete mn mx n false key hint depth fuel = some res →
      res.2.2.1 = true := by
  intro fuel
  induction fuel with
  | zero =>
    intro h rt lo hi n key hint depth res hw hmem hrun
    simp [delete] at hrun
  | succ fuel ih =>
    intro h rt lo hi n key hint depth res hw hmem hrun
    obtain ⟨its, ch, cnt⟩ := n
    have hocc := wfN_occupancy hw
    simp only [Node.items_mk] at hocc
    have hsorted : its.Pairwise (· < ·) := by
      have h1 := wfN_sorted hw
      simpa [Node.items_mk] using h1
    have hlen1 : 1 ≤ its.length := by
      cases rt with
      | false => have := hocc.2.1 rfl; omega
      | true => exact hocc.1 rfl
    have hne : its ≠ [] := List.length_pos.mp (by omega)
    cases ch with
    | none =>
      simp only [delete, Node.items_mk, Node.children_mk, Node.count_mk,
        Bool.false_eq_true, if_false] at hrun
      have hfr : (find (Node.mk its none cnt) key hint depth).1 = bsearch its key := by
        have h1 := find_fst_eq_bsearch (Node.mk its none cnt) key hint depth
          (by simpa [Node.items_mk] using hsorted) (by simpa [Node.items_mk] using hne)
        simpa [Node.items_mk] using h1
      rw [hfr] at hrun
      have hbs := bsearch_spec its key hsorted
      by_cases hfound : (bsearch its key).2 = true
      · rw [if_pos hfound] at hrun
        injection hrun with hrun
        subst hrun
        rfl
      · exfalso
        obtain ⟨hile, hbef, haft⟩ := hbs.2 (eq_false_of_ne_true hfound)
        have hmem2 : key ∈ its := by simpa [nodeItems_leaf] using hmem
        obtain ⟨j, hj, hjeq⟩ := List.mem_iff_getElem.mp hmem2
        have hjg : its.getD j default = key := by
          rw [List.getD_eq_getElem its default hj, hjeq]
        by_cases hji : j < (bsearch its key).1
        · have h2 := hbef j hji
          rw [hjg] at h2
          exact lt_irrefl _ h2
        · have h2 := haft j (by omega) hj
          rw [hjg] at h2
          exact lt_irrefl _ h2
    | some cs =>
      simp only [delete, Node.items_mk, Node.children_mk, Node.count_mk,
        Bool.false_eq_true, if_false] at hrun
      have hfr : (find (Node.mk its (some cs) cnt) key hint depth).1
          = bsearch its key := by
        have h1 := find_fst_eq_bsearch (Node.mk its (some cs) cnt) key hint depth
          (by simpa [Node.items_mk] using hsorted) (by simpa [Node.items_mk] using hne)
        simpa [Node.items_mk] using h1
      rw [hfr] at hrun
      have hbs := bsearch_spec its key hsorted
      simp only [wfN, Bool.and_eq_true, and_assoc, beq_iff_eq, bne_iff_ne,
        decide_eq_true_eq] at hw
      obtain ⟨h0, -, hle, hchn, har, hwl, hcnt⟩ := hw
      by_cases hfound : (bsearch its key).2 = true
      · rw [if_pos hfound] at hrun
        rcases hrec : delete mn mx (cs.getD (bsearch its key).1 default) true default
            none 0 fuel with - | ⟨c', maxItem, deletedC, hintC⟩
        · rw [hrec] at hrun
          exact Option.noConfusion hrun
        · simp only [hrec] at hrun
          injection hrun with hrun
          subst hrun
          rfl
      · rw [if_neg hfound] at hrun
        obtain ⟨hile, hbef, haft⟩ := hbs.2 (eq_false_of_ne_true hfound)
        have hnotits : key ∉ its := by
          intro hmem2
          obtain ⟨j, hj, hjeq⟩ := List.mem_iff_getElem.mp hmem2
          have hjg : its.getD j default = key := by
            rw [List.getD_eq_getElem its default hj, hjeq]
          by_cases hji : j < (bsearch its key).1
          · have h2 := hbef j hji
            rw [hjg] at h2
            exact lt_irrefl _ h2
          · have h2 := haft j (by omega) hj
            rw [hjg] at h2
            exact lt_irrefl _ h2
        have hmemf : key ∈ flatI cs its := by
          have h1 : nodeItems (Node.mk its (some cs) cnt) = flatI cs its :=
            nodeItems_internal har
          rwa [h1] at hmem
        rcases mem_flatI its cs hmemf with hin | ⟨j, hj, hjin⟩
        · exact absurd hin hnotits
        · have hjle : j ≤ its.length := by omega
          have hji : j = (bsearch its key).1 := by
            by_contra hjne
            have hb := nodeItems_bounds (h - 1) (wfL_get hwl j hjle) key hjin
            by_cases hjlt : j < (bsearch its key).1
            · have hbr : boundR hi its j = some (its.getD j default) := by
                unfold boundR
                rw [if_neg (by omega)]
              have h2 := hb.2
              rw [hbr] at h2
              simp only [lob, decide_eq_true_eq] at h2
              have h3 := hbef j hjlt
              exact lt_irrefl _ (lt_trans h2 h3)
            · have hjgt : (bsearch its key).1 < j := by omega
              have hbl : boundL lo its j = some (its.getD (j - 1) default) := by
                unfold boundL
                rw [if_neg (by omega)]
              have h2 := hb.1
              rw [hbl] at h2
              simp only [lob, decide_eq_true_eq] at h2
              have h3 := haft (j - 1) (by omega) (by omega)
              exact lt_irrefl _ (lt_trans h2 h3)
          rw [← hji] at hrun
          rcases hrec : delete mn mx (cs.getD j default) false key
              ((find (Node.mk its (some cs) cnt) key hint depth).2) (depth + 1) fuel
            with - | ⟨c', prev2, deletedC, hint2C⟩
          · rw [hrec] at hrun
            exact Option.noConfusion hrun
          · have hdelC := ih (wfL_get hwl j hjle) hjin hrec
            simp only [] at hdelC
            simp only [hrec] at hrun
            rw [hdelC] at hrun
            rw [if_neg (by simp)] at hrun
            injection hrun with hrun
            subst hrun
            rfl


theorem drop_one_append {β : Type} (A B : List β) (h : A ≠ []) :
    (A ++ B).drop 1 = A.drop 1 ++ B := by
  cases A with
  | nil => exact absurd rfl h
  | cons x A2 => rfl

theorem getD_zero_append {β : Type} [Inhabited β] (A B : List β) (h : A ≠ []) :
    (A ++ B).getD 0 default = A.getD 0 default := by
  have hlen : 0 < A.length := List.length_pos.mpr h
  exact List.getD_append A B default 0 hlen

theorem getD_last_append {β : Type} [Inhabited β] (A B : List β) (h : B ≠ []) :
    (A ++ B).getD ((A ++ B).length - 1) default = B.getD (B.length - 1) default := by
  have hlen : 0 < B.length := List.length_pos.mpr h
  rw [List.length_append]
  rw [List.getD_eq_getElem _ default (by rw [List.length_append]; omega)]
  rw [List.getD_eq_getElem _ default (by omega)]
  rw [List.getElem_append_right (by omega)]
  congr 1
  omega

theorem dropLast_append_right {β : Type} (A B : List β) (h : B ≠ []) :
    (A ++ B).dropLast = A ++ B.dropLast := by
  rw [List.dropLast_eq_take, List.dropLast_eq_take]
  have hlen : 0 < B.length := List.length_pos.mpr h
  rw [List.length_append]
  rw [List.take_append_eq_append_take]
  have h1 : A.length + B.length - 1 ≤ A.length + (B.length - 1) := by omega
  have h2 : A.take (A.length + B.length - 1) = A := List.take_of_length_le (by omega)
  rw [h2]
  have h3 : A.length + B.length - 1 - A.length = B.length - 1 := by omega
  rw [h3]

/-- `popMinGo` (the optimistic leftmost descent of `PopMin`): when it
commits (`some` node), the returned item is the subtree minimum, the new
node drops exactly that first item, stays structurally well-formed with the
count decremented, and non-root occupancy is preserved. -/
theorem popMinGo_wf {mn mx : Nat} (hmn : 1 ≤ mn) :
    ∀ (fuel : Nat) {h : Nat} {rt : Bool} {lo hi : Option α} {n : Node α}
      {res : α × Option (Node α)},
      wfN mn mx rt h lo hi n = true →
      popMinGo mn n fuel = some res →
      res.1 = (nodeItems n).getD 0 default ∧
      ∀ n', res.2 = some n' →
        wfD mn mx h lo hi n' = true ∧
        n'.count = n.count - 1 ∧
        (rt = false → mn ≤ n'.items.length) ∧
        (n'.count = 0 ∨ 1 ≤ n'.items.length) ∧
        nodeItems n' = (nodeItems n).drop 1 := by
  intro fuel
  induction fuel with
  | zero =>
    intro h rt lo hi n res hw hrun
    simp [popMinGo] at hrun
  | succ fuel ih =>
    intro h rt lo hi n res hw hrun
    obtain ⟨its, ch, cnt⟩ := n
    have hocc := wfN_occupancy hw
    simp only [Node.items_mk] at hocc
    have hlen1 : 1 ≤ its.length := by
      cases rt with
      | false => have := hocc.2.1 rfl; omega
      | true => exact hocc.1 rfl
    cases ch with
    | none =>
      simp only [popMinGo, Node.items_mk, Node.children_mk, Node.count_mk] at hrun
      simp only [wfN, Bool.and_eq_true, and_assoc, beq_iff_eq,
        decide_eq_true_eq] at hw
      obtain ⟨h0, -, hle, hchn, hcnt⟩ := hw
      by_cases hunder : its.length = mn
      · rw [if_pos hunder] at hrun
        injection hrun with hrun
        subst hrun
        exact ⟨rfl, fun n' hx => by simp at hx⟩
      · rw [if_neg hunder] at hrun
        injection hrun with hrun
        subst hrun
        refine ⟨rfl, fun n' hx => ?_⟩
        have hx2 : (Node.mk (its.eraseIdx 0) none (cnt - 1)) = n' := by
          injection hx
        subst hx2
        have hdrop : its.eraseIdx 0 = its.drop 1 := by
          cases its with
          | nil => simp at hlen1
          | cons x its2 => rfl
        refine ⟨?_, by simp [Node.count_mk], ?_, ?_, ?_⟩
        · simp only [wfD, Bool.and_eq_true, and_assoc, beq_iff_eq,
            decide_eq_true_eq, Node.items_mk, Node.count_mk]
          refine ⟨h0, ?_, chainB_eraseIdx _ hchn, ?_⟩
          · rw [hdrop, List.length_drop]; omega
          · rw [hdrop, List.length_drop, hcnt]; omega
        · intro hrt
          have := hocc.2.1 hrt
          simp only [Node.items_mk]
          rw [hdrop, List.length_drop]
          omega
        · by_cases hz2 : its.length = 1
          · left
            show cnt - 1 = 0
            rw [hcnt]
            omega
          · right
            show 1 ≤ (its.eraseIdx 0).length
            rw [hdrop, List.length_drop]
            omega
        · simp only [nodeItems_leaf, Node.items_mk]
          rw [hdrop]
    | some cs =>
      simp only [popMinGo, Node.items_mk, Node.children_mk, Node.count_mk] at hrun
      simp only [wfN, Bool.and_eq_true, and_assoc, beq_iff_eq, bne_iff_ne,
        decide_eq_true_eq] at hw
      obtain ⟨h0, -, hle, hchn, har, hwl, hcnt⟩ := hw
      have hwc := wfL_get hwl 0 (Nat.zero_le _)
      rcases hrec : popMinGo mn (cs.getD 0 default) fuel with - | ⟨item, oc⟩
      · rw [hrec] at hrun
        exact Option.noConfusion hrun
      · have ihc := ih hwc hrec
        simp only [] at ihc
        simp only [hrec] at hrun
        have hcne : nodeItems (cs.getD 0 default) ≠ [] :=
          nodeItems_ne_nil hmn (h - 1) hwc
        obtain ⟨c0, cs2, hcs⟩ : ∃ c0 cs2, cs = c0 :: cs2 := by
          match cs, har with
          | c0 :: cs2, _ => exact ⟨c0, cs2, rfl⟩
        have hhead : (nodeItems (Node.mk its (some cs) cnt)).getD 0 default
            = (nodeItems (cs.getD 0 default)).getD 0 default := by
          rw [nodeItems_internal har, hcs]
          cases its with
          | nil => rw [flatI_cons_nil]; simp [hcs]
          | cons it its2 =>
            rw [flatI_cons_cons]
            rw [getD_zero_append _ _ (by simpa [hcs] using hcne)]
            simp [hcs]
        cases oc with
        | none =>
          injection hrun with hrun
          subst hrun
          refine ⟨?_, fun n' hx => by simp at hx⟩
          rw [hhead]
          exact ihc.1
        | some c' =>
          injection hrun with hrun
          subst hrun
          obtain ⟨hcA, hcB, hcC, hcO, hcD⟩ := ihc.2 c' rfl
          refine ⟨by rw [hhead]; exact ihc.1, fun n' hx => ?_⟩
          have hx2 : (Node.mk its (some (cs.set 0 c')) (cnt - 1)) = n' := by
            injection hx
          subst hx2
          have hwc' : wfN mn mx false (h - 1) (boundL lo its 0) (boundR hi its 0) c' :=
            wfN_of_wfD hcA (fun hx => by simp at hx) (fun _ => hcC trivial)
          refine ⟨?_, by simp [Node.count_mk], ?_, Or.inr hlen1, ?_⟩
          · simp only [wfD, Bool.and_eq_true, and_assoc, beq_iff_eq, bne_iff_ne,
              decide_eq_true_eq, Node.items_mk, Node.children_mk, Node.count_mk]
            refine ⟨h0, hle, hchn, ?_, wfL_set hwl 0 (Nat.zero_le _) hwc', ?_⟩
            · rw [List.length_set]; exact har
            · have hS := sumCounts_set cs 0 c' (by omega)
              rw [hcnt]
              push_cast
              have : c'.count = (cs.getD 0 default).count - 1 := hcB
              omega
          · intro hrt
            have := hocc.2.1 hrt
            exact this
          · have har2 : (cs.set 0 c').length = its.length + 1 := by
              rw [List.length_set]; exact har
            show nodeItems (Node.mk its (some (cs.set 0 c')) (cnt - 1))
              = (nodeItems (Node.mk its (some cs) cnt)).drop 1
            rw [nodeItems_internal har2, nodeItems_internal har, hcs]
            simp only [List.set_cons_zero]
            cases its with
            | nil =>
              rw [flatI_cons_nil, flatI_cons_nil]
              rw [hcD]
              simp [hcs]
            | cons it its2 =>
              rw [flatI_cons_cons, flatI_cons_cons]
              rw [hcD]
              rw [drop_one_append _ _ (by simpa [hcs] using hcne)]
              simp [hcs]


/-- `popMaxGo` (the optimistic rightmost descent of `PopMax`): when it
commits, the returned item is the subtree maximum and the new node drops
exactly the last in-order item. -/
theorem popMaxGo_wf {mn mx : Nat} (hmn : 1 ≤ mn) :
    ∀ (fuel : Nat) {h : Nat} {rt : Bool} {lo hi : Option α} {n : Node α}
      {res : α × Option (Node α)},
      wfN mn mx rt h lo hi n = true →
      popMaxGo mn n fuel = some res →
      res.1 = (nodeItems n).getD ((nodeItems n).length - 1) default ∧
      ∀ n', res.2 = some n' →
        wfD mn mx h lo hi n' = true ∧
        n'.count = n.count - 1 ∧
        (rt = false → mn ≤ n'.items.length) ∧
        (n'.count = 0 ∨ 1 ≤ n'.items.length) ∧
        nodeItems n' = (nodeItems n).dropLast := by
  intro fuel
  induction fuel with
  | zero =>
    intro h rt lo hi n res hw hrun
    simp [popMaxGo] at hrun
  | succ fuel ih =>
    intro h rt lo hi n res hw hrun
    obtain ⟨its, ch, cnt⟩ := n
    have hocc := wfN_occupancy hw
    simp only [Node.items_mk] at hocc
    have hlen1 : 1 ≤ its.length := by
      cases rt with
      | false => have := hocc.2.1 rfl; omega
      | true => exact hocc.1 rfl
    cases ch with
    | none =>
      simp only [popMaxGo, Node.items_mk, Node.children_mk, Node.count_mk] at hrun
      simp only [wfN, Bool.and_eq_true, and_assoc, beq_iff_eq,
        decide_eq_true_eq] at hw
      obtain ⟨h0, -, hle, hchn, hcnt⟩ := hw
      by_cases hunder : its.length = mn
      · rw [if_pos hunder] at hrun
        injection hrun with hrun
        subst hrun
        exact ⟨rfl, fun n' hx => by simp at hx⟩
      · rw [if_neg hunder] at hrun
        injection hrun with hrun
        subst hrun
        refine ⟨rfl, fun n' hx => ?_⟩
        have hx2 : (Node.mk its.dropLast none (cnt - 1)) = n' := by
          injection hx
        subst hx2
        have hchd : chainB lo hi its.dropLast = true := by
          rw [List.dropLast_eq_take]
          have h2 := chainB_take hchn (its.length - 1) (by omega)
          exact chainB_weaken_hi h2 (by
            have hmem : its.getD (its.length - 1) default ∈ its := by
              rw [List.getD_eq_getElem its default (by omega)]
              exact List.getElem_mem (by omega)
            exact (chainB_mem_bounds hchn hmem).2)
        refine ⟨?_, by simp [Node.count_mk], ?_, ?_, by simp [nodeItems_leaf]⟩
        · simp only [wfD, Bool.and_eq_true, and_assoc, beq_iff_eq,
            decide_eq_true_eq, Node.items_mk, Node.count_mk]
          refine ⟨h0, ?_, hchd, ?_⟩
          · rw [List.length_dropLast]; omega
          · rw [List.length_dropLast, hcnt]; omega
        · intro hrt
          have := hocc.2.1 hrt
          simp only [Node.items_mk]
          rw [List.length_dropLast]
          omega
        · by_cases hz2 : its.length = 1
          · left
            show cnt - 1 = 0
            rw [hcnt]
            omega
          · right
            show 1 ≤ its.dropLast.length
            rw [List.length_dropLast]
            omega
    | some cs =>
      simp only [popMaxGo, Node.items_mk, Node.children_mk, Node.count_mk] at hrun
      simp only [wfN, Bool.and_eq_true, and_assoc, beq_iff_eq, bne_iff_ne,
        decide_eq_true_eq] at hw
      obtain ⟨h0, -, hle, hchn, har, hwl, hcnt⟩ := hw
      have he : cs.length - 1 = its.length := by omega
      rw [he] at hrun
      have hwc := wfL_get hwl its.length (le_refl _)
      rcases hrec : popMaxGo mn (cs.getD its.length default) fuel with - | ⟨item, oc⟩
      · rw [hrec] at hrun
        exact Option.noConfusion hrun
      · have ihc := ih hwc hrec
        simp only [] at ihc
        simp only [hrec] at hrun
        have hcne : nodeItems (cs.getD its.length default) ≠ [] :=
          nodeItems_ne_nil hmn (h - 1) hwc
        have hdec := flatI_decomp_last har
        have hlast : (nodeItems (Node.mk its (some cs) cnt)).getD
            ((nodeItems (Node.mk its (some cs) cnt)).length - 1) default
            = (nodeItems (cs.getD its.length default)).getD
                ((nodeItems (cs.getD its.length default)).length - 1) default := by
          rw [nodeItems_internal har, hdec.1]
          exact getD_last_append _ _ hcne
        cases oc with
        | none =>
          injection hrun with hrun
          subst hrun
          refine ⟨?_, fun n' hx => by simp at hx⟩
          rw [hlast]
          exact ihc.1
        | some c' =>
          injection hrun with hrun
          subst hrun
          obtain ⟨hcA, hcB, hcC, hcO, hcD⟩ := ihc.2 c' rfl
          refine ⟨by rw [hlast]; exact ihc.1, fun n' hx => ?_⟩
          have hx2 : (Node.mk its (some (cs.set its.length c')) (cnt - 1)) = n' := by
            injection hx
          subst hx2
          have hwc' : wfN mn mx false (h - 1) (boundL lo its its.length)
              (boundR hi its its.length) c' :=
            wfN_of_wfD hcA (fun hx => by simp at hx) (fun _ => hcC trivial)
          refine ⟨?_, by simp [Node.count_mk], ?_, Or.inr hlen1, ?_⟩
          · simp only [wfD, Bool.and_eq_true, and_assoc, beq_iff_eq, bne_iff_ne,
              decide_eq_true_eq, Node.items_mk, Node.children_mk, Node.count_mk]
            refine ⟨h0, hle, hchn, ?_, wfL_set hwl its.length (le_refl _) hwc', ?_⟩
            · rw [List.length_set]; exact har
            · have hS := sumCounts_set cs its.length c' (by omega)
              rw [hcnt]
              push_cast
              have hcb2 : c'.count = (cs.getD its.length default).count - 1 := hcB
              omega
          · intro hrt
            have := hocc.2.1 hrt
            exact this
          · have har2 : (cs.set its.length c').length = its.length + 1 := by
              rw [List.length_set]; exact har
            show nodeItems (Node.mk its (some (cs.set its.length c')) (cnt - 1))
              = (nodeItems (Node.mk its (some cs) cnt)).dropLast
            rw [nodeItems_internal har2, nodeItems_internal har, hdec.2 c', hdec.1, hcD]
            exact (dropLast_append_right _ _ hcne).symm


/-- Stored counts measure the in-order content: `n.count = |nodeItems n|`. -/
theorem nodeItems_length_wfD {mn mx : Nat} :
    ∀ (h : Nat) {lo hi : Option α} {n : Node α},
      wfD mn mx h lo hi n = true → ((nodeItems n).length : Int) = n.count := by
  intro h
  induction h with
  | zero =>
    intro lo hi n hw
    obtain ⟨its, ch, cnt⟩ := n
    cases ch with
    | some cs => simp [wfD] at hw
    | none =>
      simp only [wfD, Bool.and_eq_true, and_assoc, beq_iff_eq,
        decide_eq_true_eq] at hw
      obtain ⟨-, -, -, hcnt⟩ := hw
      simp [nodeItems_leaf, Node.count_mk, hcnt]
  | succ h ih =>
    intro lo hi n hw
    obtain ⟨its, ch, cnt⟩ := n
    cases ch with
    | none => simp [wfD] at hw
    | some cs =>
      simp only [wfD, Bool.and_eq_true, and_assoc, beq_iff_eq, bne_iff_ne,
        decide_eq_true_eq] at hw
      obtain ⟨-, -, -, har, hwl, hcnt⟩ := hw
      have aux : ∀ (its2 : List α) (lo2 : Option α) (cs2 : List (Node α)),
          wfL mn mx h lo2 hi cs2 its2 = true →
          ((flatI cs2 its2).length : Int)
            = (its2.length : Int) + ((cs2.map Node.count).sum) := by
        intro its2
        induction its2 with
        | nil =>
          intro lo2 cs2 hwl2
          match cs2 with
          | [] => simp [wfL] at hwl2
          | [c] =>
            have hwc : wfN mn mx false h lo2 hi c = true := by simpa [wfL] using hwl2
            have h1 := ih (wfD_of_wfN hwc)
            rw [flatI_cons_nil]
            simp [h1]
          | c :: c2 :: cs3 => simp [wfL] at hwl2
        | cons it its3 ihits =>
          intro lo2 cs2 hwl2
          match cs2 with
          | [] => simp [wfL] at hwl2
          | c :: cs3 =>
            have hwl3 : wfN mn mx false h lo2 (some it) c = true ∧
                wfL mn mx h (some it) hi cs3 its3 = true := by
              simpa [wfL, Bool.and_eq_true] using hwl2
            have h1 := ih (wfD_of_wfN hwl3.1)
            have h2 := ihits (some it) cs3 hwl3.2
            rw [flatI_cons_cons]
            simp only [List.length_append, List.length_cons, List.map_cons,
              List.sum_cons]
            push_cast
            omega
      rw [nodeItems_internal har, Node.count_mk, hcnt]
      exact aux its lo cs hwl

theorem nodeItems_length_wfN {mn mx : Nat} {h : Nat} {rt : Bool} {lo hi : Option α}
    {n : Node α} (hw : wfN mn mx rt h lo hi n = true) :
    ((nodeItems n).length : Int) = n.count :=
  nodeItems_length_wfD h (wfD_of_wfN hw)

/-- `deleteHint` at the content level: a reported deletion returns the key
itself and removes exactly one occurrence of it from the in-order items;
a miss leaves the key absent. -/
theorem deleteHint_content {t : Tree α} {key : α} {hint : Option PathHint} {fuel : Nat}
    {t' : Tree α} {prev : α} {deleted : Bool}
    (hv : Valid t = true)
    (hrun : deleteHint t key hint fuel = some (t', prev, deleted)) :
    (deleted = true → prev = key ∧
      ∃ A B : List α, itemsT t = A ++ key :: B ∧ itemsT t' = A ++ B) ∧
    (deleted = false → key ∉ itemsT t) := by
  obtain ⟨troot, tcnt, tmn, tmx⟩ := t
  cases troot with
  | none =>
    simp only [deleteHint] at hrun
    injection hrun with hrun
    simp only [Prod.mk.injEq] at hrun
    obtain ⟨h1, h2, h3⟩ := hrun
    subst h1
    subst h2
    subst h3
    exact ⟨fun hx => by simp at hx, fun _ => by simp [itemsT]⟩
  | some r =>
    simp only [Valid, Bool.and_eq_true, and_assoc, beq_iff_eq,
      decide_eq_true_eq] at hv
    obtain ⟨hmn1, hmxE, hroot1, hroot2⟩ := hv
    simp only [deleteHint] at hrun
    rcases hrec : delete tmn tmx r false key hint 0 fuel
      with - | ⟨r', prevD, deletedD, hintD⟩
    · rw [hrec] at hrun
      exact Option.noConfusion hrun
    · have hDw := delete_wf hmn1 hmxE fuel hroot1 hrec
      simp only [] at hDw
      have hDc := delete_content hmn1 hmxE fuel hroot1 hrec
      simp only [] at hDc
      simp only [hrec] at hrun
      by_cases hdel : deletedD = true
      · rw [hdel] at hrun
        rw [if_neg (by simp)] at hrun
        injection hrun with hrun
        simp only [Prod.mk.injEq] at hrun
        obtain ⟨h1, h2, h3⟩ := hrun
        subst h1
        subst h2
        subst h3
        obtain ⟨hA, -, hC, -, -, -⟩ := hDw.2.2 hdel
        obtain ⟨hprevk, A2, B2, hcd1, hcd2⟩ := hDc.2 trivial hdel
        refine ⟨fun _ => ⟨hprevk, A2, B2, by simpa [itemsT] using hcd1, ?_⟩,
          fun hx => by simp at hx⟩
        by_cases hz : tcnt - 1 = (0 : Int)
        · rw [if_pos hz]
          have hlen := nodeItems_length_wfD _ hA
          rw [hC, ← hroot2] at hlen
          have hlen0 : (nodeItems r').length = 0 := by omega
          have hnil : nodeItems r' = [] := List.length_eq_zero.mp hlen0
          rw [hnil] at hcd2
          simp only [itemsT]
          exact hcd2
        · rw [if_neg hz]
          obtain ⟨its', ch', cnt''⟩ := r'
          cases ch' with
          | none =>
            rw [if_neg (by simp [Node.leaf_mk])]
            simpa [itemsT] using hcd2
          | some cs' =>
            simp only [wfD, Bool.and_eq_true, and_assoc, beq_iff_eq, bne_iff_ne,
              decide_eq_true_eq] at hA
            obtain ⟨h0', hle', hchn', har', hwl', hcnt''⟩ := hA
            by_cases hlen0 : its'.length = 0
            · rw [if_pos ⟨by simpa [Node.items_mk] using hlen0, by simp [Node.leaf_mk]⟩]
              have hits'nil : its' = [] := List.length_eq_zero.mp hlen0
              subst hits'nil
              match cs', har' with
              | [c], _ =>
                have hni : nodeItems (Node.mk ([] : List α) (some [c]) cnt'')
                    = nodeItems c := by
                  have h1 : nodeItems (Node.mk ([] : List α) (some [c]) cnt'')
                      = flatI [c] [] := nodeItems_internal (by simp)
                  rw [h1, flatI_cons_nil]
                rw [hni] at hcd2
                simp only [itemsT, Node.children_mk, Option.getD_some,
                  List.getD_cons_zero]
                exact hcd2
            · rw [if_neg (by simp [Node.items_mk, Node.leaf_mk, hlen0])]
              simpa [itemsT] using hcd2
      · rw [if_pos hdel] at hrun
        injection hrun with hrun
        simp only [Prod.mk.injEq] at hrun
        obtain ⟨h1, h2, h3⟩ := hrun
        subst h1
        subst h2
        subst h3
        refine ⟨fun hx => by simp at hx, fun _ => ?_⟩
        intro hmem
        have hfound := delete_found hmn1 hmxE fuel hroot1 (by simpa [itemsT] using hmem) hrec
        simp only [] at hfound
        exact hdel hfound


theorem flatI_bounds {mn mx : Nat} {hi : Option α} :
    ∀ (h : Nat) (its : List α) (lo2 : Option α) (cs : List (Node α)),
      wfL mn mx h lo2 hi cs its = true → chainB lo2 hi its = true →
      ∀ x ∈ flatI cs its, lob lo2 (some x) = true ∧ lob (some x) hi = true := by
  intro h its
  induction its with
  | nil =>
    intro lo2 cs hwl hch x hx
    match cs with
    | [] => simp [flatI_nil_left] at hx
    | [c] =>
      have hwc : wfN mn mx false h lo2 hi c = true := by simpa [wfL] using hwl
      exact nodeItems_bounds h hwc x (by simpa [flatI_cons_nil] using hx)
    | c :: c2 :: cs3 => simp [wfL] at hwl
  | cons it its2 ih =>
    intro lo2 cs hwl hch x hx
    match cs with
    | [] => simp [flatI_nil_left] at hx
    | c :: cs3 =>
      have hwl3 : wfN mn mx false h lo2 (some it) c = true ∧
          wfL mn mx h (some it) hi cs3 its2 = true := by
        simpa [wfL, Bool.and_eq_true] using hwl
      have hitb := chainB_mem_bounds hch (List.mem_cons_self it its2)
      have hch3 : chainB (some it) hi its2 = true := by
        simp only [chainB, Bool.and_eq_true] at hch
        exact hch.2
      rw [flatI_cons_cons] at hx
      rcases List.mem_append.mp hx with hc | hrest
      · have hb := nodeItems_bounds h hwl3.1 x hc
        exact ⟨hb.1, lob_trans hb.2 hitb.2 (by simp)⟩
      · rcases List.mem_cons.mp hrest with hit | htail
        · subst hit
          exact hitb
        · have hb := ih (some it) cs3 hwl3.2 hch3 x htail
          exact ⟨lob_trans hitb.1 hb.1 (by simp), hb.2⟩

/-- The in-order content of a well-formed node is strictly sorted. -/
theorem nodeItems_sorted {mn mx : Nat} :
    ∀ (h : Nat) {rt : Bool} {lo hi : Option α} {n : Node α},
      wfN mn mx rt h lo hi n = true → (nodeItems n).Pairwise (· < ·) := by
  intro h
  induction h with
  | zero =>
    intro rt lo hi n hw
    obtain ⟨its, ch, cnt⟩ := n
    cases ch with
    | some cs => simp [wfN] at hw
    | none =>
      have hch := wfN_chainB hw
      simp only [Node.items_mk] at hch
      simpa [nodeItems_leaf] using chainB_pairwise hch
  | succ h ih =>
    intro rt lo hi n hw
    obtain ⟨its, ch, cnt⟩ := n
    cases ch with
    | none => simp [wfN] at hw
    | some cs =>
      simp only [wfN, Bool.and_eq_true, and_assoc, beq_iff_eq, bne_iff_ne,
        decide_eq_true_eq] at hw
      obtain ⟨-, -, -, hchn, har, hwl, -⟩ := hw
      have aux : ∀ (its2 : List α) (lo2 : Option α) (cs2 : List (Node α)),
          wfL mn mx h lo2 hi cs2 its2 = true → chainB lo2 hi its2 = true →
          (flatI cs2 its2).Pairwise (· < ·) := by
        intro its2
        induction its2 with
        | nil =>
          intro lo2 cs2 hwl2 hch2
          match cs2 with
          | [] => simp [flatI_nil_left]
          | [c] =>
            have hwc : wfN mn mx false h lo2 hi c = true := by simpa [wfL] using hwl2
            rw [flatI_cons_nil]
            exact ih hwc
          | c :: c2 :: cs3 => simp [wfL] at hwl2
        | cons it its3 ihits =>
          intro lo2 cs2 hwl2 hch2
          match cs2 with
          | [] => simp [flatI_nil_left]
          | c :: cs3 =>
            have hwl3 : wfN mn mx false h lo2 (some it) c = true ∧
                wfL mn mx h (some it) hi cs3 its3 = true := by
              simpa [wfL, Bool.and_eq_true] using hwl2
            have hch3 : chainB (some it) hi its3 = true := by
              simp only [chainB, Bool.and_eq_true] at hch2
              exact hch2.2
            rw [flatI_cons_cons]
            rw [List.pairwise_append]
            refine ⟨ih hwl3.1, ?_, ?_⟩
            · rw [List.pairwise_cons]
              refine ⟨?_, ihits (some it) cs3 hwl3.2 hch3⟩
              intro b hb
              have h2 := (flatI_bounds h its3 (some it) cs3 hwl3.2 hch3 b hb).1
              simpa [lob] using h2
            · intro a ha b hb
              have h1 := (nodeItems_bounds h hwl3.1 a ha).2
              have halt : a < it := by simpa [lob] using h1
              rcases List.mem_cons.mp hb with hbit | hbtail
              · rw [hbit]
                exact halt
              · have h2 := (flatI_bounds h its3 (some it) cs3 hwl3.2 hch3 b hbtail).1
                have hitb : it < b := by simpa [lob] using h2
                exact lt_trans halt hitb
      rw [nodeItems_internal har]
      exact aux its lo cs hwl hchn


/-- `PopMin` preserves validity; on a non-empty tree it removes and returns
the first in-order item (the minimum) and decrements the count; on an empty
tree it reports `false` and returns the tree unchanged. -/
theorem popMin_valid {t : Tree α} {fuel : Nat} {res : α × Bool × Tree α}
    (hv : Valid t = true) (hrun : popMin t fuel = some res) :
    Valid res.2.2 = true ∧
    (t.root = none → res.2.1 = false ∧ res.2.2 = t) ∧
    (t.root ≠ none → res.2.1 = true ∧
      res.1 = (itemsT t).getD 0 default ∧
      res.2.2.count = t.count - 1 ∧
      itemsT res.2.2 = (itemsT t).drop 1) := by
  have hv0 := hv
  obtain ⟨troot, tcnt, tmn, tmx⟩ := t
  cases troot with
  | none =>
    simp only [popMin] at hrun
    injection hrun with hrun
    subst hrun
    exact ⟨hv0, fun _ => ⟨rfl, rfl⟩, fun hx => absurd rfl hx⟩
  | some r =>
    simp only [Valid, Bool.and_eq_true, and_assoc, beq_iff_eq,
      decide_eq_true_eq] at hv
    obtain ⟨hmn1, hmxE, hroot1, hroot2⟩ := hv
    simp only [popMin] at hrun
    rcases hrec : popMinGo tmn r fuel with - | ⟨item, oc⟩
    · rw [hrec] at hrun
      exact Option.noConfusion hrun
    · have hG := popMinGo_wf hmn1 fuel hroot1 hrec
      simp only [] at hG
      simp only [hrec] at hrun
      have hrne := nodeItems_ne_nil hmn1 _ hroot1
      cases oc with
      | some r' =>
        injection hrun with hrun
        subst hrun
        obtain ⟨hA, hB, hC, hO, hD⟩ := hG.2 r' rfl
        have hrc : r'.count = tcnt - 1 := by
          rw [hB, ← hroot2]
        refine ⟨?_, fun hx => by simp at hx, fun _ => ⟨rfl, hG.1, rfl, ?_⟩⟩
        · by_cases hz : tcnt - 1 = (0 : Int)
          · rw [if_pos hz]
            simp only [Valid, Bool.and_eq_true, and_assoc, beq_iff_eq,
              decide_eq_true_eq]
            exact ⟨hmn1, hmxE, hz⟩
          · rw [if_neg hz]
            have h1le : 1 ≤ r'.items.length := by
              rcases hO with h0 | h1
              · rw [hrc] at h0
                exact absurd h0 hz
              · exact h1
            have hvN : wfN tmn tmx true (heightLoop r - 1) none none r' = true :=
              wfN_of_wfD hA (fun _ => h1le) (fun hx => absurd hx (by decide))
            have hH := heightLoop_of_wfN _ hvN
            simp only [Valid, Bool.and_eq_true, and_assoc, beq_iff_eq,
              decide_eq_true_eq]
            refine ⟨hmn1, hmxE, ?_, by omega⟩
            rw [hH]
            simpa using hvN
        · by_cases hz : tcnt - 1 = (0 : Int)
          · rw [if_pos hz]
            have hlen := nodeItems_length_wfN hroot1
            rw [← hroot2] at hlen
            show ([] : List α) = (nodeItems r).drop 1
            exact (List.drop_eq_nil_of_le (by omega)).symm
          · rw [if_neg hz]
            exact hD
      | none =>
        simp only [] at hrun
        rcases hDH : deleteHint { root := some r, count := tcnt, minI := tmn, maxI := tmx } item none fuel
          with - | ⟨t2, prev2, del2⟩
        · rw [hDH] at hrun
          simp at hrun
        · rw [hDH] at hrun
          simp only [Option.map] at hrun
          injection hrun with hrun
          subst hrun
          have hitem : item = (nodeItems r).getD 0 default := hG.1
          have hmemItem : item ∈ nodeItems r := by
            rw [hitem, List.getD_eq_getElem _ default (List.length_pos.mpr hrne)]
            exact List.getElem_mem _
          have hDV := deleteHint_valid hv0 hDH
          have hDC := deleteHint_content hv0 hDH
          have hdel2 : del2 = true := by
            cases hx : del2 with
            | true => rfl
            | false => exact absurd (by simpa [itemsT] using hmemItem) (hDC.2 hx)
          obtain ⟨hprevk, A2, B2, hcd1, hcd2⟩ := hDC.1 hdel2
          have hsortedR : (nodeItems r).Pairwise (· < ·) := nodeItems_sorted _ hroot1
          have hA2nil : A2 = [] := by
            cases A2 with
            | nil => rfl
            | cons a A3 =>
              exfalso
              have hcd1' : nodeItems r = a :: (A3 ++ item :: B2) := by
                simpa [itemsT] using hcd1
              have hha : (nodeItems r).getD 0 default = a := by
                rw [hcd1']
                simp [List.getD_cons_zero]
              have hia : item = a := by rw [hitem, hha]
              rw [hcd1'] at hsortedR
              have hlt := (List.pairwise_cons.mp hsortedR).1 item (by simp)
              rw [hia] at hlt
              exact lt_irrefl _ hlt
          subst hA2nil
          simp only [List.nil_append] at hcd1 hcd2
          have hcd1' : nodeItems r = item :: B2 := by simpa [itemsT] using hcd1
          refine ⟨hDV.1, fun hx => by simp at hx, fun _ => ⟨hdel2, ?_, ?_, ?_⟩⟩
          · show prev2 = _
            rw [hprevk]
            exact hitem
          · have h2 := hDV.2.1
            rw [hdel2] at h2
            simpa using h2
          · show itemsT t2 = _
            rw [hcd2]
            show B2 = (nodeItems r).drop 1
            rw [hcd1']
            rfl

/-- `PopMax` preserves validity; on a non-empty tree it removes and returns
the last in-order item (the maximum) and decrements the count; on an empty
tree it reports `false` and returns the tree unchanged. -/
theorem popMax_valid {t : Tree α} {fuel : Nat} {res : α × Bool × Tree α}
    (hv : Valid t = true) (hrun : popMax t fuel = some res) :
    Valid res.2.2 = true ∧
    (t.root = none → res.2.1 = false ∧ res.2.2 = t) ∧
    (t.root ≠ none → res.2.1 = true ∧
      res.1 = (itemsT t).getD ((itemsT t).length - 1) default ∧
      res.2.2.count = t.count - 1 ∧
      itemsT res.2.2 = (itemsT t).dropLast) := by
  have hv0 := hv
  obtain ⟨troot, tcnt, tmn, tmx⟩ := t
  cases troot with
  | none =>
    simp only [popMax] at hrun
    injection hrun with hrun
    subst hrun
    exact ⟨hv0, fun _ => ⟨rfl, rfl⟩, fun hx => absurd rfl hx⟩
  | some r =>
    simp only [Valid, Bool.and_eq_true, and_assoc, beq_iff_eq,
      decide_eq_true_eq] at hv
    obtain ⟨hmn1, hmxE, hroot1, hroot2⟩ := hv
    simp only [popMax] at hrun
    rcases hrec : popMaxGo tmn r fuel with - | ⟨item, oc⟩
    · rw [hrec] at hrun
      exact Option.noConfusion hrun
    · have hG := popMaxGo_wf hmn1 fuel hroot1 hrec
      simp only [] at hG
      simp only [hrec] at hrun
      have hrne := nodeItems_ne_nil hmn1 _ hroot1
      cases oc with
      | some r' =>
        injection hrun with hrun
        subst hrun
        obtain ⟨hA, hB, hC, hO, hD⟩ := hG.2 r' rfl
        have hrc : r'.count = tcnt - 1 := by
          rw [hB, ← hroot2]
        refine ⟨?_, fun hx => by simp at hx, fun _ => ⟨rfl, hG.1, rfl, ?_⟩⟩
        · by_cases hz : tcnt - 1 = (0 : Int)
          · rw [if_pos hz]
            simp only [Valid, Bool.and_eq_true, and_assoc, beq_iff_eq,
              decide_eq_true_eq]
            exact ⟨hmn1, hmxE, hz⟩
          · rw [if_neg hz]
            have h1le : 1 ≤ r'.items.length := by
              rcases hO with h0 | h1
              · rw [hrc] at h0
                exact absurd h0 hz
              · exact h1
            have hvN : wfN tmn tmx true (heightLoop r - 1) none none r' = true :=
              wfN_of_wfD hA (fun _ => h1le) (fun hx => absurd hx (by decide))
            have hH := heightLoop_of_wfN _ hvN
            simp only [Valid, Bool.and_eq_true, and_assoc, beq_iff_eq,
              decide_eq_true_eq]
            refine ⟨hmn1, hmxE, ?_, by omega⟩
            rw [hH]
            simpa using hvN
        · by_cases hz : tcnt - 1 = (0 : Int)
          · rw [if_pos hz]
            have hlen := nodeItems_length_wfN hroot1
            rw [← hroot2] at hlen
            show ([] : List α) = (nodeItems r).dropLast
            rw [List.dropLast_eq_take]
            have hl1 : (nodeItems r).length - 1 = 0 := by omega
            rw [hl1, List.take_zero]
          · rw [if_neg hz]
            exact hD
      | none =>
        simp only [] at hrun
        rcases hDH : deleteHint { root := some r, count := tcnt, minI := tmn, maxI := tmx } item none fuel
          with - | ⟨t2, prev2, del2⟩
        · rw [hDH] at hrun
          simp at hrun
        · rw [hDH] at hrun
          simp only [Option.map] at hrun
          injection hrun with hrun
          subst hrun
          have hitem : item = (nodeItems r).getD ((nodeItems r).length - 1) default := hG.1
          have hmemItem : item ∈ nodeItems r := by
            rw [hitem, List.getD_eq_getElem _ default
              (by have := List.length_pos.mpr hrne; omega)]
            exact List.getElem_mem _
          have hDV := deleteHint_valid hv0 hDH
          have hDC := deleteHint_content hv0 hDH
          have hdel2 : del2 = true := by
            cases hx : del2 with
            | true => rfl
            | false => exact absurd (by simpa [itemsT] using hmemItem) (hDC.2 hx)
          obtain ⟨hprevk, A2, B2, hcd1, hcd2⟩ := hDC.1 hdel2
          have hsortedR : (nodeItems r).Pairwise (· < ·) := nodeItems_sorted _ hroot1
          have hB2nil : B2 = [] := by
            cases B2 with
            | nil => rfl
            | cons b B3 =>
              exfalso
              have hcd1' : nodeItems r = A2 ++ item :: b :: B3 := by
                simpa [itemsT] using hcd1
              have hbpos : (nodeItems r).getD (A2.length + 1) default = b := by
                rw [hcd1']
                rw [List.getD_eq_getElem _ default
                  (by simp [List.length_append])]
                rw [List.getElem_append_right (by omega)]
                simp
              have hlen : (nodeItems r).length = A2.length + 2 + B3.length := by
                rw [hcd1']
                simp [List.length_append]
                omega
              have hble : b ≤ item := by
                rw [hitem, ← hbpos]
                exact sorted_getD_le _ hsortedR (by omega) (by omega)
              rw [hcd1'] at hsortedR
              have hpr := (List.pairwise_append.mp hsortedR).2.1
              have hlt := (List.pairwise_cons.mp hpr).1 b (by simp)
              exact lt_irrefl _ (lt_of_lt_of_le hlt hble)
          subst hB2nil
          simp only [List.append_nil] at hcd2
          have hcd1' : nodeItems r = A2 ++ [item] := by simpa [itemsT] using hcd1
          refine ⟨hDV.1, fun hx => by simp at hx, fun _ => ⟨hdel2, ?_, ?_, ?_⟩⟩
          · show prev2 = _
            rw [hprevk]
            exact hitem
          · have h2 := hDV.2.1
            rw [hdel2] at h2
            simpa using h2
          · show itemsT t2 = _
            rw [hcd2]
            show A2 = (nodeItems r).dropLast
            rw [hcd1']
            rw [List.dropLast_concat]


/-- The in-place path of `DeleteAt`: a committed (`inl`) removal leaves
every node on the path structurally well-formed with counts decremented;
the scan loop `deleteAtGo` keeps the parent items unchanged. -/
theorem deleteAtLoop_wf {mn mx : Nat} (hmn : 1 ≤ mn) (hmx : mx = 2 * mn + 1) :
    ∀ (fuel : Nat) {h : Nat} {rt : Bool} {lo hi : Option α} {n : Node α} {index : Int}
      {path : List Nat} {res : (α × Node α) ⊕ (α × List Nat)},
      wfN mn mx rt h lo hi n = true →
      0 ≤ index → index < n.count →
      deleteAtLoop mn n index path fuel = some res →
      ∀ item n', res = .inl (item, n') →
        wfD mn mx h lo hi n' = true ∧ n'.count = n.count - 1 ∧
        (rt = false → mn ≤ n'.items.length) ∧
        (n'.count = 0 ∨ 1 ≤ n'.items.length) := by
  intro fuel
  induction fuel with
  | zero =>
    intro h rt lo hi n index path res hw h0i hlt hrun
    simp [deleteAtLoop] at hrun
  | succ fuel ih =>
    have hB : ∀ (k : Nat) {hh : Nat} {lo hi : Option α} {its : List α}
        {cs : List (Node α)} {cnt : Int} {index : Int} {path : List Nat} {i : Nat}
        {res : (α × Node α) ⊕ (α × List Nat)},
        its.length + 1 - i ≤ k →
        i ≤ its.length →
        chainB lo hi its = true → its.length ≤ mx → 1 ≤ its.length →
        cs.length = its.length + 1 →
        wfL mn mx hh lo hi cs its = true →
        cnt = (its.length : Int) + ((cs.map Node.count)).sum →
        0 ≤ index →
        index < ((its.length : Int) - i) + (((cs.drop i).map Node.count)).sum →
        deleteAtGo mn its cs cnt index path i fuel = some res →
        ∀ item n', res = .inl (item, n') →
          wfD mn mx (hh + 1) lo hi n' = true ∧ n'.count = cnt - 1 ∧
          n'.items = its := by
      intro k
      induction k with
      | zero =>
        intro hh lo hi its cs cnt index path i res hk hii hch hle hits1 har hwl
          hcnt h0i hlt hrun item n' hres
        omega
      | succ k ihk =>
        intro hh lo hi its cs cnt index path i res hk hii hch hle hits1 har hwl
          hcnt h0i hlt hrun item n' hres
        rw [deleteAtGo] at hrun
        by_cases hilt : i < its.length
        · rw [dif_pos hilt] at hrun
          by_cases hic : index < (cs.getD i default).count
          · rw [if_pos hic] at hrun
            rcases hrecL : deleteAtLoop mn (cs.getD i default) index
                (path ++ [i % 256]) fuel with - | rL
            · rw [hrecL] at hrun
              exact Option.noConfusion hrun
            · simp only [hrecL] at hrun
              cases rL with
              | inr pr =>
                injection hrun with hrun
                subst hrun
                simp at hres
              | inl pr =>
                obtain ⟨itemC, c'⟩ := pr
                injection hrun with hrun
                subst hrun
                simp only [Sum.inl.injEq, Prod.mk.injEq] at hres
                obtain ⟨h1, h2⟩ := hres
                subst h2
                have hwc := wfL_get hwl i (le_of_lt hilt)
                have hAc := ih hwc h0i hic hrecL itemC c' rfl
                simp only [] at hAc
                obtain ⟨hcA, hcB, hcC, hcO⟩ := hAc
                have hwc' : wfN mn mx false hh (boundL lo its i) (boundR hi its i)
                    c' = true :=
                  wfN_of_wfD hcA (fun hx => absurd hx (by decide)) (fun _ => hcC trivial)
                refine ⟨?_, by simp [Node.count_mk], by simp [Node.items_mk]⟩
                simp only [wfD, Bool.and_eq_true, and_assoc, beq_iff_eq, bne_iff_ne,
                  decide_eq_true_eq, Node.items_mk, Node.children_mk, Node.count_mk]
                refine ⟨by omega, hle, hch, ?_,
                  wfL_set hwl i (le_of_lt hilt) hwc', ?_⟩
                · rw [List.length_set]; exact har
                · have hS := sumCounts_set cs i c' (by omega)
                  rw [hcnt]
                  push_cast
                  omega
          · rw [if_neg hic] at hrun
            by_cases hie : index = (cs.getD i default).count
            · rw [if_pos hie] at hrun
              injection hrun with hrun
              subst hrun
              simp at hres
            · rw [if_neg hie] at hrun
              have hdropi : cs.drop i = cs.getD i default :: cs.drop (i + 1) := by
                rw [List.getD_eq_getElem cs default (by omega)]
                exact List.drop_eq_getElem_cons (by omega)
              rw [hdropi] at hlt
              simp only [List.map_cons, List.sum_cons] at hlt
              exact ihk (by omega) (by omega) hch hle hits1 har hwl hcnt (by omega)
                (by push_cast; push_cast at hlt; omega) hrun item n' hres
        · rw [dif_neg hilt] at hrun
          have hieq : i = its.length := by omega
          subst hieq
          have hdropi : cs.drop its.length
              = [cs.getD its.length default] := by
            rw [List.getD_eq_getElem cs default (by omega)]
            rw [List.drop_eq_getElem_cons (by omega)]
            have hnil : cs.drop (its.length + 1) = [] :=
              List.drop_eq_nil_of_le (by omega)
            rw [hnil]
          rw [hdropi] at hlt
          simp only [List.map_cons, List.map_nil, List.sum_cons, List.sum_nil] at hlt
          have hic : index < (cs.getD its.length default).count := by
            push_cast at hlt
            omega
          rcases hrecL : deleteAtLoop mn (cs.getD its.length default) index
              (path ++ [its.length % 256]) fuel with - | rL
          · rw [hrecL] at hrun
            exact Option.noConfusion hrun
          · simp only [hrecL] at hrun
            cases rL with
            | inr pr =>
              injection hrun with hrun
              subst hrun
              simp at hres
            | inl pr =>
              obtain ⟨itemC, c'⟩ := pr
              injection hrun with hrun
              subst hrun
              simp only [Sum.inl.injEq, Prod.mk.injEq] at hres
              obtain ⟨h1, h2⟩ := hres
              subst h2
              have hwc := wfL_get hwl its.length (le_refl _)
              have hAc := ih hwc h0i hic hrecL itemC c' rfl
              simp only [] at hAc
              obtain ⟨hcA, hcB, hcC, hcO⟩ := hAc
              have hwc' : wfN mn mx false hh (boundL lo its its.length)
                  (boundR hi its its.length) c' = true :=
                wfN_of_wfD hcA (fun hx => absurd hx (by decide)) (fun _ => hcC trivial)
              refine ⟨?_, by simp [Node.count_mk], by simp [Node.items_mk]⟩
              simp only [wfD, Bool.and_eq_true, and_assoc, beq_iff_eq, bne_iff_ne,
                decide_eq_true_eq, Node.items_mk, Node.children_mk, Node.count_mk]
              refine ⟨by omega, hle, hch, ?_,
                wfL_set hwl its.length (le_refl _) hwc', ?_⟩
              · rw [List.length_set]; exact har
              · have hS := sumCounts_set cs its.length c' (by omega)
                rw [hcnt]
                push_cast
                omega
    intro h rt lo hi n index path res hw h0i hlt hrun
    obtain ⟨its, ch, cnt⟩ := n
    have hocc := wfN_occupancy hw
    simp only [Node.items_mk] at hocc
    have hlen1 : 1 ≤ its.length := by
      cases rt with
      | false => have := hocc.2.1 rfl; omega
      | true => exact hocc.1 rfl
    cases ch with
    | none =>
      simp only [deleteAtLoop, Node.items_mk, Node.children_mk, Node.count_mk] at hrun
      simp only [wfN, Bool.and_eq_true, and_assoc, beq_iff_eq,
        decide_eq_true_eq] at hw
      obtain ⟨h0, -, hle, hchn, hcnt⟩ := hw
      simp only [Node.count_mk] at hlt
      have hidx : index.toNat < its.length := by omega
      by_cases hunder : its.length = mn
      · rw [if_pos hunder] at hrun
        injection hrun with hrun
        subst hrun
        intro item n' hres
        simp at hres
      · rw [if_neg hunder] at hrun
        injection hrun with hrun
        subst hrun
        intro item n' hres
        simp only [Sum.inl.injEq, Prod.mk.injEq] at hres
        obtain ⟨h1, h2⟩ := hres
        subst h2
        have hlenE : (its.eraseIdx index.toNat).length = its.length - 1 :=
          List.length_eraseIdx_of_lt hidx
        refine ⟨?_, by simp [Node.count_mk], ?_, ?_⟩
        · simp only [wfD, Bool.and_eq_true, and_assoc, beq_iff_eq,
            decide_eq_true_eq, Node.items_mk, Node.count_mk]
          refine ⟨h0, ?_, chainB_eraseIdx _ hchn, ?_⟩
          · rw [hlenE]; omega
          · rw [hlenE, hcnt]; omega
        · intro hrt
          have := hocc.2.1 hrt
          simp only [Node.items_mk]
          rw [hlenE]
          omega
        · by_cases hz2 : its.length = 1
          · left
            show cnt - 1 = 0
            rw [hcnt]
            omega
          · right
            show 1 ≤ (its.eraseIdx index.toNat).length
            rw [hlenE]
            omega
    | some cs =>
      simp only [deleteAtLoop, Node.items_mk, Node.children_mk, Node.count_mk] at hrun
      simp only [wfN, Bool.and_eq_true, and_assoc, beq_iff_eq, bne_iff_ne,
        decide_eq_true_eq] at hw
      obtain ⟨h0, -, hle, hchn, har, hwl, hcnt⟩ := hw
      simp only [Node.count_mk] at hlt
      intro item n' hres
      have hres2 := hB (its.length + 1) (by omega) (by omega) hchn hle hlen1 har hwl
        hcnt h0i (by rw [List.drop_zero]; rw [hcnt] at hlt; push_cast at hlt ⊢; omega)
        hrun item n' hres
      have hh1 : h - 1 + 1 = h := by omega
      rw [hh1] at hres2
      refine ⟨hres2.1, by simp only [Node.count_mk]; exact hres2.2.1, ?_, ?_⟩
      · intro hrt
        have := hocc.2.1 hrt
        rw [hres2.2.2]
        omega
      · right
        rw [hres2.2.2]
        omega


/-- `DeleteAt` preserves validity: on an empty tree or an out-of-range index
it is a no-op reporting `false`; otherwise either the in-place fast path
commits the removal, or the code falls back to `deleteHint` on the item
found at the index. -/
theorem deleteAt_valid {t : Tree α} {index : Int} {fuel : Nat}
    {t' : Tree α} {item : α} {ok : Bool}
    (hv : Valid t = true) (hrun : deleteAt t index fuel = some (t', item, ok)) :
    Valid t' = true ∧ t'.minI = t.minI ∧ t'.maxI = t.maxI ∧
    t'.count = t.count - (if ok = true then 1 else 0) ∧
    (ok = false → t' = t) := by
  have hv0 := hv
  obtain ⟨troot, tcnt, tmn, tmx⟩ := t
  cases troot with
  | none =>
    simp only [deleteAt] at hrun
    injection hrun with hrun
    simp only [Prod.mk.injEq] at hrun
    obtain ⟨h1, h2, h3⟩ := hrun
    subst h1
    subst h2
    subst h3
    exact ⟨hv0, rfl, rfl, by simp, fun _ => rfl⟩
  | some r =>
    simp only [deleteAt] at hrun
    by_cases hr : (index < 0 ∨ index ≥ tcnt)
    · rw [if_pos hr] at hrun
      injection hrun with hrun
      simp only [Prod.mk.injEq] at hrun
      obtain ⟨h1, h2, h3⟩ := hrun
      subst h1
      subst h2
      subst h3
      exact ⟨hv0, rfl, rfl, by simp, fun _ => rfl⟩
    · rw [if_neg hr] at hrun
      push_neg at hr
      obtain ⟨h0i, hlti⟩ := hr
      simp only [Valid, Bool.and_eq_true, and_assoc, beq_iff_eq,
        decide_eq_true_eq] at hv
      obtain ⟨hmn1, hmxE, hroot1, hroot2⟩ := hv
      rcases hrec : deleteAtLoop tmn r index [] fuel with - | rL
      · rw [hrec] at hrun
        exact Option.noConfusion hrun
      · simp only [hrec] at hrun
        cases rL with
        | inl pr =>
          obtain ⟨itemL, r'⟩ := pr
          injection hrun with hrun
          simp only [Prod.mk.injEq] at hrun
          obtain ⟨h1, h2, h3⟩ := hrun
          subst h1
          subst h2
          subst h3
          have hlt2 : index < r.count := by
            rw [hroot2] at hlti
            exact hlti
          have hD := deleteAtLoop_wf hmn1 hmxE fuel hroot1 h0i hlt2 hrec itemL r' rfl
          obtain ⟨hA, hB, -, hO⟩ := hD
          refine ⟨?_, rfl, rfl, by simp, fun hx => by simp at hx⟩
          by_cases hz : tcnt - 1 = (0 : Int)
          · rw [if_pos hz]
            simp only [Valid, Bool.and_eq_true, and_assoc, beq_iff_eq,
              decide_eq_true_eq]
            exact ⟨hmn1, hmxE, hz⟩
          · rw [if_neg hz]
            have hrc : r'.count = tcnt - 1 := by rw [hB, ← hroot2]
            have h1le : 1 ≤ r'.items.length := by
              rcases hO with h0 | h1
              · rw [hrc] at h0
                exact absurd h0 hz
              · exact h1
            have hvN : wfN tmn tmx true (heightLoop r - 1) none none r' = true :=
              wfN_of_wfD hA (fun _ => h1le) (fun hx => absurd hx (by decide))
            have hH := heightLoop_of_wfN _ hvN
            simp only [Valid, Bool.and_eq_true, and_assoc, beq_iff_eq,
              decide_eq_true_eq]
            refine ⟨hmn1, hmxE, ?_, by omega⟩
            rw [hH]
            simpa using hvN
        | inr pr =>
          obtain ⟨itemF, path⟩ := pr
          simp only [] at hrun
          have hDV := deleteHint_valid hv0 hrun
          exact ⟨hDV.1, hDV.2.2.1, hDV.2.2.2.1, hDV.2.1, hDV.2.2.2.2⟩


theorem chainB_append_last {lo : Option α} {its : List α} {item : α}
    (hc : chainB lo none its = true) (hne : its ≠ [])
    (hlast : its.getD (its.length - 1) default < item) :
    chainB lo none (its ++ [item]) = true := by
  induction its generalizing lo with
  | nil => exact absurd rfl hne
  | cons y ys ih =>
    simp only [chainB, Bool.and_eq_true] at hc
    cases ys with
    | nil =>
      simp only [List.length_cons, List.length_nil, Nat.add_sub_cancel,
        List.getD_cons_zero] at hlast
      simp only [List.cons_append, List.nil_append, chainB, Bool.and_eq_true]
      exact ⟨hc.1, by simpa [lob] using hlast, by simp [lob]⟩
    | cons z zs =>
      have hlast' : (z :: zs).getD ((z :: zs).length - 1) default < item := by
        have hidx : (y :: z :: zs).length - 1 = ((z :: zs).length - 1) + 1 := by
          simp [List.length_cons]
        rw [hidx, List.getD_cons_succ] at hlast
        exact hlast
      have h2 := ih hc.2 (by simp) hlast'
      simp only [List.cons_append, chainB, Bool.and_eq_true] at h2 ⊢
      exact ⟨hc.1, h2⟩

/-- The rightmost-spine append of `Load`: when the loop succeeds with a
node, well-formedness within `(lo, +∞)` is preserved, the count goes up by
one, and the new item lands at the end of the in-order sequence. -/
theorem loadLoop_wf {mn mx : Nat} (hmn : 1 ≤ mn) (hmx : mx = 2 * mn + 1) :
    ∀ (fuel : Nat) {h : Nat} {rt : Bool} {lo : Option α} {n : Node α} {item : α}
      {res : Option (Node α)},
      wfN mn mx rt h lo none n = true →
      loadLoop mx n item fuel = some res →
      ∀ n', res = some n' →
        wfN mn mx rt h lo none n' = true ∧ n'.count = n.count + 1 ∧
        nodeItems n' = nodeItems n ++ [item] := by
  intro fuel
  induction fuel with
  | zero =>
    intro h rt lo n item res hw hrun
    simp [loadLoop] at hrun
  | succ fuel ih =>
    intro h rt lo n item res hw hrun n' hres
    have hw0 := hw
    obtain ⟨its, ch, cnt⟩ := n
    have hlen1 : 1 ≤ its.length := by
      have hocc := wfN_occupancy hw0
      simp only [Node.items_mk] at hocc
      cases rt with
      | false => have := hocc.2.1 rfl; omega
      | true => exact hocc.1 rfl
    cases ch with
    | none =>
      simp only [loadLoop, Node.items_mk, Node.children_mk, Node.count_mk] at hrun
      simp only [wfN, Bool.and_eq_true, and_assoc, beq_iff_eq,
        decide_eq_true_eq] at hw
      obtain ⟨h0, -, hle, hchn, hcnt⟩ := hw
      by_cases hg : (its.length < mx ∧ its.getD (its.length - 1) default < item)
      · rw [if_pos hg] at hrun
        injection hrun with hrun
        subst hrun
        injection hres with hres
        subst hres
        have hne : its ≠ [] := by
          intro hx
          rw [hx] at hlen1
          simp at hlen1
        refine ⟨wfN_of_wfD ?_ (fun _ => ?_) (fun hrt => ?_), by simp [Node.count_mk], ?_⟩
        · simp only [wfD, Bool.and_eq_true, and_assoc, beq_iff_eq,
            decide_eq_true_eq, Node.items_mk, Node.count_mk]
          refine ⟨h0, ?_, chainB_append_last hchn hne hg.2, ?_⟩
          · rw [List.length_append]
            simp only [List.length_cons, List.length_nil]
            omega
          · rw [List.length_append]
            simp only [List.length_cons, List.length_nil]
            push_cast
            omega
        · simp only [Node.items_mk, List.length_append]
          omega
        · have hocc := (wfN_occupancy hw0).2.1 hrt
          simp only [Node.items_mk] at hocc ⊢
          rw [List.length_append]
          omega
        · rw [nodeItems_leaf, nodeItems_leaf]
      · rw [if_neg hg] at hrun
        injection hrun with hrun
        subst hrun
        exact Option.noConfusion hres
    | some cs =>
      simp only [loadLoop, Node.items_mk, Node.children_mk, Node.count_mk] at hrun
      simp only [wfN, Bool.and_eq_true, and_assoc, beq_iff_eq, bne_iff_ne,
        decide_eq_true_eq] at hw
      obtain ⟨h0, -, hle, hchn, har, hwl, hcnt⟩ := hw
      have hj : cs.length - 1 = its.length := by omega
      rcases hrecL : loadLoop mx (cs.getD (cs.length - 1) default) item fuel
        with - | rr
      · rw [hrecL] at hrun
        exact Option.noConfusion hrun
      · simp only [hrecL] at hrun
        cases rr with
        | none =>
          injection hrun with hrun
          subst hrun
          exact Option.noConfusion hres
        | some c' =>
          injection hrun with hrun
          subst hrun
          injection hres with hres
          subst hres
          rw [hj] at hrecL
          have hbR : boundR (none : Option α) its its.length = none := by
            simp [boundR]
          have hwc := wfL_get hwl its.length (le_refl _)
          rw [hbR] at hwc
          have hC := ih hwc hrecL c' rfl
          obtain ⟨hcW, hcC, hcI⟩ := hC
          have hwc2 : wfN mn mx false (h - 1) (boundL lo its its.length)
              (boundR (none : Option α) its its.length) c' = true := by
            rw [hbR]
            exact hcW
          refine ⟨wfN_of_wfD ?_ (fun hrt => ?_) (fun hrt => ?_),
            by simp [Node.count_mk], ?_⟩
          · simp only [wfD, Bool.and_eq_true, and_assoc, beq_iff_eq, bne_iff_ne,
              decide_eq_true_eq, Node.items_mk, Node.children_mk, Node.count_mk]
            refine ⟨h0, hle, hchn, ?_, ?_, ?_⟩
            · rw [List.length_set]
              exact har
            · rw [hj]
              exact wfL_set hwl its.length (le_refl _) hwc2
            · have hS := sumCounts_set cs (cs.length - 1) c' (by omega)
              rw [hj] at hS
              rw [hj, hcnt]
              have hgc := hcC
              push_cast
              omega
          · simp only [Node.items_mk]
            omega
          · have hocc := (wfN_occupancy hw0).2.1 hrt
            simp only [Node.items_mk] at hocc ⊢
            omega
          · have harS : (cs.set (cs.length - 1) c').length = its.length + 1 := by
              rw [List.length_set]
              exact har
            rw [nodeItems_internal harS, nodeItems_internal har, hj]
            have hDL := flatI_decomp_last har
            rw [hDL.2 c', hDL.1, hcI]
            have hgd : nodeItems (cs.getD its.length default)
                = nodeItems (cs.getD (cs.length - 1) default) := by
              rw [hj]
            rw [← List.append_assoc]


/-- `Load` preserves validity: the rightmost-append fast path bumps the
count by one (never replacing), and both fallback paths are plain
`SetHint` insertions. -/
theorem load_valid {t : Tree α} {item : α} {fuel : Nat} {t' : Tree α}
    {prev : α} {replaced : Bool}
    (hv : Valid t = true) (hrun : load t item fuel = some (t', prev, replaced)) :
    Valid t' = true ∧
    t'.count = t.count + (if replaced = true then 0 else 1) ∧
    t'.minI = t.minI ∧ t'.maxI = t.maxI := by
  have hv0 := hv
  obtain ⟨troot, tcnt, tmn, tmx⟩ := t
  cases troot with
  | none =>
    simp only [load] at hrun
    rcases hS : setHint { root := none, count := tcnt, minI := tmn, maxI := tmx }
        item none fuel with - | q
    · rw [hS] at hrun
      simp at hrun
    · rw [hS] at hrun
      simp only [Option.map] at hrun
      injection hrun with hrun
      obtain ⟨t2, prev2, rep2, hint2⟩ := q
      simp only [Prod.mk.injEq] at hrun
      obtain ⟨h1, h2, h3⟩ := hrun
      subst h1
      subst h2
      subst h3
      exact setHint_valid fuel hv0 hS
  | some r =>
    simp only [Valid, Bool.and_eq_true, and_assoc, beq_iff_eq,
      decide_eq_true_eq] at hv
    obtain ⟨hmn1, hmxE, hroot1, hroot2⟩ := hv
    simp only [load] at hrun
    rcases hL : loadLoop tmx r item fuel with - | rr
    · rw [hL] at hrun
      exact Option.noConfusion hrun
    · simp only [hL] at hrun
      cases rr with
      | none =>
        simp only [] at hrun
        rcases hS : setHint { root := some r, count := tcnt, minI := tmn, maxI := tmx }
            item none fuel with - | q
        · rw [hS] at hrun
          simp at hrun
        · rw [hS] at hrun
          simp only [Option.map] at hrun
          injection hrun with hrun
          obtain ⟨t2, prev2, rep2, hint2⟩ := q
          simp only [Prod.mk.injEq] at hrun
          obtain ⟨h1, h2, h3⟩ := hrun
          subst h1
          subst h2
          subst h3
          exact setHint_valid fuel hv0 hS
      | some r' =>
        simp only [] at hrun
        injection hrun with hrun
        simp only [Prod.mk.injEq] at hrun
        obtain ⟨h1, h2, h3⟩ := hrun
        subst h1
        subst h2
        subst h3
        have hW := loadLoop_wf hmn1 hmxE fuel hroot1 hL r' rfl
        obtain ⟨hA, hB, -⟩ := hW
        have hH := heightLoop_of_wfN _ hA
        have hH0 := heightLoop_of_wfN _ hroot1
        refine ⟨?_, by simp [hroot2, hB], rfl, rfl⟩
        simp only [Valid, Bool.and_eq_true, and_assoc, beq_iff_eq,
          decide_eq_true_eq]
        refine ⟨hmn1, hmxE, ?_, ?_⟩
        · rw [hH, ← hH0]
          simpa using hA
        · rw [hB, hroot2]


theorem newTree_valid (deg : Int) : Valid (newTree deg : Tree α) = true := by
  unfold Valid newTree degreeToMinMax
  simp only [Bool.and_eq_true, and_assoc, beq_iff_eq, decide_eq_true_eq]
  refine ⟨?_, ?_, trivial⟩ <;> (dsimp only; split_ifs <;> omega)

theorem Valid_count_items {t : Tree α} (hv : Valid t = true) :
    t.count = ((itemsT t).length : Int) := by
  obtain ⟨troot, tcnt, tmn, tmx⟩ := t
  cases troot with
  | none =>
    simp only [Valid, Bool.and_eq_true, and_assoc, beq_iff_eq,
      decide_eq_true_eq] at hv
    simp only [itemsT, List.length_nil]
    exact hv.2.2
  | some r =>
    simp only [Valid, Bool.and_eq_true, and_assoc, beq_iff_eq,
      decide_eq_true_eq] at hv
    obtain ⟨-, -, hroot1, hroot2⟩ := hv
    have := nodeItems_length_wfN hroot1
    simp only [itemsT]
    rw [hroot2, ← this]

theorem applyOp_valid {t : Tree α} {op : Op α} {fuel : Nat}
    (hv : Valid t = true) : Valid (applyOp t op fuel) = true := by
  cases op with
  | setOp x =>
    simp only [applyOp, set]
    rcases hS : setHint t x none fuel with - | q
    · simp [hv]
    · obtain ⟨t2, p2, r2, h2⟩ := q
      simp only [Option.map, Option.getD]
      exact (setHint_valid fuel hv hS).1
  | loadOp x =>
    simp only [applyOp]
    rcases hS : load t x fuel with - | q
    · simp [hv]
    · obtain ⟨t2, p2, r2⟩ := q
      simp only [Option.map, Option.getD]
      exact (load_valid hv hS).1
  | delOp x =>
    simp only [applyOp, deleteT]
    rcases hS : deleteHint t x none fuel with - | q
    · simp [hv]
    · obtain ⟨t2, p2, d2⟩ := q
      simp only [Option.map, Option.getD]
      exact (deleteHint_valid hv hS).1
  | popMinOp =>
    simp only [applyOp]
    rcases hS : popMin t fuel with - | q
    · simp [hv]
    · simp only [Option.map, Option.getD]
      exact (popMin_valid hv hS).1
  | popMaxOp =>
    simp only [applyOp]
    rcases hS : popMax t fuel with - | q
    · simp [hv]
    · simp only [Option.map, Option.getD]
      exact (popMax_valid hv hS).1
  | deleteAtOp i =>
    simp only [applyOp]
    rcases hS : deleteAt t i fuel with - | q
    · simp [hv]
    · obtain ⟨t2, it2, ok2⟩ := q
      simp only [Option.map, Option.getD]
      exact (deleteAt_valid hv hS).1
  | copyOp =>
    simp only [applyOp, isoCopy]
    exact hv
  | clearOp =>
    simp only [applyOp, clear]
    simp only [Valid, Bool.and_eq_true, and_assoc, beq_iff_eq,
      decide_eq_true_eq] at hv ⊢
    exact ⟨hv.1, hv.2.1, trivial⟩

theorem runOps_valid {t : Tree α} {ops : List (Op α)} {fuel : Nat}
    (hv : Valid t = true) : Valid (runOps t ops fuel) = true := by
  induction ops generalizing t with
  | nil => exact hv
  | cons op ops ih =>
    simp only [runOps, List.foldl_cons]
    exact ih (applyOp_valid hv)

/-- **C1**: starting from a tree created with any degree, after any finite
sequence of public mutating calls (`Set`, `Load`, `Delete`, `PopMin`,
`PopMax`, `DeleteAt`, `Copy`, `Clear`) the tree satisfies all structural
invariants — all leaves at equal depth, per-node occupancy (root allowed
1..max, others min..max), interleaved order with |items|+1 children per
internal node, and stored counts equal to |items| plus children's counts —
and the tree's `count` equals the total number of items it holds. -/
theorem ops_preserve_valid (deg : Int) (ops : List (Op α)) (fuel : Nat) :
    Valid (runOps (newTree deg) ops fuel) = true ∧
    (runOps (newTree deg) ops fuel).count
      = ((itemsT (runOps (newTree deg) ops fuel)).length : Int) := by
  have hvalid : Valid (runOps (newTree deg : Tree α) ops fuel) = true :=
    runOps_valid (newTree_valid deg)
  exact ⟨hvalid, Valid_count_items hvalid⟩


theorem itemsT_sorted {t : Tree α} (hv : Valid t = true) :
    (itemsT t).Pairwise (· < ·) := by
  obtain ⟨troot, tcnt, tmn, tmx⟩ := t
  cases troot with
  | none => exact List.Pairwise.nil
  | some r =>
    simp only [Valid, Bool.and_eq_true, and_assoc, beq_iff_eq,
      decide_eq_true_eq] at hv
    exact nodeItems_sorted _ hv.2.2.1

/-- **C8**: on a non-empty tree `PopMin` removes and returns the first item
of the (strictly sorted, hence minimum-first) in-order sequence and
`PopMax` the last (the maximum), both reporting `ok = true`, leaving a
valid tree holding the remaining items with the count reduced by one —
whether the in-place leaf fast path applies or the code reverts and falls
back to a full `delete` with `takeMax`. -/
theorem popMin_popMax_pop_ends {t : Tree α} {fuel : Nat}
    {resMin resMax : α × Bool × Tree α}
    (hv : Valid t = true) (hne : t.root ≠ none)
    (hmin : popMin t fuel = some resMin) (hmax : popMax t fuel = some resMax) :
    (itemsT t).Pairwise (· < ·) ∧
    resMin.2.1 = true ∧ resMin.1 = (itemsT t).getD 0 default ∧
    itemsT resMin.2.2 = (itemsT t).drop 1 ∧
    Valid resMin.2.2 = true ∧ resMin.2.2.count = t.count - 1 ∧
    resMax.2.1 = true ∧
    resMax.1 = (itemsT t).getD ((itemsT t).length - 1) default ∧
    itemsT resMax.2.2 = (itemsT t).dropLast ∧
    Valid resMax.2.2 = true ∧ resMax.2.2.count = t.count - 1 := by
  have hMn := popMin_valid hv hmin
  have hMx := popMax_valid hv hmax
  obtain ⟨hok1, hit1, hcnt1, hdrop1⟩ := hMn.2.2 hne
  obtain ⟨hok2, hit2, hcnt2, hdrop2⟩ := hMx.2.2 hne
  exact ⟨itemsT_sorted hv, hok1, hit1, hdrop1, hMn.1, hcnt1,
    hok2, hit2, hdrop2, hMx.1, hcnt2⟩

theorem popMin_popMax_pop_ends_witness :
    (Valid ({ root := some (Node.mk [1, 2] none 2), count := 2, minI := 1, maxI := 3 } : Tree Int) = true ∧
     ({ root := some (Node.mk [1, 2] none 2), count := 2, minI := 1, maxI := 3 } : Tree Int).root ≠ none ∧
     popMin ({ root := some (Node.mk [1, 2] none 2), count := 2, minI := 1, maxI := 3 } : Tree Int) 10 = some (1, true, ({ root := some (Node.mk [2] none 1), count := 1, minI := 1, maxI := 3 } : Tree Int)) ∧
     popMax ({ root := some (Node.mk [1, 2] none 2), count := 2, minI := 1, maxI := 3 } : Tree Int) 10 = some (2, true, ({ root := some (Node.mk [1] none 1), count := 1, minI := 1, maxI := 3 } : Tree Int))) ∧
    ((itemsT ({ root := some (Node.mk [1, 2] none 2), count := 2, minI := 1, maxI := 3 } : Tree Int)).Pairwise (· < ·) ∧
     true = true ∧ (1 : Int) = (itemsT ({ root := some (Node.mk [1, 2] none 2), count := 2, minI := 1, maxI := 3 } : Tree Int)).getD 0 default ∧
     itemsT ({ root := some (Node.mk [2] none 1), count := 1, minI := 1, maxI := 3 } : Tree Int) = (itemsT ({ root := some (Node.mk [1, 2] none 2), count := 2, minI := 1, maxI := 3 } : Tree Int)).drop 1 ∧
     Valid ({ root := some (Node.mk [2] none 1), count := 1, minI := 1, maxI := 3 } : Tree Int) = true ∧ (({ root := some (Node.mk [2] none 1), count := 1, minI := 1, maxI := 3 } : Tree Int)).count = (({ root := some (Node.mk [1, 2] none 2), count := 2, minI := 1, maxI := 3 } : Tree Int)).count - 1 ∧
     true = true ∧
     (2 : Int) = (itemsT ({ root := some (Node.mk [1, 2] none 2), count := 2, minI := 1, maxI := 3 } : Tree Int)).getD ((itemsT ({ root := some (Node.mk [1, 2] none 2), count := 2, minI := 1, maxI := 3 } : Tree Int)).length - 1) default ∧
     itemsT ({ root := some (Node.mk [1] none 1), count := 1, minI := 1, maxI := 3 } : Tree Int) = (itemsT ({ root := some (Node.mk [1, 2] none 2), count := 2, minI := 1, maxI := 3 } : Tree Int)).dropLast ∧
     Valid ({ root := some (Node.mk [1] none 1), count := 1, minI := 1, maxI := 3 } : Tree Int) = true ∧ (({ root := some (Node.mk [1] none 1), count := 1, minI := 1, maxI := 3 } : Tree Int)).count = (({ root := some (Node.mk [1, 2] none 2), count := 2, minI := 1, maxI := 3 } : Tree Int)).count - 1) :=
  by
  have h1 : Valid ({ root := some (Node.mk [1, 2] none 2), count := 2, minI := 1, maxI := 3 } : Tree Int) = true := by rfl
  have h2 : ({ root := some (Node.mk [1, 2] none 2), count := 2, minI := 1, maxI := 3 } : Tree Int).root ≠ none := by simp
  have h3 : popMin ({ root := some (Node.mk [1, 2] none 2), count := 2, minI := 1, maxI := 3 } : Tree Int) 10 = some (1, true, ({ root := some (Node.mk [2] none 1), count := 1, minI := 1, maxI := 3 } : Tree Int)) := by rfl
  have h4 : popMax ({ root := some (Node.mk [1, 2] none 2), count := 2, minI := 1, maxI := 3 } : Tree Int) 10 = some (2, true, ({ root := some (Node.mk [1] none 1), count := 1, minI := 1, maxI := 3 } : Tree Int)) := by rfl
  exact ⟨⟨h1, h2, h3, h4⟩, popMin_popMax_pop_ends h1 h2 h3 h4⟩

end BT
